import Mathlib

/-!
Verification of the lsif-semanticdb correlation engine
(`internal/index/types.go`, `internal/index/helper.go`,
`internal/index/writer.go`) against its natural-language specification.

Go maps are embedded as association lists with insert-or-replace update
(`aset`); Go map iteration, whose order is unspecified, is determinized to
list order.  Vertex/edge IDs are `Nat`.  The lsif-go `protocol.Emitter`
(an external dependency, specified in the spec's sections 4.2-4.3) is
embedded as a state that allocates dense IDs from 1 and appends one record
per operation.
-/

/-- Association-list lookup: Go `v, ok := m[k]`. -/
def alookup {α β : Type} [DecidableEq α] : List (α × β) → α → Option β
  | [], _ => none
  | (k, v) :: rest, key => if k = key then some v else alookup rest key

/-- Association-list insert-or-replace: Go `m[k] = v`.  Replacement keeps
the original position; a fresh key is appended. -/
def aset {α β : Type} [DecidableEq α] : List (α × β) → α → β → List (α × β)
  | [], key, v => [(key, v)]
  | (k, w) :: rest, key, v =>
    if k = key then (k, v) :: rest else (k, w) :: aset rest key v

/-- Left fold that deduplicates a list against already-seen elements,
keeping first occurrences.  Matches the growth of an association list's
key list under repeated `aset`. -/
def dedupAux {α : Type} [DecidableEq α] : List α → List α → List α
  | acc, [] => acc
  | acc, x :: xs => if x ∈ acc then dedupAux acc xs else dedupAux (acc ++ [x]) xs

/-- Deduplicate, keeping first occurrences. -/
def dedup {α : Type} [DecidableEq α] (l : List α) : List α := dedupAux [] l

/-- SemanticDB occurrence roles (proto enum); roles other than
DEFINITION and REFERENCE are ignored by the engine. -/
inductive Role where
  | unknownRole
  | reference
  | definition
deriving DecidableEq

/-- SemanticDB `Range` message (0-based positions). -/
structure PbRange where
  startLine : Int
  startCharacter : Int
  endLine : Int
  endCharacter : Int
deriving DecidableEq

/-- An LSP position, from lsif-go `protocol.Pos`. -/
structure Pos where
  line : Int
  character : Int
deriving DecidableEq

/-- `convertRange` from `helper.go`. -/
def convertRange (r : PbRange) : Pos × Pos :=
  (⟨r.startLine, r.startCharacter⟩, ⟨r.endLine, r.endCharacter⟩)

/-- SemanticDB `SymbolOccurrence`. -/
structure SymbolOccurrence where
  symbol : String
  role : Role
  range : PbRange
deriving DecidableEq

/-- SemanticDB `SymbolInformation`. -/
structure SymbolInformation where
  symbol : String
  displayName : String
deriving DecidableEq

/-- SemanticDB `TextDocument`. -/
structure TextDocument where
  uri : String
  symbols : List SymbolInformation
  occurrences : List SymbolOccurrence
deriving DecidableEq

/-- One LSIF record (vertex or edge), as handed to the emitter.  Payloads
are kept exactly as the core passes them to the lsif-go emitter. -/
inductive Element where
  | metaData (uri : String) (toolInfo : String)
  | project (language : String)
  | document (language : String) (uri : String)
  | range (startPos : Pos) (endPos : Pos)
  | resultSet
  | definitionResult
  | referenceResult
  | hoverResult (contents : List (String × String))
  | next (outV : Nat) (inV : Nat)
  | textDocumentDefinition (outV : Nat) (inV : Nat)
  | textDocumentReferences (outV : Nat) (inV : Nat)
  | textDocumentHover (outV : Nat) (inV : Nat)
  | item (outV : Nat) (inVs : List Nat) (docID : Nat)
  | itemOfDefinitions (outV : Nat) (inVs : List Nat) (docID : Nat)
  | itemOfReferences (outV : Nat) (inVs : List Nat) (docID : Nat)
  | contains (outV : Nat) (inVs : List Nat)
deriving DecidableEq

/-- The record kind (`label` field of the JSON object). -/
inductive Label where
  | metaDataL
  | projectL
  | documentL
  | rangeL
  | resultSetL
  | definitionResultL
  | referenceResultL
  | hoverResultL
  | nextL
  | textDocumentDefinitionL
  | textDocumentReferencesL
  | textDocumentHoverL
  | itemL
  | itemOfDefinitionsL
  | itemOfReferencesL
  | containsL
deriving DecidableEq

/-- The label of an emitted record. -/
def Element.label : Element → Label
  | .metaData .. => .metaDataL
  | .project .. => .projectL
  | .document .. => .documentL
  | .range .. => .rangeL
  | .resultSet => .resultSetL
  | .definitionResult => .definitionResultL
  | .referenceResult => .referenceResultL
  | .hoverResult .. => .hoverResultL
  | .next .. => .nextL
  | .textDocumentDefinition .. => .textDocumentDefinitionL
  | .textDocumentReferences .. => .textDocumentReferencesL
  | .textDocumentHover .. => .textDocumentHoverL
  | .item .. => .itemL
  | .itemOfDefinitions .. => .itemOfDefinitionsL
  | .itemOfReferences .. => .itemOfReferencesL
  | .contains .. => .containsL

/-- Number of emitted records carrying a given label. -/
def countLabel (l : Label) (es : List (Nat × Element)) : Nat :=
  (es.filter fun p => decide (p.2.label = l)).length

/-- Modelled from the spec (sections 4.2-4.3): the lsif-go
`protocol.Emitter`, an external dependency of this repository.  It
allocates dense 64-bit IDs starting at 1, one per emitted record, and
`NumElements` reports the number of records emitted so far. -/
structure Emitter where
  nextID : Nat
  elements : List (Nat × Element)
deriving DecidableEq

/-- A fresh emitter, before any record is emitted. -/
def Emitter.init : Emitter := ⟨1, []⟩

/-- Emit one record: allocate the next ID, append the record, return the ID. -/
def emit (em : Emitter) (e : Element) : Nat × Emitter :=
  (em.nextID, ⟨em.nextID + 1, em.elements ++ [(em.nextID, e)]⟩)

/-- `Emitter.NumElements`. -/
def numElements (em : Emitter) : Nat := em.elements.length

/-- `defInfo` from `types.go`: the four vertex IDs recorded for one
defining occurrence. -/
structure defInfo where
  docID : Nat
  rangeID : Nat
  resultSetID : Nat
  defResultID : Nat
deriving DecidableEq

/-- `refResultInfo` from `types.go`: a symbol's result set together with
the defining and referencing ranges accumulated per document. -/
structure refResultInfo where
  resultSetID : Nat
  defRangeIDs : List (Nat × List Nat)
  refRangeIDs : List (Nat × List Nat)
deriving DecidableEq

/-- `fileInfo` from `types.go`: per-document correlation state. -/
structure fileInfo where
  document : TextDocument
  symbols : List (String × SymbolInformation)
  docID : Nat
  defRangeIDs : List Nat
  useRangeIDs : List Nat
  localDefs : List (String × defInfo)
  localRefs : List (String × refResultInfo)
deriving DecidableEq

/-- Go `if _, ok := m[k]; !ok { m[k] = [] }; m[k] = append(m[k], v)`. -/
def mapAppend (m : List (Nat × List Nat)) (k : Nat) (v : Nat) : List (Nat × List Nat) :=
  match alookup m k with
  | none => aset m k [v]
  | some l => aset m k (l ++ [v])

/-- `const LanguageScala = "scala"`. -/
def LanguageScala : String := "scala"

/-- Inner loop of `getDefAndRefInfo`: try keys against the global tables
in order, stopping at the first `defs` hit. -/
def firstHit (defs : List (String × defInfo)) (refs : List (String × refResultInfo)) :
    List String → Option defInfo × Option refResultInfo
  | [] => (none, none)
  | k :: ks =>
    match alookup defs k with
    | some d => (some d, alookup refs k)
    | none => firstHit defs refs ks

/-- `getDefAndRefInfo` from `types.go`: local lookup, then the global
key cascade. -/
def getDefAndRefInfo (fi : fileInfo) (defs : List (String × defInfo))
    (refs : List (String × refResultInfo)) (symbol : String) :
    Option defInfo × Option refResultInfo :=
  match alookup fi.localDefs symbol with
  | some d => (some d, alookup fi.localRefs symbol)
  | none =>
    let keys := [symbol,
      symbol.replace "." "#",
      (symbol.replace "_=" "").replace "`" ""]
    firstHit defs refs keys

/-- The same cascade, additionally reporting which table (local or
global) and which key produced the hit; this makes explicit the location
that the Go code mutates through the returned `*refResultInfo`. -/
def resolveRef (fi : fileInfo) (defs : List (String × defInfo)) (symbol : String) :
    Option (defInfo × Bool × String) :=
  match alookup fi.localDefs symbol with
  | some d => some (d, true, symbol)
  | none =>
    let keys := [symbol,
      symbol.replace "." "#",
      (symbol.replace "_=" "").replace "`" ""]
    firstHitKey defs keys
where
  firstHitKey (defs : List (String × defInfo)) : List String → Option (defInfo × Bool × String)
    | [] => none
    | k :: ks =>
      match alookup defs k with
      | some d => some (d, false, k)
      | none => firstHitKey defs ks

/-- The state threaded through one document's pass over its occurrences:
the document's `fileInfo`, the global tables, the emitter, and the
range-ID list accumulated by the pass (`rangeIDs` in the Go source). -/
structure PassAcc where
  fi : fileInfo
  defs : List (String × defInfo)
  refs : List (String × refResultInfo)
  em : Emitter
  rangeIDs : List Nat
deriving DecidableEq

/-- Loop body of `indexDbDefs` for one occurrence. -/
def defsStep (acc : PassAcc) (occurrence : SymbolOccurrence) : PassAcc :=
  if occurrence.role ≠ Role.definition then acc else
  let isLocal := occurrence.symbol.startsWith "local"
  let symbol := alookup acc.fi.symbols occurrence.symbol
  let er := emit acc.em (Element.range (convertRange occurrence.range).1 (convertRange occurrence.range).2)
  let rangeID := er.1
  let rangeIDs := acc.rangeIDs ++ [rangeID]
  let m0 := if isLocal then acc.fi.localRefs else acc.refs
  let rmt :=
    match alookup m0 occurrence.symbol with
    | some rr => (rr, m0, er.2)
    | none =>
      let es := emit er.2 Element.resultSet
      let rr : refResultInfo := ⟨es.1, [], []⟩
      (rr, aset m0 occurrence.symbol rr, es.2)
  let refResult := { rmt.1 with defRangeIDs := mapAppend rmt.1.defRangeIDs acc.fi.docID rangeID }
  let m := aset rmt.2.1 occurrence.symbol refResult
  let e1 := emit rmt.2.2 (Element.next rangeID refResult.resultSetID)
  let e2 := emit e1.2 Element.definitionResult
  let defResultID := e2.1
  let e3 := emit e2.2 (Element.textDocumentDefinition refResult.resultSetID defResultID)
  let e4 := emit e3.2 (Element.item defResultID [rangeID] acc.fi.docID)
  let d : defInfo := ⟨acc.fi.docID, rangeID, refResult.resultSetID, defResultID⟩
  let contents : List (String × String) := [("scala", (symbol.map SymbolInformation.displayName).getD "")]
  let e5 := emit e4.2 (Element.hoverResult contents)
  let e6 := emit e5.2 (Element.textDocumentHover refResult.resultSetID e5.1)
  let rangeIDs := rangeIDs ++ [rangeID]
  if isLocal then
    { acc with
        fi := { acc.fi with localRefs := m, localDefs := aset acc.fi.localDefs occurrence.symbol d },
        em := e6.2, rangeIDs := rangeIDs }
  else
    { acc with refs := m, defs := aset acc.defs occurrence.symbol d, em := e6.2, rangeIDs := rangeIDs }

/-- Loop body of `indexDbUses` for one occurrence. -/
def usesStep (acc : PassAcc) (occurrence : SymbolOccurrence) : PassAcc :=
  if occurrence.role ≠ Role.reference then acc else
  let r := resolveRef acc.fi acc.defs occurrence.symbol
  let er := emit acc.em (Element.range (convertRange occurrence.range).1 (convertRange occurrence.range).2)
  let rangeID := er.1
  let rangeIDs := acc.rangeIDs ++ [rangeID]
  match r with
  | none =>
    let e1 := emit er.2 Element.referenceResult
    let refResultID := e1.1
    let e2 := emit e1.2 (Element.textDocumentReferences rangeID refResultID)
    let e3 := emit e2.2 (Element.itemOfReferences refResultID [rangeID] acc.fi.docID)
    { acc with em := e3.2, rangeIDs := rangeIDs }
  | some (d, isLocal, k) =>
    let e1 := emit er.2 (Element.next rangeID d.resultSetID)
    if isLocal then
      match alookup acc.fi.localRefs k with
      | some rr =>
        { acc with
            fi := { acc.fi with localRefs := aset acc.fi.localRefs k { rr with refRangeIDs := mapAppend rr.refRangeIDs acc.fi.docID rangeID } },
            em := e1.2, rangeIDs := rangeIDs }
      | none => { acc with em := e1.2, rangeIDs := rangeIDs }
    else
      match alookup acc.refs k with
      | some rr =>
        { acc with
            refs := aset acc.refs k { rr with refRangeIDs := mapAppend rr.refRangeIDs acc.fi.docID rangeID },
            em := e1.2, rangeIDs := rangeIDs }
      | none => { acc with em := e1.2, rangeIDs := rangeIDs }

/-- Run a per-occurrence step over a document's occurrence list. -/
def runLoop (step : PassAcc → SymbolOccurrence → PassAcc) :
    PassAcc → List SymbolOccurrence → PassAcc
  | acc, [] => acc
  | acc, o :: os => runLoop step (step acc o) os

/-- `indexDbDefs`: the definitions pass over one document. -/
def indexDbDefs (fi : fileInfo) (defs : List (String × defInfo))
    (refs : List (String × refResultInfo)) (em : Emitter) :
    fileInfo × List (String × defInfo) × List (String × refResultInfo) × Emitter :=
  let acc := runLoop defsStep ⟨fi, defs, refs, em, []⟩ fi.document.occurrences
  ({ acc.fi with defRangeIDs := acc.fi.defRangeIDs ++ acc.rangeIDs }, acc.defs, acc.refs, acc.em)

/-- `indexDbUses`: the uses pass over one document. -/
def indexDbUses (fi : fileInfo) (defs : List (String × defInfo))
    (refs : List (String × refResultInfo)) (em : Emitter) :
    fileInfo × List (String × defInfo) × List (String × refResultInfo) × Emitter :=
  let acc := runLoop usesStep ⟨fi, defs, refs, em, []⟩ fi.document.occurrences
  ({ acc.fi with useRangeIDs := acc.fi.useRangeIDs ++ acc.rangeIDs }, acc.defs, acc.refs, acc.em)

/-- Global state threaded between passes: the document registry, the
global tables, and the emitter. -/
structure GState where
  files : List (String × fileInfo)
  defs : List (String × defInfo)
  refs : List (String × refResultInfo)
  em : Emitter
deriving DecidableEq

/-- The definitions pass over all documents, in registry order. -/
def defsPassFiles : List (String × fileInfo) → List (String × defInfo) →
    List (String × refResultInfo) → Emitter → GState
  | [], defs, refs, em => ⟨[], defs, refs, em⟩
  | (uri, fi) :: rest, defs, refs, em =>
    let r := indexDbDefs fi defs refs em
    let g := defsPassFiles rest r.2.1 r.2.2.1 r.2.2.2
    ⟨(uri, r.1) :: g.files, g.defs, g.refs, g.em⟩

/-- The uses pass over all documents, in registry order. -/
def usesPassFiles : List (String × fileInfo) → List (String × defInfo) →
    List (String × refResultInfo) → Emitter → GState
  | [], defs, refs, em => ⟨[], defs, refs, em⟩
  | (uri, fi) :: rest, defs, refs, em =>
    let r := indexDbUses fi defs refs em
    let g := usesPassFiles rest r.2.1 r.2.2.1 r.2.2.2
    ⟨(uri, r.1) :: g.files, g.defs, g.refs, g.em⟩

/-- Split a character list on `'/'` (the separator semantics of Go
`strings.Split(s, "/")` used by `path/filepath.Clean`). -/
def splitSlash : List Char → List (List Char)
  | [] => [[]]
  | c :: cs =>
    if c = '/' then [] :: splitSlash cs
    else
      match splitSlash cs with
      | s :: ss => (c :: s) :: ss
      | [] => [[c]]

/-- Rebuild a path from components, separated by `'/'`. -/
def joinSlash : List (List Char) → List Char
  | [] => []
  | [c] => c
  | c :: cs => c ++ '/' :: joinSlash cs

/-- The `..`-elimination stack walk of Go `path/filepath.Clean` (unix). -/
def cleanComps (rooted : Bool) : List (List Char) → List (List Char) → List (List Char)
  | [], stack => stack.reverse
  | c :: cs, stack =>
    if c = ['.', '.'] then
      match stack with
      | top :: rest =>
        if top = ['.', '.'] then cleanComps rooted cs (c :: top :: rest)
        else cleanComps rooted cs rest
      | [] => if rooted then cleanComps rooted cs [] else cleanComps rooted cs [c]
    else cleanComps rooted cs (c :: stack)

/-- Modelled from the spec: Go `path/filepath.Clean` for unix paths, used
by `filepath.Abs`; the Go standard library is not part of this
repository.  Collapses slashes, drops `.` components, and resolves `..`
against preceding components (dropping leading `..` from rooted paths). -/
def pathClean (s : String) : String :=
  let rooted := s.data.head? = some '/'
  let comps := (splitSlash s.data).filter fun c => ¬(c = [] ∨ c = ['.'])
  let out := cleanComps rooted comps []
  let body := joinSlash out
  if rooted then ⟨'/' :: body⟩
  else if body = [] then "." else ⟨body⟩

/-- Modelled from the spec: Go `path/filepath.Abs` relative to an
explicit working directory `cwd` (the real function reads the process
working directory); the Go standard library is not part of this
repository.  An absolute path is cleaned; a relative path is joined to
`cwd` and cleaned. -/
def filepathAbs (cwd p : String) : String :=
  if p.data.head? = some '/' then pathClean p
  else pathClean ⟨cwd.data ++ '/' :: p.data⟩

/-- `indexDbDocs`: emit one `document` vertex plus one project-level
`contains` edge per registered document, recording the document vertex
ID. -/
def indexDbDocs : List (String × fileInfo) → Nat → String → Emitter →
    List (String × fileInfo) × Emitter
  | [], _, _, em => ([], em)
  | (uri, fi) :: rest, proID, cwd, em =>
    let realURI := filepathAbs cwd uri
    let e1 := emit em (Element.document LanguageScala realURI)
    let docID := e1.1
    let e2 := emit e1.2 (Element.contains proID [docID])
    let r := indexDbDocs rest proID cwd e2.2
    ((uri, { fi with docID := docID }) :: r.1, r.2)

/-- Emit one `item-of-definitions` edge per document entry of a
reference result's `defRangeIDs` table. -/
def emitItemsOfDefinitions (refResultID : Nat) : List (Nat × List Nat) → Emitter → Emitter
  | [], em => em
  | (docID, rangeIDs) :: rest, em =>
    emitItemsOfDefinitions refResultID rest (emit em (Element.itemOfDefinitions refResultID rangeIDs docID)).2

/-- Emit one `item-of-references` edge per document entry of a
reference result's `refRangeIDs` table. -/
def emitItemsOfReferences (refResultID : Nat) : List (Nat × List Nat) → Emitter → Emitter
  | [], em => em
  | (docID, rangeIDs) :: rest, em =>
    emitItemsOfReferences refResultID rest (emit em (Element.itemOfReferences refResultID rangeIDs docID)).2

/-- Pass L body for one defining occurrence: look the symbol up in the
scope's reference table and, on a hit, emit the reference result and its
edges. -/
def linkStep (fi : fileInfo) (refs : List (String × refResultInfo))
    (em : Emitter) (occurrence : SymbolOccurrence) : Emitter :=
  if occurrence.role ≠ Role.definition then em else
  let isLocal := occurrence.symbol.startsWith "local"
  let rrInfo :=
    if isLocal then alookup fi.localRefs occurrence.symbol
    else alookup refs occurrence.symbol
  match rrInfo with
  | none => em
  | some rr =>
    let e1 := emit em Element.referenceResult
    let refResultID := e1.1
    let e2 := emit e1.2 (Element.textDocumentReferences rr.resultSetID refResultID)
    let e3 := emitItemsOfDefinitions refResultID rr.defRangeIDs e2.2
    emitItemsOfReferences refResultID rr.refRangeIDs e3

/-- Pass L over one document's occurrence list. -/
def linkFileLoop (fi : fileInfo) (refs : List (String × refResultInfo)) :
    List SymbolOccurrence → Emitter → Emitter
  | [], em => em
  | o :: os, em => linkFileLoop fi refs os (linkStep fi refs em o)

/-- The final per-document `contains` edge: emitted only when the
document accumulated at least one def or use range ID, with the
deduplicated union as `inVs`. -/
def linkFileContains (fi : fileInfo) (em : Emitter) : Emitter :=
  if fi.defRangeIDs.length > 0 ∨ fi.useRangeIDs.length > 0 then
    (emit em (Element.contains fi.docID (dedup (fi.defRangeIDs ++ fi.useRangeIDs)))).2
  else em

/-- Pass L plus the final `contains` edges, over all documents. -/
def linkPass : List (String × fileInfo) → List (String × refResultInfo) → Emitter → Emitter
  | [], _, em => em
  | (_, fi) :: rest, refs, em =>
    let em := linkFileLoop fi refs fi.document.occurrences em
    let em := linkFileContains fi em
    linkPass rest refs em

/-- `Stats` from `types.go`. -/
structure Stats where
  numFiles : Nat
  numDefs : Nat
  numElements : Nat
deriving DecidableEq

/-- The indexer state at the start of `index()`: configuration plus the
loaded document registry and the (initially empty) correlation tables. -/
structure indexer where
  projectRoot : String
  toolInfo : String
  files : List (String × fileInfo)
  defs : List (String × defInfo)
  refs : List (String × refResultInfo)
  em : Emitter
deriving DecidableEq

/-- Sum of `len(fi.localDefs)` over the registry. -/
def sumLocalDefs (files : List (String × fileInfo)) : Nat :=
  (files.map fun p => p.2.localDefs.length).sum

/-- Sum of `len(fi.localRefs)` over the registry. -/
def sumLocalRefs (files : List (String × fileInfo)) : Nat :=
  (files.map fun p => p.2.localRefs.length).sum

/-- `index()` from `types.go`: metadata and project frames, the document
pass, the three correlation passes, and the final statistics.  `cwd` is
the process working directory read by `filepath.Abs`. -/
def index (i : indexer) (cwd : String) : Stats × Emitter :=
  let realURI := filepathAbs cwd "."
  let e1 := emit i.em (Element.metaData ("file://" ++ realURI) i.toolInfo)
  let e2 := emit e1.2 (Element.project LanguageScala)
  let proID := e2.1
  let docs := indexDbDocs i.files proID cwd e2.2
  let g := defsPassFiles docs.1 i.defs i.refs docs.2
  let g := usesPassFiles g.files g.defs g.refs g.em
  let em := linkPass g.files g.refs g.em
  let numDefs := g.defs.length + sumLocalDefs g.files
  (⟨g.files.length, numDefs, numElements em⟩, em)

/-- The symbol-table construction loop of `loadDatabase`: fails on a
duplicate symbol key within one document. -/
def buildSymbols : List (String × SymbolInformation) → List SymbolInformation →
    Except String (List (String × SymbolInformation))
  | acc, [] => .ok acc
  | acc, s :: rest =>
    if (alookup acc s.symbol).isSome then .error ("duplicate symbol: " ++ s.symbol)
    else buildSymbols (acc ++ [(s.symbol, s)]) rest

/-- A freshly registered document entry. -/
def newFileInfo (doc : TextDocument) (syms : List (String × SymbolInformation)) : fileInfo :=
  ⟨doc, syms, 0, [], [], [], []⟩

/-- The per-document registration loop of `loadDatabase`: a document
replaces any earlier document with the same URI. -/
def loadDocuments : List (String × fileInfo) → List TextDocument →
    Except String (List (String × fileInfo))
  | files, [] => .ok files
  | files, doc :: rest =>
    match buildSymbols [] doc.symbols with
    | .error e => .error e
    | .ok syms => loadDocuments (aset files doc.uri (newFileInfo doc syms)) rest

/-- `loadDatabase` for one parsed `.semanticdb` batch. -/
def loadDatabase (files : List (String × fileInfo)) (batch : List TextDocument) :
    Except String (List (String × fileInfo)) :=
  loadDocuments files batch

/-- `loadDatabases`: walk the discovered `.semanticdb` files (given here
as parsed `(path, batch)` pairs), wrapping a failing path's error as the
Go `fmt.Errorf` chain does. -/
def loadDatabases : List (String × List TextDocument) → List (String × fileInfo) →
    Except String (List (String × fileInfo))
  | [], files => .ok files
  | (path, batch) :: rest, files =>
    match loadDatabase files batch with
    | .error e => .error ("load databases: " ++ ("load database " ++ path ++ ": " ++ e))
    | .ok files => loadDatabases rest files

/-- `Index()`: load all databases, then run `index()`.  Returns the
statistics (or the load error) together with the final emitter, which
holds every record the run wrote. -/
def Index (projectRoot toolInfo : String) (batches : List (String × List TextDocument))
    (cwd : String) : Except String Stats × Emitter :=
  match loadDatabases batches [] with
  | .error e => (.error e, Emitter.init)
  | .ok files =>
    let r := index ⟨projectRoot, toolInfo, files, [], [], Emitter.init⟩ cwd
    (.ok r.1, r.2)

/-- Modelled from the spec: the state of the `encoding/json.Encoder` /
`bufio.Writer` stack that `jsonWriter` writes through (Go standard
library, not part of this repository).  Both layers latch the first
underlying write failure — `Encoder.Encode` returns `enc.err` without
writing once it is set, and `bufio.Writer` returns its latched `b.err`
without invoking the wrapped `io.Writer` — so the stack is modelled by
the abstract state `σ` of the wrapped writer plus the single latched
error `encErr`. -/
structure encoderState (σ : Type) where
  buf : σ
  encErr : Option String
deriving DecidableEq

/-- Modelled from the spec: `Encoder.Encode` on the stack above.  With a
latched error it returns that error and does not invoke the underlying
writer; otherwise it invokes the underlying writer once and latches the
error, if any, that this write returns. -/
def encoderEncode {σ : Type} (writeU : σ → Nat → σ × Option String)
    (es : encoderState σ) (v : Nat) : encoderState σ × Option String :=
  match es.encErr with
  | some e => (es, some e)
  | none =>
    match (writeU es.buf v).2 with
    | some e => (⟨(writeU es.buf v).1, some e⟩, some e)
    | none => (⟨(writeU es.buf v).1, none⟩, none)

/-- `jsonWriter` from `types.go`: the encoder stack plus the `err` field
assigned by `Write`. -/
structure jsonWriter (σ : Type) where
  underlying : encoderState σ
  err : Option String
deriving DecidableEq

/-- `jsonWriter.Write`: call `Encode`; a returned error is assigned to
`jw.err` (once the encoder has latched, every later call returns that
same first error, so the assignment never changes the value again). -/
def jsonWriter.write {σ : Type} (writeU : σ → Nat → σ × Option String)
    (jw : jsonWriter σ) (v : Nat) : jsonWriter σ :=
  match (encoderEncode writeU jw.underlying v).2 with
  | some e => { underlying := (encoderEncode writeU jw.underlying v).1, err := some e }
  | none => { underlying := (encoderEncode writeU jw.underlying v).1, err := jw.err }

/-- `jsonWriter.Flush`: return the stored error if any, else the result
of flushing the buffered writer (which has latched nothing when
`jw.err` is `none`, so only the final buffer flush can fail). -/
def jsonWriter.flush {σ : Type} (flushU : σ → Option String)
    (jw : jsonWriter σ) : Except String Unit :=
  match jw.err with
  | some e => .error e
  | none =>
    match flushU jw.underlying.buf with
    | some e => .error e
    | none => .ok ()

/-- A sequence of `Write` calls. -/
def writeAll {σ : Type} (writeU : σ → Nat → σ × Option String) :
    jsonWriter σ → List Nat → jsonWriter σ
  | jw, [] => jw
  | jw, v :: vs => writeAll writeU (jsonWriter.write writeU jw v) vs

/-! ### Basic lemmas about the map and list helpers -/

theorem alookup_aset_self {α β : Type} [DecidableEq α] (m : List (α × β)) (k : α) (v : β) :
    alookup (aset m k v) k = some v := by
  induction m with
  | nil => simp [aset, alookup]
  | cons p rest ih =>
    by_cases h : p.1 = k
    · simp [aset, alookup, h]
    · simp [aset, alookup, h, ih]

theorem alookup_aset_ne {α β : Type} [DecidableEq α] (m : List (α × β)) (k k' : α) (v : β)
    (h : k' ≠ k) : alookup (aset m k v) k' = alookup m k' := by
  have hne : k ≠ k' := Ne.symm h
  induction m with
  | nil => simp [aset, alookup, hne]
  | cons p rest ih =>
    by_cases hp : p.1 = k
    · subst hp
      simp [aset, alookup, hne]
    · by_cases hp' : p.1 = k'
      · simp [aset, alookup, hp, hp', h]
      · simp [aset, alookup, hp, hp', ih]

theorem alookup_isSome_iff_mem {α β : Type} [DecidableEq α] (m : List (α × β)) (k : α) :
    (alookup m k).isSome ↔ k ∈ m.map Prod.fst := by
  induction m with
  | nil => simp [alookup]
  | cons p rest ih =>
    by_cases h : p.1 = k
    · simp [alookup, h]
    · simp [alookup, h, ih, Ne.symm h]

theorem alookup_eq_none_iff {α β : Type} [DecidableEq α] (m : List (α × β)) (k : α) :
    alookup m k = none ↔ k ∉ m.map Prod.fst := by
  rw [← alookup_isSome_iff_mem, Option.isSome_iff_ne_none]
  simp

theorem keys_aset {α β : Type} [DecidableEq α] (m : List (α × β)) (k : α) (v : β) :
    (aset m k v).map Prod.fst =
      if k ∈ m.map Prod.fst then m.map Prod.fst else m.map Prod.fst ++ [k] := by
  induction m with
  | nil => simp [aset]
  | cons p rest ih =>
    by_cases h : p.1 = k
    · subst h; simp [aset]
    · have hne : k ≠ p.1 := Ne.symm h
      by_cases hm : k ∈ rest.map Prod.fst
      · simp [aset, h, ih, hm, hne]
      · simp [aset, h, ih, hm, hne]

theorem length_aset {α β : Type} [DecidableEq α] (m : List (α × β)) (k : α) (v : β) :
    (aset m k v).length =
      if k ∈ m.map Prod.fst then m.length else m.length + 1 := by
  induction m with
  | nil => simp [aset]
  | cons p rest ih =>
    by_cases h : p.1 = k
    · subst h; simp [aset]
    · have hne : k ≠ p.1 := Ne.symm h
      by_cases hm : k ∈ rest.map Prod.fst
      · simp [aset, h, ih, hm, hne]
      · simp [aset, h, ih, hm, hne]

theorem aset_aset {α β : Type} [DecidableEq α] (m : List (α × β)) (k : α) (v w : β) :
    aset (aset m k v) k w = aset m k w := by
  induction m with
  | nil => simp [aset]
  | cons p rest ih =>
    by_cases h : p.1 = k
    · simp [aset, h]
    · simp [aset, h, ih]

theorem mem_dedupAux {α : Type} [DecidableEq α] (l : List α) :
    ∀ (acc : List α) (x : α), x ∈ dedupAux acc l ↔ x ∈ acc ∨ x ∈ l := by
  induction l with
  | nil => intro acc x; simp [dedupAux]
  | cons y ys ih =>
    intro acc x
    by_cases h : y ∈ acc
    · simp only [dedupAux, if_pos h]
      rw [ih]
      constructor
      · rintro (hx | hx)
        · exact Or.inl hx
        · exact Or.inr (List.mem_cons_of_mem _ hx)
      · rintro (hx | hx)
        · exact Or.inl hx
        · rcases List.mem_cons.mp hx with rfl | hx
          · exact Or.inl h
          · exact Or.inr hx
    · simp only [dedupAux, if_neg h]
      rw [ih]
      simp [List.mem_append, List.mem_cons, or_assoc]

theorem nodup_dedupAux {α : Type} [DecidableEq α] (l : List α) :
    ∀ acc : List α, acc.Nodup → (dedupAux acc l).Nodup := by
  induction l with
  | nil => intro acc h; simpa [dedupAux]
  | cons y ys ih =>
    intro acc h
    by_cases hy : y ∈ acc
    · simpa [dedupAux, hy] using ih acc h
    · have hnd : (acc ++ [y]).Nodup := by
        rw [List.nodup_append]
        refine ⟨h, List.nodup_singleton y, ?_⟩
        intro a ha hb
        rcases List.mem_singleton.mp hb with rfl
        exact hy ha
      simpa [dedupAux, hy] using ih (acc ++ [y]) hnd

theorem mem_dedup {α : Type} [DecidableEq α] (l : List α) (x : α) :
    x ∈ dedup l ↔ x ∈ l := by
  simp [dedup, mem_dedupAux]

theorem nodup_dedup {α : Type} [DecidableEq α] (l : List α) : (dedup l).Nodup :=
  nodup_dedupAux l [] List.nodup_nil

theorem dedupAux_append {α : Type} [DecidableEq α] (l1 l2 : List α) :
    ∀ acc, dedupAux acc (l1 ++ l2) = dedupAux (dedupAux acc l1) l2 := by
  induction l1 with
  | nil => intro acc; simp [dedupAux]
  | cons x xs ih =>
    intro acc
    by_cases h : x ∈ acc <;> simp [dedupAux, h, ih]

/-! ### Counting lemmas -/

theorem countLabel_nil (l : Label) : countLabel l [] = 0 := rfl

theorem countLabel_append (l : Label) (a b : List (Nat × Element)) :
    countLabel l (a ++ b) = countLabel l a + countLabel l b := by
  simp [countLabel, List.filter_append]

theorem countLabel_cons (l : Label) (p : Nat × Element) (es : List (Nat × Element)) :
    countLabel l (p :: es) =
      (if p.2.label = l then 1 else 0) + countLabel l es := by
  by_cases h : p.2.label = l <;> simp [countLabel, h, Nat.add_comm]


/-! ### Shape lemmas: the exact effect of one `defsStep` -/

theorem defsStep_skip (acc : PassAcc) (occ : SymbolOccurrence)
    (h : ¬occ.role = Role.definition) : defsStep acc occ = acc := by
  unfold defsStep
  rw [if_pos h]

theorem defsStep_local_fresh (acc : PassAcc) (occ : SymbolOccurrence)
    (hrole : occ.role = Role.definition)
    (hloc : occ.symbol.startsWith "local" = true)
    (hfresh : alookup acc.fi.localRefs occ.symbol = none) :
    defsStep acc occ =
      { acc with
          fi := { acc.fi with
            localRefs := aset acc.fi.localRefs occ.symbol
              ⟨acc.em.nextID + 1, [(acc.fi.docID, [acc.em.nextID])], []⟩,
            localDefs := aset acc.fi.localDefs occ.symbol
              ⟨acc.fi.docID, acc.em.nextID, acc.em.nextID + 1, acc.em.nextID + 3⟩ },
          em := ⟨acc.em.nextID + 8, acc.em.elements ++
            [(acc.em.nextID, Element.range (convertRange occ.range).1 (convertRange occ.range).2),
             (acc.em.nextID + 1, Element.resultSet),
             (acc.em.nextID + 2, Element.next acc.em.nextID (acc.em.nextID + 1)),
             (acc.em.nextID + 3, Element.definitionResult),
             (acc.em.nextID + 4, Element.textDocumentDefinition (acc.em.nextID + 1) (acc.em.nextID + 3)),
             (acc.em.nextID + 5, Element.item (acc.em.nextID + 3) [acc.em.nextID] acc.fi.docID),
             (acc.em.nextID + 6, Element.hoverResult [("scala", ((alookup acc.fi.symbols occ.symbol).map SymbolInformation.displayName).getD "")]),
             (acc.em.nextID + 7, Element.textDocumentHover (acc.em.nextID + 1) (acc.em.nextID + 6))]⟩,
          rangeIDs := acc.rangeIDs ++ [acc.em.nextID, acc.em.nextID] } := by
  unfold defsStep
  rw [hrole, hloc]
  simp only [hfresh, emit, mapAppend, alookup, aset_aset]
  simp [hfresh, alookup, aset, aset_aset]

theorem defsStep_local_stale (acc : PassAcc) (occ : SymbolOccurrence) (rr : refResultInfo)
    (hrole : occ.role = Role.definition)
    (hloc : occ.symbol.startsWith "local" = true)
    (hstale : alookup acc.fi.localRefs occ.symbol = some rr) :
    defsStep acc occ =
      { acc with
          fi := { acc.fi with
            localRefs := aset acc.fi.localRefs occ.symbol
              { rr with defRangeIDs := mapAppend rr.defRangeIDs acc.fi.docID acc.em.nextID },
            localDefs := aset acc.fi.localDefs occ.symbol
              ⟨acc.fi.docID, acc.em.nextID, rr.resultSetID, acc.em.nextID + 2⟩ },
          em := ⟨acc.em.nextID + 7, acc.em.elements ++
            [(acc.em.nextID, Element.range (convertRange occ.range).1 (convertRange occ.range).2),
             (acc.em.nextID + 1, Element.next acc.em.nextID rr.resultSetID),
             (acc.em.nextID + 2, Element.definitionResult),
             (acc.em.nextID + 3, Element.textDocumentDefinition rr.resultSetID (acc.em.nextID + 2)),
             (acc.em.nextID + 4, Element.item (acc.em.nextID + 2) [acc.em.nextID] acc.fi.docID),
             (acc.em.nextID + 5, Element.hoverResult [("scala", ((alookup acc.fi.symbols occ.symbol).map SymbolInformation.displayName).getD "")]),
             (acc.em.nextID + 6, Element.textDocumentHover rr.resultSetID (acc.em.nextID + 5))]⟩,
          rangeIDs := acc.rangeIDs ++ [acc.em.nextID, acc.em.nextID] } := by
  unfold defsStep
  rw [hrole, hloc]
  simp only [hstale, emit, mapAppend, alookup]
  simp [hstale, alookup, aset]

theorem defsStep_global_fresh (acc : PassAcc) (occ : SymbolOccurrence)
    (hrole : occ.role = Role.definition)
    (hloc : occ.symbol.startsWith "local" = false)
    (hfresh : alookup acc.refs occ.symbol = none) :
    defsStep acc occ =
      { acc with
          refs := aset acc.refs occ.symbol
            ⟨acc.em.nextID + 1, [(acc.fi.docID, [acc.em.nextID])], []⟩,
          defs := aset acc.defs occ.symbol
            ⟨acc.fi.docID, acc.em.nextID, acc.em.nextID + 1, acc.em.nextID + 3⟩,
          em := ⟨acc.em.nextID + 8, acc.em.elements ++
            [(acc.em.nextID, Element.range (convertRange occ.range).1 (convertRange occ.range).2),
             (acc.em.nextID + 1, Element.resultSet),
             (acc.em.nextID + 2, Element.next acc.em.nextID (acc.em.nextID + 1)),
             (acc.em.nextID + 3, Element.definitionResult),
             (acc.em.nextID + 4, Element.textDocumentDefinition (acc.em.nextID + 1) (acc.em.nextID + 3)),
             (acc.em.nextID + 5, Element.item (acc.em.nextID + 3) [acc.em.nextID] acc.fi.docID),
             (acc.em.nextID + 6, Element.hoverResult [("scala", ((alookup acc.fi.symbols occ.symbol).map SymbolInformation.displayName).getD "")]),
             (acc.em.nextID + 7, Element.textDocumentHover (acc.em.nextID + 1) (acc.em.nextID + 6))]⟩,
          rangeIDs := acc.rangeIDs ++ [acc.em.nextID, acc.em.nextID] } := by
  unfold defsStep
  rw [hrole, hloc]
  simp only [hfresh, emit, mapAppend, alookup, aset_aset]
  simp [hfresh, alookup, aset, aset_aset]

theorem defsStep_global_stale (acc : PassAcc) (occ : SymbolOccurrence) (rr : refResultInfo)
    (hrole : occ.role = Role.definition)
    (hloc : occ.symbol.startsWith "local" = false)
    (hstale : alookup acc.refs occ.symbol = some rr) :
    defsStep acc occ =
      { acc with
          refs := aset acc.refs occ.symbol
            { rr with defRangeIDs := mapAppend rr.defRangeIDs acc.fi.docID acc.em.nextID },
          defs := aset acc.defs occ.symbol
            ⟨acc.fi.docID, acc.em.nextID, rr.resultSetID, acc.em.nextID + 2⟩,
          em := ⟨acc.em.nextID + 7, acc.em.elements ++
            [(acc.em.nextID, Element.range (convertRange occ.range).1 (convertRange occ.range).2),
             (acc.em.nextID + 1, Element.next acc.em.nextID rr.resultSetID),
             (acc.em.nextID + 2, Element.definitionResult),
             (acc.em.nextID + 3, Element.textDocumentDefinition rr.resultSetID (acc.em.nextID + 2)),
             (acc.em.nextID + 4, Element.item (acc.em.nextID + 2) [acc.em.nextID] acc.fi.docID),
             (acc.em.nextID + 5, Element.hoverResult [("scala", ((alookup acc.fi.symbols occ.symbol).map SymbolInformation.displayName).getD "")]),
             (acc.em.nextID + 6, Element.textDocumentHover rr.resultSetID (acc.em.nextID + 5))]⟩,
          rangeIDs := acc.rangeIDs ++ [acc.em.nextID, acc.em.nextID] } := by
  unfold defsStep
  rw [hrole, hloc]
  simp only [hstale, emit, mapAppend, alookup]
  simp [hstale, alookup, aset]

/-! ### Shape lemmas: the exact effect of one `usesStep` -/

theorem usesStep_skip (acc : PassAcc) (occ : SymbolOccurrence)
    (h : ¬occ.role = Role.reference) : usesStep acc occ = acc := by
  unfold usesStep
  rw [if_pos h]

theorem usesStep_unresolved (acc : PassAcc) (occ : SymbolOccurrence)
    (hrole : occ.role = Role.reference)
    (hres : resolveRef acc.fi acc.defs occ.symbol = none) :
    usesStep acc occ =
      { acc with
          em := ⟨acc.em.nextID + 4, acc.em.elements ++
            [(acc.em.nextID, Element.range (convertRange occ.range).1 (convertRange occ.range).2),
             (acc.em.nextID + 1, Element.referenceResult),
             (acc.em.nextID + 2, Element.textDocumentReferences acc.em.nextID (acc.em.nextID + 1)),
             (acc.em.nextID + 3, Element.itemOfReferences (acc.em.nextID + 1) [acc.em.nextID] acc.fi.docID)]⟩,
          rangeIDs := acc.rangeIDs ++ [acc.em.nextID] } := by
  unfold usesStep
  rw [hrole, hres]
  simp [emit]

theorem usesStep_local_hit (acc : PassAcc) (occ : SymbolOccurrence)
    (d : defInfo) (k : String) (rr : refResultInfo)
    (hrole : occ.role = Role.reference)
    (hres : resolveRef acc.fi acc.defs occ.symbol = some (d, true, k))
    (hrr : alookup acc.fi.localRefs k = some rr) :
    usesStep acc occ =
      { acc with
          fi := { acc.fi with
            localRefs := aset acc.fi.localRefs k
              { rr with refRangeIDs := mapAppend rr.refRangeIDs acc.fi.docID acc.em.nextID } },
          em := ⟨acc.em.nextID + 2, acc.em.elements ++
            [(acc.em.nextID, Element.range (convertRange occ.range).1 (convertRange occ.range).2),
             (acc.em.nextID + 1, Element.next acc.em.nextID d.resultSetID)]⟩,
          rangeIDs := acc.rangeIDs ++ [acc.em.nextID] } := by
  unfold usesStep
  rw [hrole, hres]
  simp [emit, hrr]

theorem usesStep_local_miss (acc : PassAcc) (occ : SymbolOccurrence)
    (d : defInfo) (k : String)
    (hrole : occ.role = Role.reference)
    (hres : resolveRef acc.fi acc.defs occ.symbol = some (d, true, k))
    (hrr : alookup acc.fi.localRefs k = none) :
    usesStep acc occ =
      { acc with
          em := ⟨acc.em.nextID + 2, acc.em.elements ++
            [(acc.em.nextID, Element.range (convertRange occ.range).1 (convertRange occ.range).2),
             (acc.em.nextID + 1, Element.next acc.em.nextID d.resultSetID)]⟩,
          rangeIDs := acc.rangeIDs ++ [acc.em.nextID] } := by
  unfold usesStep
  rw [hrole, hres]
  simp [emit, hrr]

theorem usesStep_global_hit (acc : PassAcc) (occ : SymbolOccurrence)
    (d : defInfo) (k : String) (rr : refResultInfo)
    (hrole : occ.role = Role.reference)
    (hres : resolveRef acc.fi acc.defs occ.symbol = some (d, false, k))
    (hrr : alookup acc.refs k = some rr) :
    usesStep acc occ =
      { acc with
          refs := aset acc.refs k
            { rr with refRangeIDs := mapAppend rr.refRangeIDs acc.fi.docID acc.em.nextID },
          em := ⟨acc.em.nextID + 2, acc.em.elements ++
            [(acc.em.nextID, Element.range (convertRange occ.range).1 (convertRange occ.range).2),
             (acc.em.nextID + 1, Element.next acc.em.nextID d.resultSetID)]⟩,
          rangeIDs := acc.rangeIDs ++ [acc.em.nextID] } := by
  unfold usesStep
  rw [hrole, hres]
  simp [emit, hrr]

theorem usesStep_global_miss (acc : PassAcc) (occ : SymbolOccurrence)
    (d : defInfo) (k : String)
    (hrole : occ.role = Role.reference)
    (hres : resolveRef acc.fi acc.defs occ.symbol = some (d, false, k))
    (hrr : alookup acc.refs k = none) :
    usesStep acc occ =
      { acc with
          em := ⟨acc.em.nextID + 2, acc.em.elements ++
            [(acc.em.nextID, Element.range (convertRange occ.range).1 (convertRange occ.range).2),
             (acc.em.nextID + 1, Element.next acc.em.nextID d.resultSetID)]⟩,
          rangeIDs := acc.rangeIDs ++ [acc.em.nextID] } := by
  unfold usesStep
  rw [hrole, hres]
  simp [emit, hrr]

/-! ### Shape lemmas for pass L -/

/-- The records produced by `emitItemsOfDefinitions`, with IDs starting
at `i`. -/
def itemsOfDefsList (refResultID : Nat) : Nat → List (Nat × List Nat) → List (Nat × Element)
  | _, [] => []
  | i, (docID, rangeIDs) :: rest =>
    (i, Element.itemOfDefinitions refResultID rangeIDs docID) :: itemsOfDefsList refResultID (i + 1) rest

/-- The records produced by `emitItemsOfReferences`, with IDs starting
at `i`. -/
def itemsOfRefsList (refResultID : Nat) : Nat → List (Nat × List Nat) → List (Nat × Element)
  | _, [] => []
  | i, (docID, rangeIDs) :: rest =>
    (i, Element.itemOfReferences refResultID rangeIDs docID) :: itemsOfRefsList refResultID (i + 1) rest

theorem emitItemsOfDefinitions_shape (refResultID : Nat) (entries : List (Nat × List Nat)) :
    ∀ em : Emitter, emitItemsOfDefinitions refResultID entries em =
      ⟨em.nextID + entries.length, em.elements ++ itemsOfDefsList refResultID em.nextID entries⟩ := by
  induction entries with
  | nil => intro em; simp [emitItemsOfDefinitions, itemsOfDefsList]
  | cons p rest ih =>
    intro em
    rcases p with ⟨docID, rangeIDs⟩
    rw [emitItemsOfDefinitions, ih]
    simp [emit, itemsOfDefsList, Nat.add_comm, Nat.add_assoc, Nat.add_left_comm]

theorem emitItemsOfReferences_shape (refResultID : Nat) (entries : List (Nat × List Nat)) :
    ∀ em : Emitter, emitItemsOfReferences refResultID entries em =
      ⟨em.nextID + entries.length, em.elements ++ itemsOfRefsList refResultID em.nextID entries⟩ := by
  induction entries with
  | nil => intro em; simp [emitItemsOfReferences, itemsOfRefsList]
  | cons p rest ih =>
    intro em
    rcases p with ⟨docID, rangeIDs⟩
    rw [emitItemsOfReferences, ih]
    simp [emit, itemsOfRefsList, Nat.add_comm, Nat.add_assoc, Nat.add_left_comm]

theorem linkStep_skip (fi : fileInfo) (refs : List (String × refResultInfo))
    (em : Emitter) (occ : SymbolOccurrence)
    (h : ¬occ.role = Role.definition) : linkStep fi refs em occ = em := by
  unfold linkStep
  rw [if_pos h]

theorem linkStep_local_miss (fi : fileInfo) (refs : List (String × refResultInfo))
    (em : Emitter) (occ : SymbolOccurrence)
    (hrole : occ.role = Role.definition)
    (hloc : occ.symbol.startsWith "local" = true)
    (hrr : alookup fi.localRefs occ.symbol = none) :
    linkStep fi refs em occ = em := by
  unfold linkStep
  rw [hrole, hloc]
  simp [hrr]

theorem linkStep_global_miss (fi : fileInfo) (refs : List (String × refResultInfo))
    (em : Emitter) (occ : SymbolOccurrence)
    (hrole : occ.role = Role.definition)
    (hloc : occ.symbol.startsWith "local" = false)
    (hrr : alookup refs occ.symbol = none) :
    linkStep fi refs em occ = em := by
  unfold linkStep
  rw [hrole, hloc]
  simp [hrr]

theorem linkStep_local_hit (fi : fileInfo) (refs : List (String × refResultInfo))
    (em : Emitter) (occ : SymbolOccurrence) (rr : refResultInfo)
    (hrole : occ.role = Role.definition)
    (hloc : occ.symbol.startsWith "local" = true)
    (hrr : alookup fi.localRefs occ.symbol = some rr) :
    linkStep fi refs em occ =
      ⟨em.nextID + 2 + rr.defRangeIDs.length + rr.refRangeIDs.length,
        em.elements ++
          (em.nextID, Element.referenceResult) ::
          (em.nextID + 1, Element.textDocumentReferences rr.resultSetID em.nextID) ::
          (itemsOfDefsList em.nextID (em.nextID + 2) rr.defRangeIDs ++
           itemsOfRefsList em.nextID (em.nextID + 2 + rr.defRangeIDs.length) rr.refRangeIDs)⟩ := by
  unfold linkStep
  rw [hrole, hloc]
  simp [hrr, emit, emitItemsOfDefinitions_shape, emitItemsOfReferences_shape,
    Nat.add_comm, Nat.add_assoc, Nat.add_left_comm]

theorem linkStep_global_hit (fi : fileInfo) (refs : List (String × refResultInfo))
    (em : Emitter) (occ : SymbolOccurrence) (rr : refResultInfo)
    (hrole : occ.role = Role.definition)
    (hloc : occ.symbol.startsWith "local" = false)
    (hrr : alookup refs occ.symbol = some rr) :
    linkStep fi refs em occ =
      ⟨em.nextID + 2 + rr.defRangeIDs.length + rr.refRangeIDs.length,
        em.elements ++
          (em.nextID, Element.referenceResult) ::
          (em.nextID + 1, Element.textDocumentReferences rr.resultSetID em.nextID) ::
          (itemsOfDefsList em.nextID (em.nextID + 2) rr.defRangeIDs ++
           itemsOfRefsList em.nextID (em.nextID + 2 + rr.defRangeIDs.length) rr.refRangeIDs)⟩ := by
  unfold linkStep
  rw [hrole, hloc]
  simp [hrr, emit, emitItemsOfDefinitions_shape, emitItemsOfReferences_shape,
    Nat.add_comm, Nat.add_assoc, Nat.add_left_comm]

/-! ### C1: the symbol-resolution cascade -/

/-- The cascade exactly as the spec words it: local table first; then
the keys s, s with every `.` replaced by `#`, and s with every `_=` and
every back-tick removed, tried against the global tables in order,
stopping at the first hit; the rewrites are never combined. -/
def cascadeSpec (fi : fileInfo) (defs : List (String × defInfo))
    (refs : List (String × refResultInfo)) (s : String) :
    Option defInfo × Option refResultInfo :=
  match alookup fi.localDefs s with
  | some d => (some d, alookup fi.localRefs s)
  | none =>
    match alookup defs s with
    | some d => (some d, alookup refs s)
    | none =>
      match alookup defs (s.replace "." "#") with
      | some d => (some d, alookup refs (s.replace "." "#"))
      | none =>
        match alookup defs ((s.replace "_=" "").replace "`" "") with
        | some d => (some d, alookup refs ((s.replace "_=" "").replace "`" ""))
        | none => (none, none)

theorem firstHit_eq_firstHitKey (defs : List (String × defInfo))
    (refs : List (String × refResultInfo)) (ks : List String) :
    firstHit defs refs ks =
      match resolveRef.firstHitKey defs ks with
      | none => (none, none)
      | some (d, _, k) => (some d, alookup refs k) := by
  induction ks with
  | nil => simp [firstHit, resolveRef.firstHitKey]
  | cons k rest ih =>
    rcases h : alookup defs k with _ | d
    · simp [firstHit, resolveRef.firstHitKey, h, ih]
    · simp [firstHit, resolveRef.firstHitKey, h]

theorem firstHitKey_flag (defs : List (String × defInfo)) (ks : List String) :
    ∀ (d : defInfo) (b : Bool) (k : String),
      resolveRef.firstHitKey defs ks = some (d, b, k) → b = false := by
  induction ks with
  | nil => intro d b k h; simp [resolveRef.firstHitKey] at h
  | cons k0 rest ih =>
    intro d b k h
    rcases h0 : alookup defs k0 with _ | d0
    · rw [resolveRef.firstHitKey, h0] at h
      exact ih d b k h
    · rw [resolveRef.firstHitKey, h0] at h
      simp at h
      exact h.2.1

theorem getDefAndRefInfo_resolveRef (fi : fileInfo) (defs : List (String × defInfo))
    (refs : List (String × refResultInfo)) (s : String) :
    getDefAndRefInfo fi defs refs s =
      match resolveRef fi defs s with
      | none => (none, none)
      | some (d, true, k) => (some d, alookup fi.localRefs k)
      | some (d, false, k) => (some d, alookup refs k) := by
  unfold getDefAndRefInfo resolveRef
  rcases h : alookup fi.localDefs s with _ | d
  · simp only [h]
    rw [firstHit_eq_firstHitKey]
    rcases hk : resolveRef.firstHitKey defs [s, s.replace "." "#", (s.replace "_=" "").replace "`" ""] with _ | ⟨d, b, k⟩
    · simp
    · have hb := firstHitKey_flag defs _ d b k hk
      subst hb
      simp
  · simp [h]

/-- C1.  The reference-resolution function of the source
(`getDefAndRefInfo`) coincides with the cascade as the spec states it:
an exact lookup in the current document's local definitions first
(paired with that document's local reference table and never any other
document's); on a miss, the keys s, s with every `.` replaced by `#`,
and s with every `_=` and every back-tick removed are tried against the
global tables in that order, stopping at the first hit, without
combining or iterating the rewrites.  Moreover, for every referencing
occurrence that resolves, the pass-U step links the occurrence's fresh
range to exactly the definition found by the cascade (the `next` edge
targets that definition's result set). -/
theorem C1_resolution_cascade :
    (∀ (fi : fileInfo) (defs : List (String × defInfo))
        (refs : List (String × refResultInfo)) (s : String),
      getDefAndRefInfo fi defs refs s = cascadeSpec fi defs refs s) ∧
    (∀ (acc : PassAcc) (occ : SymbolOccurrence) (d : defInfo) (b : Bool) (k : String),
      occ.role = Role.reference →
      resolveRef acc.fi acc.defs occ.symbol = some (d, b, k) →
      (getDefAndRefInfo acc.fi acc.defs acc.refs occ.symbol).1 = some d ∧
      (usesStep acc occ).em.elements = acc.em.elements ++
        [(acc.em.nextID, Element.range (convertRange occ.range).1 (convertRange occ.range).2),
         (acc.em.nextID + 1, Element.next acc.em.nextID d.resultSetID)]) := by
  constructor
  · intro fi defs refs s
    unfold getDefAndRefInfo cascadeSpec
    rcases h : alookup fi.localDefs s with _ | d
    case some => simp [h]
    case none => simp only [h, firstHit]
  · intro acc occ d b k hrole hres
    constructor
    · rw [getDefAndRefInfo_resolveRef, hres]
      cases b <;> rfl
    · cases b
      · rcases hrr : alookup acc.refs k with _ | rr
        · rw [usesStep_global_miss acc occ d k hrole hres hrr]
        · rw [usesStep_global_hit acc occ d k rr hrole hres hrr]
      · rcases hrr : alookup acc.fi.localRefs k with _ | rr
        · rw [usesStep_local_miss acc occ d k hrole hres hrr]
        · rw [usesStep_local_hit acc occ d k rr hrole hres hrr]

/-! ### C7: the emitter sink's error behavior -/

/-- The underlying writer run stopped at the first failing write: the
state reached and the first error, if any. -/
def runWrites {σ : Type} (writeU : σ → Nat → σ × Option String) :
    σ → List Nat → σ × Option String
  | s, [] => (s, none)
  | s, v :: vs =>
    match (writeU s v).2 with
    | some e => ((writeU s v).1, some e)
    | none => runWrites writeU (writeU s v).1 vs

theorem write_latched {σ : Type} (writeU : σ → Nat → σ × Option String)
    (jw : jsonWriter σ) (v : Nat) (e : String)
    (h : jw.underlying.encErr = some e) :
    jsonWriter.write writeU jw v = ⟨jw.underlying, some e⟩ := by
  unfold jsonWriter.write encoderEncode
  rw [h]

theorem writeAll_latched {σ : Type} (writeU : σ → Nat → σ × Option String) (e : String) :
    ∀ (vs : List Nat) (s1 : σ),
      writeAll writeU ⟨⟨s1, some e⟩, some e⟩ vs = ⟨⟨s1, some e⟩, some e⟩ := by
  intro vs
  induction vs with
  | nil => intro s1; rfl
  | cons v rest ih =>
    intro s1
    rw [writeAll, write_latched writeU _ v e rfl]
    exact ih s1

theorem writeAll_firstErr {σ : Type} (writeU : σ → Nat → σ × Option String) :
    ∀ (vs : List Nat) (s0 : σ),
      writeAll writeU ⟨⟨s0, none⟩, none⟩ vs =
        ⟨⟨(runWrites writeU s0 vs).1, (runWrites writeU s0 vs).2⟩,
          (runWrites writeU s0 vs).2⟩ := by
  intro vs
  induction vs with
  | nil => intro s0; rfl
  | cons v rest ih =>
    intro s0
    rw [writeAll]
    rcases h : (writeU s0 v).2 with _ | e
    · have hw : jsonWriter.write writeU ⟨⟨s0, none⟩, none⟩ v
          = ⟨⟨(writeU s0 v).1, none⟩, none⟩ := by
        unfold jsonWriter.write encoderEncode
        simp [h]
      have hr : runWrites writeU s0 (v :: rest) = runWrites writeU (writeU s0 v).1 rest := by
        conv_lhs => rw [runWrites]
        simp [h]
      rw [hw, ih, hr]
    · have hw : jsonWriter.write writeU ⟨⟨s0, none⟩, none⟩ v
          = ⟨⟨(writeU s0 v).1, some e⟩, some e⟩ := by
        unfold jsonWriter.write encoderEncode
        simp [h]
      have hr : runWrites writeU s0 (v :: rest) = ((writeU s0 v).1, some e) := by
        unfold runWrites
        simp [h]
      rw [hw, writeAll_latched, hr]

/-- C7.  The encoder stack latches the first underlying write failure:
(1) once an error `e` is latched, a `Write` is a no-op — it leaves the
underlying writer state untouched for every possible underlying writer,
and merely re-assigns the same latched `e` — and (2) over any sequence
of writes from a clean state, the writer state is exactly the underlying
run stopped at the first failing write, both stored errors equal that
first error, and the final `Flush` returns it (or, when no write failed,
the result of flushing the buffered writer). -/
theorem C7_writer_error_latching :
    (∀ (σ : Type) (writeU : σ → Nat → σ × Option String) (jw : jsonWriter σ)
        (v : Nat) (e : String),
        jw.underlying.encErr = some e →
        jsonWriter.write writeU jw v = ⟨jw.underlying, some e⟩) ∧
    (∀ (σ : Type) (writeU : σ → Nat → σ × Option String) (flushU : σ → Option String)
        (s0 : σ) (vs : List Nat),
        writeAll writeU ⟨⟨s0, none⟩, none⟩ vs =
          ⟨⟨(runWrites writeU s0 vs).1, (runWrites writeU s0 vs).2⟩,
            (runWrites writeU s0 vs).2⟩ ∧
        jsonWriter.flush flushU (writeAll writeU ⟨⟨s0, none⟩, none⟩ vs) =
          (match runWrites writeU s0 vs with
           | (_, some e) => Except.error e
           | (s1, none) =>
             match flushU s1 with
             | some e => Except.error e
             | none => Except.ok ())) := by
  constructor
  · intro σ writeU jw v e h
    exact write_latched writeU jw v e h
  · intro σ writeU flushU s0 vs
    have hsh := writeAll_firstErr writeU vs s0
    refine ⟨hsh, ?_⟩
    rcases h : runWrites writeU s0 vs with ⟨s1, o⟩
    rw [h] at hsh
    rw [hsh]
    rcases o with _ | e
    · unfold jsonWriter.flush
      rcases hf : flushU s1 with _ | e2 <;> simp [hf]
    · unfold jsonWriter.flush
      simp

theorem C7_writer_error_latching_witness :
    (jsonWriter.write (fun (s : List Nat) (v : Nat) => (s ++ [v], none))
        ⟨⟨[5], some "e0"⟩, some "e0"⟩ 7 = ⟨⟨[5], some "e0"⟩, some "e0"⟩) ∧
    (writeAll (fun (s : List Nat) (v : Nat) => (s ++ [v], if v = 2 then some "e1" else none))
        ⟨⟨[], none⟩, none⟩ [1, 2, 3]
      = ⟨⟨[1, 2], some "e1"⟩, some "e1"⟩ ∧
     jsonWriter.flush (fun _ => none)
        (writeAll (fun (s : List Nat) (v : Nat) => (s ++ [v], if v = 2 then some "e1" else none))
          ⟨⟨[], none⟩, none⟩ [1, 2, 3]) = Except.error "e1") :=
  ⟨C7_writer_error_latching.1 (List Nat) (fun s v => (s ++ [v], none))
      ⟨⟨[5], some "e0"⟩, some "e0"⟩ 7 "e0" rfl,
   ((C7_writer_error_latching.2 (List Nat)
        (fun s v => (s ++ [v], if v = 2 then some "e1" else none)) (fun _ => none)
        [] [1, 2, 3]).1).trans (by decide),
   ((C7_writer_error_latching.2 (List Nat)
        (fun s v => (s ++ [v], if v = 2 then some "e1" else none)) (fun _ => none)
        [] [1, 2, 3]).2).trans (by rfl)⟩

/-! ### C5: unresolved references -/

/-- C5.  A referencing occurrence whose symbol does not resolve through
the cascade yields exactly one `range` vertex, one fresh
`referenceResult` vertex, one `textDocument/references` edge whose
out-vertex is the range itself, and one `item-of-references` edge; no
`next` edge is emitted for it, the correlation tables are untouched, and
the step returns normally (an unresolved reference is not an error). -/
theorem C5_unresolved_reference (acc : PassAcc) (occ : SymbolOccurrence)
    (hrole : occ.role = Role.reference)
    (hres : resolveRef acc.fi acc.defs occ.symbol = none) :
    (usesStep acc occ).em.elements = acc.em.elements ++
      [(acc.em.nextID, Element.range (convertRange occ.range).1 (convertRange occ.range).2),
       (acc.em.nextID + 1, Element.referenceResult),
       (acc.em.nextID + 2, Element.textDocumentReferences acc.em.nextID (acc.em.nextID + 1)),
       (acc.em.nextID + 3, Element.itemOfReferences (acc.em.nextID + 1) [acc.em.nextID] acc.fi.docID)] ∧
    (usesStep acc occ).fi = acc.fi ∧
    (usesStep acc occ).defs = acc.defs ∧
    (usesStep acc occ).refs = acc.refs ∧
    countLabel Label.nextL (usesStep acc occ).em.elements =
      countLabel Label.nextL acc.em.elements := by
  rw [usesStep_unresolved acc occ hrole hres]
  refine ⟨rfl, rfl, rfl, rfl, ?_⟩
  rw [countLabel_append]
  rfl

/-! ### Concrete inputs used by the witnesses -/

/-- A registered document with no symbols and no occurrences. -/
def emptyFi : fileInfo := ⟨⟨"a.scala", [], []⟩, [], 3, [], [], [], []⟩

/-- A one-entry global definitions table. -/
def exDefsG : List (String × defInfo) := [("g.X#", ⟨3, 5, 6, 8⟩)]

/-- The matching global reference-results table. -/
def exRefsG : List (String × refResultInfo) := [("g.X#", ⟨6, [(3, [5])], []⟩)]

/-- Pass state: global tables populated with `g.X#`. -/
def accB : PassAcc := ⟨emptyFi, exDefsG, exRefsG, ⟨10, []⟩, []⟩

/-- An empty pass state. -/
def acc0 : PassAcc := ⟨emptyFi, [], [], ⟨10, []⟩, []⟩

/-- A referencing occurrence of the defined symbol `g.X#`. -/
def occX : SymbolOccurrence := ⟨"g.X#", Role.reference, ⟨3, 0, 3, 1⟩⟩

/-- A referencing occurrence of an undefined symbol. -/
def occM : SymbolOccurrence := ⟨"g.Missing#", Role.reference, ⟨4, 0, 4, 1⟩⟩

theorem C1_resolution_cascade_witness :
    (getDefAndRefInfo accB.fi accB.defs accB.refs occX.symbol).1 = some ⟨3, 5, 6, 8⟩ ∧
    (usesStep accB occX).em.elements = accB.em.elements ++
      [(accB.em.nextID, Element.range (convertRange occX.range).1 (convertRange occX.range).2),
       (accB.em.nextID + 1, Element.next accB.em.nextID 6)] :=
  C1_resolution_cascade.2 accB occX ⟨3, 5, 6, 8⟩ false "g.X#" rfl (by decide)

theorem C5_unresolved_reference_witness :
    (usesStep acc0 occM).em.elements = acc0.em.elements ++
      [(acc0.em.nextID, Element.range (convertRange occM.range).1 (convertRange occM.range).2),
       (acc0.em.nextID + 1, Element.referenceResult),
       (acc0.em.nextID + 2, Element.textDocumentReferences acc0.em.nextID (acc0.em.nextID + 1)),
       (acc0.em.nextID + 3, Element.itemOfReferences (acc0.em.nextID + 1) [acc0.em.nextID] acc0.fi.docID)] ∧
    (usesStep acc0 occM).fi = acc0.fi ∧
    (usesStep acc0 occM).defs = acc0.defs ∧
    (usesStep acc0 occM).refs = acc0.refs ∧
    countLabel Label.nextL (usesStep acc0 occM).em.elements =
      countLabel Label.nextL acc0.em.elements :=
  C5_unresolved_reference acc0 occM rfl (by decide)

/-! ### C2: per-definition emissions in pass D -/

/-- C2.  Every occurrence with role DEFINITION processed by pass D emits
exactly one `range`, one `next`, one `definitionResult`, one
`textDocument/definition`, one `item`, one `hoverResult`, and one
`textDocument/hover` record, plus exactly one `resultSet` if and only if
the symbol has no entry yet in its scope's reference table (i.e. this is
the first definition of the symbol seen in that scope); nothing else is
emitted by the step. -/
theorem C2_definition_emissions (acc : PassAcc) (occ : SymbolOccurrence)
    (hrole : occ.role = Role.definition) :
    ∃ tail, (defsStep acc occ).em.elements = acc.em.elements ++ tail ∧
      countLabel Label.rangeL tail = 1 ∧
      countLabel Label.nextL tail = 1 ∧
      countLabel Label.definitionResultL tail = 1 ∧
      countLabel Label.textDocumentDefinitionL tail = 1 ∧
      countLabel Label.itemL tail = 1 ∧
      countLabel Label.hoverResultL tail = 1 ∧
      countLabel Label.textDocumentHoverL tail = 1 ∧
      countLabel Label.resultSetL tail =
        (if (alookup (if occ.symbol.startsWith "local" then acc.fi.localRefs else acc.refs)
              occ.symbol).isSome then 0 else 1) ∧
      tail.length =
        7 + (if (alookup (if occ.symbol.startsWith "local" then acc.fi.localRefs else acc.refs)
              occ.symbol).isSome then 0 else 1) := by
  cases hloc : occ.symbol.startsWith "local"
  case false =>
    rcases hl : alookup acc.refs occ.symbol with _ | rr
    · rw [defsStep_global_fresh acc occ hrole hloc hl]
      refine ⟨_, rfl, rfl, rfl, rfl, rfl, rfl, rfl, rfl, ?_, ?_⟩
      · simp [hloc, hl]
        rfl
      · simp [hloc, hl]
    · rw [defsStep_global_stale acc occ rr hrole hloc hl]
      refine ⟨_, rfl, rfl, rfl, rfl, rfl, rfl, rfl, rfl, ?_, ?_⟩
      · simp [hloc, hl]
        rfl
      · simp [hloc, hl]
  case true =>
    rcases hl : alookup acc.fi.localRefs occ.symbol with _ | rr
    · rw [defsStep_local_fresh acc occ hrole hloc hl]
      refine ⟨_, rfl, rfl, rfl, rfl, rfl, rfl, rfl, rfl, ?_, ?_⟩
      · simp [hloc, hl]
        rfl
      · simp [hloc, hl]
    · rw [defsStep_local_stale acc occ rr hrole hloc hl]
      refine ⟨_, rfl, rfl, rfl, rfl, rfl, rfl, rfl, rfl, ?_, ?_⟩
      · simp [hloc, hl]
        rfl
      · simp [hloc, hl]

/-- A defining occurrence of the global symbol `g.X#`. -/
def occD : SymbolOccurrence := ⟨"g.X#", Role.definition, ⟨0, 0, 0, 1⟩⟩

theorem C2_definition_emissions_witness :
    ∃ tail, (defsStep acc0 occD).em.elements = acc0.em.elements ++ tail ∧
      countLabel Label.rangeL tail = 1 ∧
      countLabel Label.nextL tail = 1 ∧
      countLabel Label.definitionResultL tail = 1 ∧
      countLabel Label.textDocumentDefinitionL tail = 1 ∧
      countLabel Label.itemL tail = 1 ∧
      countLabel Label.hoverResultL tail = 1 ∧
      countLabel Label.textDocumentHoverL tail = 1 ∧
      countLabel Label.resultSetL tail =
        (if (alookup (if occD.symbol.startsWith "local" then acc0.fi.localRefs else acc0.refs)
              occD.symbol).isSome then 0 else 1) ∧
      tail.length =
        7 + (if (alookup (if occD.symbol.startsWith "local" then acc0.fi.localRefs else acc0.refs)
              occD.symbol).isSome then 0 else 1) :=
  C2_definition_emissions acc0 occD rfl

/-! ### C6: the final per-document `contains` edge -/

/-- C6.  A document whose accumulated def/use range-ID lists are not both
empty gets exactly one final `contains` edge from its document vertex,
whose `inVs` list is duplicate-free and holds exactly the union of the
document's def and use range IDs; a document with no accumulated ranges
gets no such edge. -/
theorem C6_contains_edge (fi : fileInfo) (em : Emitter) :
    (fi.defRangeIDs.length > 0 ∨ fi.useRangeIDs.length > 0 →
      (linkFileContains fi em).elements = em.elements ++
        [(em.nextID, Element.contains fi.docID (dedup (fi.defRangeIDs ++ fi.useRangeIDs)))] ∧
      (dedup (fi.defRangeIDs ++ fi.useRangeIDs)).Nodup ∧
      (∀ x, x ∈ dedup (fi.defRangeIDs ++ fi.useRangeIDs) ↔
        x ∈ fi.defRangeIDs ∨ x ∈ fi.useRangeIDs)) ∧
    (¬(fi.defRangeIDs.length > 0 ∨ fi.useRangeIDs.length > 0) →
      linkFileContains fi em = em) := by
  constructor
  · intro h
    refine ⟨?_, nodup_dedup _, ?_⟩
    · unfold linkFileContains
      rw [if_pos h]
      rfl
    · intro x
      rw [mem_dedup, List.mem_append]
  · intro h
    unfold linkFileContains
    rw [if_neg h]

/-- A document entry that accumulated overlapping def and use range IDs. -/
def fiC : fileInfo := ⟨⟨"a.scala", [], []⟩, [], 3, [5, 5, 7], [7, 9], [], []⟩

/-- An emitter mid-run. -/
def em0 : Emitter := ⟨20, []⟩

theorem C6_contains_edge_witness :
    (linkFileContains fiC em0).elements = em0.elements ++
      [(em0.nextID, Element.contains fiC.docID (dedup (fiC.defRangeIDs ++ fiC.useRangeIDs)))] ∧
    (dedup (fiC.defRangeIDs ++ fiC.useRangeIDs)).Nodup ∧
    (∀ x, x ∈ dedup (fiC.defRangeIDs ++ fiC.useRangeIDs) ↔
      x ∈ fiC.defRangeIDs ∨ x ∈ fiC.useRangeIDs) :=
  (C6_contains_edge fiC em0).1 (by decide)

/-! ### Which passes emit `document` and `resultSet` records -/

/-- The URIs of the `document` vertices in an emitted stream, in order. -/
def docUris (es : List (Nat × Element)) : List String :=
  es.filterMap fun p =>
    match p.2 with
    | Element.document _ u => some u
    | _ => none

theorem docUris_append (a b : List (Nat × Element)) :
    docUris (a ++ b) = docUris a ++ docUris b := by
  simp [docUris, List.filterMap_append]

theorem docUris_cons_none (a : Nat) (e : Element) (es : List (Nat × Element))
    (h : e.label ≠ Label.documentL) : docUris ((a, e) :: es) = docUris es := by
  cases e <;> simp [docUris, Element.label] at h ⊢

theorem defsStep_no_document (acc : PassAcc) (occ : SymbolOccurrence) :
    docUris (defsStep acc occ).em.elements = docUris acc.em.elements := by
  by_cases hrole : occ.role = Role.definition
  · cases hloc : occ.symbol.startsWith "local"
    · -- global scope
      rcases hl : alookup acc.refs occ.symbol with _ | rr
      · rw [defsStep_global_fresh acc occ hrole hloc hl]
        rw [docUris_append]
        simp [docUris]
      · rw [defsStep_global_stale acc occ rr hrole hloc hl]
        rw [docUris_append]
        simp [docUris]
    · -- local scope
      rcases hl : alookup acc.fi.localRefs occ.symbol with _ | rr
      · rw [defsStep_local_fresh acc occ hrole hloc hl]
        rw [docUris_append]
        simp [docUris]
      · rw [defsStep_local_stale acc occ rr hrole hloc hl]
        rw [docUris_append]
        simp [docUris]
  · rw [defsStep_skip acc occ hrole]

theorem usesStep_no_document (acc : PassAcc) (occ : SymbolOccurrence) :
    docUris (usesStep acc occ).em.elements = docUris acc.em.elements := by
  by_cases hrole : occ.role = Role.reference
  · rcases hres : resolveRef acc.fi acc.defs occ.symbol with _ | ⟨d, b, k⟩
    · rw [usesStep_unresolved acc occ hrole hres]
      rw [docUris_append]
      simp [docUris]
    · cases b
      · -- global scope
        rcases hrr : alookup acc.refs k with _ | rr
        · rw [usesStep_global_miss acc occ d k hrole hres hrr]
          rw [docUris_append]
          simp [docUris]
        · rw [usesStep_global_hit acc occ d k rr hrole hres hrr]
          rw [docUris_append]
          simp [docUris]
      · -- local scope
        rcases hrr : alookup acc.fi.localRefs k with _ | rr
        · rw [usesStep_local_miss acc occ d k hrole hres hrr]
          rw [docUris_append]
          simp [docUris]
        · rw [usesStep_local_hit acc occ d k rr hrole hres hrr]
          rw [docUris_append]
          simp [docUris]
  · rw [usesStep_skip acc occ hrole]

theorem docUris_itemsOfDefsList (rid : Nat) (entries : List (Nat × List Nat)) :
    ∀ i, docUris (itemsOfDefsList rid i entries) = [] := by
  induction entries with
  | nil => intro i; rfl
  | cons p rest ih =>
    intro i
    rcases p with ⟨a, b⟩
    simp [itemsOfDefsList, docUris, ih (i + 1)]
    have h := ih (i + 1)
    simpa [docUris] using h

theorem docUris_itemsOfRefsList (rid : Nat) (entries : List (Nat × List Nat)) :
    ∀ i, docUris (itemsOfRefsList rid i entries) = [] := by
  induction entries with
  | nil => intro i; rfl
  | cons p rest ih =>
    intro i
    rcases p with ⟨a, b⟩
    have h := ih (i + 1)
    simpa [itemsOfRefsList, docUris] using h

theorem linkStep_no_document (fi : fileInfo) (refs : List (String × refResultInfo))
    (em : Emitter) (occ : SymbolOccurrence) :
    docUris (linkStep fi refs em occ).elements = docUris em.elements := by
  by_cases hrole : occ.role = Role.definition
  · cases hloc : occ.symbol.startsWith "local"
    · -- global scope
      rcases hrr : alookup refs occ.symbol with _ | rr
      · rw [linkStep_global_miss fi refs em occ hrole hloc hrr]
      · rw [linkStep_global_hit fi refs em occ rr hrole hloc hrr]
        show docUris (em.elements ++ _) = docUris em.elements
        rw [docUris_append, docUris_cons_none _ _ _ (by simp [Element.label]),
          docUris_cons_none _ _ _ (by simp [Element.label]), docUris_append,
          docUris_itemsOfDefsList, docUris_itemsOfRefsList]
        simp
    · -- local scope
      rcases hrr : alookup fi.localRefs occ.symbol with _ | rr
      · rw [linkStep_local_miss fi refs em occ hrole hloc hrr]
      · rw [linkStep_local_hit fi refs em occ rr hrole hloc hrr]
        show docUris (em.elements ++ _) = docUris em.elements
        rw [docUris_append, docUris_cons_none _ _ _ (by simp [Element.label]),
          docUris_cons_none _ _ _ (by simp [Element.label]), docUris_append,
          docUris_itemsOfDefsList, docUris_itemsOfRefsList]
        simp
  · rw [linkStep_skip fi refs em occ hrole]

theorem countLabel_itemsOfDefsList (l : Label) (rid : Nat) (entries : List (Nat × List Nat))
    (h : l ≠ Label.itemOfDefinitionsL) :
    ∀ i, countLabel l (itemsOfDefsList rid i entries) = 0 := by
  induction entries with
  | nil => intro i; rfl
  | cons p rest ih =>
    intro i
    rcases p with ⟨a, b⟩
    rw [itemsOfDefsList, countLabel_cons]
    have hne : ¬(Element.itemOfDefinitions rid b a).label = l := by
      simp [Element.label]
      exact fun hh => h hh.symm
    rw [if_neg hne, ih (i + 1)]

theorem countLabel_itemsOfRefsList (l : Label) (rid : Nat) (entries : List (Nat × List Nat))
    (h : l ≠ Label.itemOfReferencesL) :
    ∀ i, countLabel l (itemsOfRefsList rid i entries) = 0 := by
  induction entries with
  | nil => intro i; rfl
  | cons p rest ih =>
    intro i
    rcases p with ⟨a, b⟩
    rw [itemsOfRefsList, countLabel_cons]
    have hne : ¬(Element.itemOfReferences rid b a).label = l := by
      simp [Element.label]
      exact fun hh => h hh.symm
    rw [if_neg hne, ih (i + 1)]

/-- One definitions-pass step changes the `resultSet` record count by
exactly the growth of the two reference tables. -/
theorem defsStep_resultSet_balance (acc : PassAcc) (occ : SymbolOccurrence) :
    countLabel Label.resultSetL (defsStep acc occ).em.elements
        + acc.refs.length + acc.fi.localRefs.length
      = countLabel Label.resultSetL acc.em.elements
        + (defsStep acc occ).refs.length + (defsStep acc occ).fi.localRefs.length := by
  by_cases hrole : occ.role = Role.definition
  · cases hloc : occ.symbol.startsWith "local"
    · rcases hl : alookup acc.refs occ.symbol with _ | rr
      · rw [defsStep_global_fresh acc occ hrole hloc hl]
        have hmem : occ.symbol ∉ acc.refs.map Prod.fst := (alookup_eq_none_iff _ _).mp hl
        simp [countLabel_append, countLabel_cons, countLabel_nil, Element.label,
          length_aset, hmem]
        omega
      · rw [defsStep_global_stale acc occ rr hrole hloc hl]
        have hmem : occ.symbol ∈ acc.refs.map Prod.fst := by
          rw [← alookup_isSome_iff_mem, hl]
          rfl
        simp [countLabel_append, countLabel_cons, countLabel_nil, Element.label,
          length_aset, hmem]
    · rcases hl : alookup acc.fi.localRefs occ.symbol with _ | rr
      · rw [defsStep_local_fresh acc occ hrole hloc hl]
        have hmem : occ.symbol ∉ acc.fi.localRefs.map Prod.fst := (alookup_eq_none_iff _ _).mp hl
        simp [countLabel_append, countLabel_cons, countLabel_nil, Element.label,
          length_aset, hmem]
        omega
      · rw [defsStep_local_stale acc occ rr hrole hloc hl]
        have hmem : occ.symbol ∈ acc.fi.localRefs.map Prod.fst := by
          rw [← alookup_isSome_iff_mem, hl]
          rfl
        simp [countLabel_append, countLabel_cons, countLabel_nil, Element.label,
          length_aset, hmem]
  · rw [defsStep_skip acc occ hrole]

/-- One uses-pass step emits no `resultSet`, leaves the definition
tables and document fields alone, and preserves the sizes of both
reference tables. -/
theorem usesStep_preserves (acc : PassAcc) (occ : SymbolOccurrence) :
    countLabel Label.resultSetL (usesStep acc occ).em.elements
        = countLabel Label.resultSetL acc.em.elements ∧
    (usesStep acc occ).refs.length = acc.refs.length ∧
    (usesStep acc occ).fi.localRefs.length = acc.fi.localRefs.length ∧
    (usesStep acc occ).defs = acc.defs ∧
    (usesStep acc occ).fi.document = acc.fi.document ∧
    (usesStep acc occ).fi.localDefs = acc.fi.localDefs ∧
    (usesStep acc occ).fi.docID = acc.fi.docID ∧
    (usesStep acc occ).fi.symbols = acc.fi.symbols := by
  by_cases hrole : occ.role = Role.reference
  · rcases hres : resolveRef acc.fi acc.defs occ.symbol with _ | ⟨d, b, k⟩
    · rw [usesStep_unresolved acc occ hrole hres]
      refine ⟨?_, rfl, rfl, rfl, rfl, rfl, rfl, rfl⟩
      simp [countLabel_append, countLabel_cons, countLabel_nil, Element.label]
    · cases b
      · rcases hrr : alookup acc.refs k with _ | rr
        · rw [usesStep_global_miss acc occ d k hrole hres hrr]
          refine ⟨?_, rfl, rfl, rfl, rfl, rfl, rfl, rfl⟩
          simp [countLabel_append, countLabel_cons, countLabel_nil, Element.label]
        · rw [usesStep_global_hit acc occ d k rr hrole hres hrr]
          have hmem : k ∈ acc.refs.map Prod.fst := by
            rw [← alookup_isSome_iff_mem, hrr]
            rfl
          refine ⟨?_, ?_, rfl, rfl, rfl, rfl, rfl, rfl⟩
          · simp [countLabel_append, countLabel_cons, countLabel_nil, Element.label]
          · simp [length_aset, hmem]
      · rcases hrr : alookup acc.fi.localRefs k with _ | rr
        · rw [usesStep_local_miss acc occ d k hrole hres hrr]
          refine ⟨?_, rfl, rfl, rfl, rfl, rfl, rfl, rfl⟩
          simp [countLabel_append, countLabel_cons, countLabel_nil, Element.label]
        · rw [usesStep_local_hit acc occ d k rr hrole hres hrr]
          have hmem : k ∈ acc.fi.localRefs.map Prod.fst := by
            rw [← alookup_isSome_iff_mem, hrr]
            rfl
          refine ⟨?_, rfl, ?_, rfl, rfl, rfl, rfl, rfl⟩
          · simp [countLabel_append, countLabel_cons, countLabel_nil, Element.label]
          · simp [length_aset, hmem]
  · rw [usesStep_skip acc occ hrole]
    exact ⟨rfl, rfl, rfl, rfl, rfl, rfl, rfl, rfl⟩

/-- One pass-L step emits no `resultSet`. -/
theorem linkStep_resultSet (fi : fileInfo) (refs : List (String × refResultInfo))
    (em : Emitter) (occ : SymbolOccurrence) :
    countLabel Label.resultSetL (linkStep fi refs em occ).elements
      = countLabel Label.resultSetL em.elements := by
  by_cases hrole : occ.role = Role.definition
  · cases hloc : occ.symbol.startsWith "local"
    · rcases hrr : alookup refs occ.symbol with _ | rr
      · rw [linkStep_global_miss fi refs em occ hrole hloc hrr]
      · rw [linkStep_global_hit fi refs em occ rr hrole hloc hrr]
        show countLabel Label.resultSetL (em.elements ++ _) = countLabel Label.resultSetL em.elements
        rw [countLabel_append, countLabel_cons, countLabel_cons, countLabel_append,
          countLabel_itemsOfDefsList _ _ _ (by decide),
          countLabel_itemsOfRefsList _ _ _ (by decide)]
        simp [Element.label]
    · rcases hrr : alookup fi.localRefs occ.symbol with _ | rr
      · rw [linkStep_local_miss fi refs em occ hrole hloc hrr]
      · rw [linkStep_local_hit fi refs em occ rr hrole hloc hrr]
        show countLabel Label.resultSetL (em.elements ++ _) = countLabel Label.resultSetL em.elements
        rw [countLabel_append, countLabel_cons, countLabel_cons, countLabel_append,
          countLabel_itemsOfDefsList _ _ _ (by decide),
          countLabel_itemsOfRefsList _ _ _ (by decide)]
        simp [Element.label]
  · rw [linkStep_skip fi refs em occ hrole]

/-! ### Pass-level bookkeeping -/

theorem runLoop_defs_balance (os : List SymbolOccurrence) :
    ∀ acc : PassAcc,
      countLabel Label.resultSetL (runLoop defsStep acc os).em.elements
          + acc.refs.length + acc.fi.localRefs.length
        = countLabel Label.resultSetL acc.em.elements
          + (runLoop defsStep acc os).refs.length
          + (runLoop defsStep acc os).fi.localRefs.length := by
  induction os with
  | nil => intro acc; rfl
  | cons o rest ih =>
    intro acc
    have h1 := defsStep_resultSet_balance acc o
    have h2 := ih (defsStep acc o)
    rw [runLoop]
    omega

theorem runLoop_defs_no_document (os : List SymbolOccurrence) :
    ∀ acc : PassAcc,
      docUris (runLoop defsStep acc os).em.elements = docUris acc.em.elements := by
  induction os with
  | nil => intro acc; rfl
  | cons o rest ih =>
    intro acc
    rw [runLoop, ih (defsStep acc o), defsStep_no_document]

theorem indexDbDefs_balance (fi : fileInfo) (defs : List (String × defInfo))
    (refs : List (String × refResultInfo)) (em : Emitter) :
    countLabel Label.resultSetL (indexDbDefs fi defs refs em).2.2.2.elements
        + refs.length + fi.localRefs.length
      = countLabel Label.resultSetL em.elements
        + (indexDbDefs fi defs refs em).2.2.1.length
        + (indexDbDefs fi defs refs em).1.localRefs.length := by
  unfold indexDbDefs
  have h := runLoop_defs_balance fi.document.occurrences ⟨fi, defs, refs, em, []⟩
  simpa using h

theorem indexDbDefs_no_document (fi : fileInfo) (defs : List (String × defInfo))
    (refs : List (String × refResultInfo)) (em : Emitter) :
    docUris (indexDbDefs fi defs refs em).2.2.2.elements = docUris em.elements := by
  unfold indexDbDefs
  have h := runLoop_defs_no_document fi.document.occurrences ⟨fi, defs, refs, em, []⟩
  simpa using h

theorem defsPassFiles_balance (files : List (String × fileInfo)) :
    ∀ (defs : List (String × defInfo)) (refs : List (String × refResultInfo)) (em : Emitter),
      countLabel Label.resultSetL (defsPassFiles files defs refs em).em.elements
          + refs.length + sumLocalRefs files
        = countLabel Label.resultSetL em.elements
          + (defsPassFiles files defs refs em).refs.length
          + sumLocalRefs (defsPassFiles files defs refs em).files := by
  induction files with
  | nil => intro defs refs em; simp [defsPassFiles, sumLocalRefs]
  | cons p rest ih =>
    intro defs refs em
    rcases p with ⟨uri, fi⟩
    have h1 := indexDbDefs_balance fi defs refs em
    have h2 := ih (indexDbDefs fi defs refs em).2.1 (indexDbDefs fi defs refs em).2.2.1
      (indexDbDefs fi defs refs em).2.2.2
    rw [defsPassFiles]
    simp only [sumLocalRefs, List.map_cons, List.sum_cons] at h2 ⊢
    omega

theorem defsPassFiles_no_document (files : List (String × fileInfo)) :
    ∀ (defs : List (String × defInfo)) (refs : List (String × refResultInfo)) (em : Emitter),
      docUris (defsPassFiles files defs refs em).em.elements = docUris em.elements := by
  induction files with
  | nil => intro defs refs em; rfl
  | cons p rest ih =>
    intro defs refs em
    rcases p with ⟨uri, fi⟩
    rw [defsPassFiles]
    rw [ih, indexDbDefs_no_document]

theorem runLoop_uses_preserves (os : List SymbolOccurrence) :
    ∀ acc : PassAcc,
      countLabel Label.resultSetL (runLoop usesStep acc os).em.elements
          = countLabel Label.resultSetL acc.em.elements ∧
      (runLoop usesStep acc os).refs.length = acc.refs.length ∧
      (runLoop usesStep acc os).fi.localRefs.length = acc.fi.localRefs.length ∧
      (runLoop usesStep acc os).defs = acc.defs ∧
      (runLoop usesStep acc os).fi.document = acc.fi.document ∧
      (runLoop usesStep acc os).fi.localDefs = acc.fi.localDefs ∧
      (runLoop usesStep acc os).fi.docID = acc.fi.docID ∧
      (runLoop usesStep acc os).fi.symbols = acc.fi.symbols ∧
      docUris (runLoop usesStep acc os).em.elements = docUris acc.em.elements := by
  induction os with
  | nil =>
    intro acc
    exact ⟨rfl, rfl, rfl, rfl, rfl, rfl, rfl, rfl, rfl⟩
  | cons o rest ih =>
    intro acc
    have h1 := usesStep_preserves acc o
    have h2 := ih (usesStep acc o)
    have h3 := usesStep_no_document acc o
    rw [runLoop]
    obtain ⟨a1, a2, a3, a4, a5, a6, a7, a8⟩ := h1
    obtain ⟨b1, b2, b3, b4, b5, b6, b7, b8, b9⟩ := h2
    exact ⟨b1.trans a1, b2.trans a2, b3.trans a3, b4.trans a4, b5.trans a5,
      b6.trans a6, b7.trans a7, b8.trans a8, b9.trans h3⟩

theorem indexDbUses_preserves (fi : fileInfo) (defs : List (String × defInfo))
    (refs : List (String × refResultInfo)) (em : Emitter) :
    countLabel Label.resultSetL (indexDbUses fi defs refs em).2.2.2.elements
        = countLabel Label.resultSetL em.elements ∧
    (indexDbUses fi defs refs em).2.2.1.length = refs.length ∧
    (indexDbUses fi defs refs em).1.localRefs.length = fi.localRefs.length ∧
    (indexDbUses fi defs refs em).2.1 = defs ∧
    (indexDbUses fi defs refs em).1.document = fi.document ∧
    (indexDbUses fi defs refs em).1.localDefs = fi.localDefs ∧
    (indexDbUses fi defs refs em).1.docID = fi.docID ∧
    (indexDbUses fi defs refs em).1.symbols = fi.symbols ∧
    docUris (indexDbUses fi defs refs em).2.2.2.elements = docUris em.elements := by
  unfold indexDbUses
  have h := runLoop_uses_preserves fi.document.occurrences ⟨fi, defs, refs, em, []⟩
  simpa using h

theorem usesPassFiles_preserves (files : List (String × fileInfo)) :
    ∀ (defs : List (String × defInfo)) (refs : List (String × refResultInfo)) (em : Emitter),
      countLabel Label.resultSetL (usesPassFiles files defs refs em).em.elements
          = countLabel Label.resultSetL em.elements ∧
      (usesPassFiles files defs refs em).refs.length = refs.length ∧
      sumLocalRefs (usesPassFiles files defs refs em).files = sumLocalRefs files ∧
      (usesPassFiles files defs refs em).defs = defs ∧
      sumLocalDefs (usesPassFiles files defs refs em).files = sumLocalDefs files ∧
      (usesPassFiles files defs refs em).files.length = files.length ∧
      docUris (usesPassFiles files defs refs em).em.elements = docUris em.elements ∧
      (usesPassFiles files defs refs em).files.map
          (fun p => (p.1, p.2.document, p.2.localDefs, p.2.docID))
        = files.map (fun p => (p.1, p.2.document, p.2.localDefs, p.2.docID)) := by
  induction files with
  | nil =>
    intro defs refs em
    exact ⟨rfl, rfl, rfl, rfl, rfl, rfl, rfl, rfl⟩
  | cons p rest ih =>
    intro defs refs em
    rcases p with ⟨uri, fi⟩
    obtain ⟨a1, a2, a3, a4, a5, a6, a7, a8, a9⟩ := indexDbUses_preserves fi defs refs em
    obtain ⟨b1, b2, b3, b4, b5, b6, b7, b8⟩ := ih (indexDbUses fi defs refs em).2.1
      (indexDbUses fi defs refs em).2.2.1 (indexDbUses fi defs refs em).2.2.2
    rw [usesPassFiles]
    refine ⟨b1.trans a1, b2.trans a2, ?_, b4.trans a4, ?_, ?_, b7.trans a9, ?_⟩
    · simp only [sumLocalRefs, List.map_cons, List.sum_cons]
      simp only [sumLocalRefs] at b3
      omega
    · simp only [sumLocalDefs, List.map_cons, List.sum_cons, a6]
      simp only [sumLocalDefs] at b5
      omega
    · simp [b6]
    · simp only [List.map_cons]
      rw [b8, a5, a6, a7]

theorem linkFileLoop_preserves (fi : fileInfo) (refs : List (String × refResultInfo))
    (os : List SymbolOccurrence) :
    ∀ em : Emitter,
      countLabel Label.resultSetL (linkFileLoop fi refs os em).elements
          = countLabel Label.resultSetL em.elements ∧
      docUris (linkFileLoop fi refs os em).elements = docUris em.elements := by
  induction os with
  | nil => intro em; exact ⟨rfl, rfl⟩
  | cons o rest ih =>
    intro em
    rw [linkFileLoop]
    obtain ⟨b1, b2⟩ := ih (linkStep fi refs em o)
    exact ⟨b1.trans (linkStep_resultSet fi refs em o),
      b2.trans (linkStep_no_document fi refs em o)⟩

theorem linkFileContains_preserves (fi : fileInfo) (em : Emitter) :
    countLabel Label.resultSetL (linkFileContains fi em).elements
        = countLabel Label.resultSetL em.elements ∧
    docUris (linkFileContains fi em).elements = docUris em.elements := by
  unfold linkFileContains
  by_cases h : fi.defRangeIDs.length > 0 ∨ fi.useRangeIDs.length > 0
  · rw [if_pos h]
    constructor
    · show countLabel Label.resultSetL (em.elements ++ _) = _
      rw [countLabel_append, countLabel_cons, countLabel_nil]
      simp [Element.label]
    · show docUris (em.elements ++ _) = _
      rw [docUris_append, docUris_cons_none _ _ _ (by simp [Element.label])]
      simp [docUris]
  · rw [if_neg h]
    exact ⟨rfl, rfl⟩

theorem linkPass_preserves (files : List (String × fileInfo))
    (refs : List (String × refResultInfo)) :
    ∀ em : Emitter,
      countLabel Label.resultSetL (linkPass files refs em).elements
          = countLabel Label.resultSetL em.elements ∧
      docUris (linkPass files refs em).elements = docUris em.elements := by
  induction files with
  | nil => intro em; exact ⟨rfl, rfl⟩
  | cons p rest ih =>
    intro em
    rcases p with ⟨uri, fi⟩
    rw [linkPass]
    obtain ⟨c1, c2⟩ := linkFileLoop_preserves fi refs fi.document.occurrences em
    obtain ⟨d1, d2⟩ :=
      linkFileContains_preserves fi (linkFileLoop fi refs fi.document.occurrences em)
    obtain ⟨e1, e2⟩ := ih (linkFileContains fi (linkFileLoop fi refs fi.document.occurrences em))
    exact ⟨(e1.trans d1).trans c1, (e2.trans d2).trans c2⟩

theorem indexDbDocs_shape (files : List (String × fileInfo)) (proID : Nat) (cwd : String) :
    ∀ em : Emitter,
      countLabel Label.resultSetL (indexDbDocs files proID cwd em).2.elements
          = countLabel Label.resultSetL em.elements ∧
      docUris (indexDbDocs files proID cwd em).2.elements
          = docUris em.elements ++ files.map (fun p => filepathAbs cwd p.1) ∧
      (indexDbDocs files proID cwd em).1.length = files.length ∧
      sumLocalRefs (indexDbDocs files proID cwd em).1 = sumLocalRefs files ∧
      sumLocalDefs (indexDbDocs files proID cwd em).1 = sumLocalDefs files ∧
      (indexDbDocs files proID cwd em).1.map
          (fun p => (p.1, p.2.document, p.2.localDefs, p.2.localRefs))
        = files.map (fun p => (p.1, p.2.document, p.2.localDefs, p.2.localRefs)) := by
  induction files with
  | nil =>
    intro em
    exact ⟨rfl, by simp [indexDbDocs, docUris], rfl, rfl, rfl, rfl⟩
  | cons p rest ih =>
    intro em
    rcases p with ⟨uri, fi⟩
    obtain ⟨b1, b2, b3, b4, b5, b6⟩ := ih
      ⟨em.nextID + 1 + 1,
        (em.elements ++ [(em.nextID, Element.document LanguageScala (filepathAbs cwd uri))]) ++
          [(em.nextID + 1, Element.contains proID [em.nextID])]⟩
    refine ⟨?_, ?_, ?_, ?_, ?_, ?_⟩
    · simp only [indexDbDocs, emit]
      rw [b1, countLabel_append, countLabel_append]
      simp [countLabel_cons, countLabel_nil, Element.label]
    · simp only [indexDbDocs, emit]
      rw [b2, docUris_append, docUris_append]
      simp [docUris]
    · simp only [indexDbDocs, emit, List.length_cons]
      rw [b3]
    · simp only [indexDbDocs, emit]
      simp only [sumLocalRefs, List.map_cons, List.sum_cons] at b4 ⊢
      omega
    · simp only [indexDbDocs, emit]
      simp only [sumLocalDefs, List.map_cons, List.sum_cons] at b5 ⊢
      omega
    · simp only [indexDbDocs, emit, List.map_cons]
      rw [b6]

/-! ### Which symbols create table entries in pass D -/

/-- The symbol of a defining occurrence in the given scope (`true` =
document-local, `false` = global), if any. -/
def symOfDefOcc (isLocalScope : Bool) (o : SymbolOccurrence) : Option String :=
  if o.role = Role.definition then
    if o.symbol.startsWith "local" = isLocalScope then some o.symbol else none
  else none

/-- The defining symbols of the given scope, in occurrence order. -/
def defSyms (isLocalScope : Bool) (os : List SymbolOccurrence) : List String :=
  os.filterMap (symOfDefOcc isLocalScope)

/-- The global defining symbols of all documents, in registry order. -/
def globalDefSymsF (files : List (String × fileInfo)) : List String :=
  (files.map fun p => defSyms false p.2.document.occurrences).flatten

theorem defSyms_cons (isLocalScope : Bool) (o : SymbolOccurrence) (os : List SymbolOccurrence) :
    defSyms isLocalScope (o :: os) =
      (symOfDefOcc isLocalScope o).toList ++ defSyms isLocalScope os := by
  unfold defSyms
  rcases h : symOfDefOcc isLocalScope o with _ | s <;>
    simp [List.filterMap_cons, h]

theorem dedupAux_single {α : Type} [DecidableEq α] (acc : List α) (x : α) :
    dedupAux acc [x] = if x ∈ acc then acc else acc ++ [x] := by
  by_cases h : x ∈ acc <;> simp [dedupAux, h]

theorem defsStep_keys (acc : PassAcc) (occ : SymbolOccurrence) :
    (defsStep acc occ).defs.map Prod.fst
        = dedupAux (acc.defs.map Prod.fst) ((symOfDefOcc false occ).toList) ∧
    (defsStep acc occ).refs.map Prod.fst
        = dedupAux (acc.refs.map Prod.fst) ((symOfDefOcc false occ).toList) ∧
    (defsStep acc occ).fi.localDefs.map Prod.fst
        = dedupAux (acc.fi.localDefs.map Prod.fst) ((symOfDefOcc true occ).toList) ∧
    (defsStep acc occ).fi.localRefs.map Prod.fst
        = dedupAux (acc.fi.localRefs.map Prod.fst) ((symOfDefOcc true occ).toList) ∧
    (defsStep acc occ).fi.document = acc.fi.document ∧
    (defsStep acc occ).fi.symbols = acc.fi.symbols ∧
    (defsStep acc occ).fi.docID = acc.fi.docID ∧
    (defsStep acc occ).fi.useRangeIDs = acc.fi.useRangeIDs := by
  by_cases hrole : occ.role = Role.definition
  · cases hloc : occ.symbol.startsWith "local"
    · have hsymF : symOfDefOcc false occ = some occ.symbol := by
        simp [symOfDefOcc, hrole, hloc]
      have hsymT : symOfDefOcc true occ = none := by
        simp [symOfDefOcc, hrole, hloc]
      rcases hl : alookup acc.refs occ.symbol with _ | rr
      · rw [defsStep_global_fresh acc occ hrole hloc hl]
        have hmem : occ.symbol ∉ acc.refs.map Prod.fst := (alookup_eq_none_iff _ _).mp hl
        refine ⟨?_, ?_, ?_, ?_, rfl, rfl, rfl, rfl⟩
        · rw [hsymF]
          simp [keys_aset, dedupAux_single]
        · rw [hsymF]
          simp [keys_aset, dedupAux_single, hmem]
        · rw [hsymT]
          rfl
        · rw [hsymT]
          rfl
      · rw [defsStep_global_stale acc occ rr hrole hloc hl]
        have hmem : occ.symbol ∈ acc.refs.map Prod.fst := by
          rw [← alookup_isSome_iff_mem, hl]
          rfl
        refine ⟨?_, ?_, ?_, ?_, rfl, rfl, rfl, rfl⟩
        · rw [hsymF]
          simp [keys_aset, dedupAux_single]
        · rw [hsymF]
          simp [keys_aset, dedupAux_single, hmem]
        · rw [hsymT]
          rfl
        · rw [hsymT]
          rfl
    · have hsymF : symOfDefOcc false occ = none := by
        simp [symOfDefOcc, hrole, hloc]
      have hsymT : symOfDefOcc true occ = some occ.symbol := by
        simp [symOfDefOcc, hrole, hloc]
      rcases hl : alookup acc.fi.localRefs occ.symbol with _ | rr
      · rw [defsStep_local_fresh acc occ hrole hloc hl]
        have hmem : occ.symbol ∉ acc.fi.localRefs.map Prod.fst := (alookup_eq_none_iff _ _).mp hl
        refine ⟨?_, ?_, ?_, ?_, rfl, rfl, rfl, rfl⟩
        · rw [hsymF]
          rfl
        · rw [hsymF]
          rfl
        · rw [hsymT]
          simp [keys_aset, dedupAux_single]
        · rw [hsymT]
          simp [keys_aset, dedupAux_single, hmem]
      · rw [defsStep_local_stale acc occ rr hrole hloc hl]
        have hmem : occ.symbol ∈ acc.fi.localRefs.map Prod.fst := by
          rw [← alookup_isSome_iff_mem, hl]
          rfl
        refine ⟨?_, ?_, ?_, ?_, rfl, rfl, rfl, rfl⟩
        · rw [hsymF]
          rfl
        · rw [hsymF]
          rfl
        · rw [hsymT]
          simp [keys_aset, dedupAux_single]
        · rw [hsymT]
          simp [keys_aset, dedupAux_single, hmem]
  · rw [defsStep_skip acc occ hrole]
    have hsymF : symOfDefOcc false occ = none := by simp [symOfDefOcc, hrole]
    have hsymT : symOfDefOcc true occ = none := by simp [symOfDefOcc, hrole]
    rw [hsymF, hsymT]
    exact ⟨rfl, rfl, rfl, rfl, rfl, rfl, rfl, rfl⟩

theorem runLoop_defs_keys (os : List SymbolOccurrence) :
    ∀ acc : PassAcc,
      (runLoop defsStep acc os).defs.map Prod.fst
          = dedupAux (acc.defs.map Prod.fst) (defSyms false os) ∧
      (runLoop defsStep acc os).refs.map Prod.fst
          = dedupAux (acc.refs.map Prod.fst) (defSyms false os) ∧
      (runLoop defsStep acc os).fi.localDefs.map Prod.fst
          = dedupAux (acc.fi.localDefs.map Prod.fst) (defSyms true os) ∧
      (runLoop defsStep acc os).fi.localRefs.map Prod.fst
          = dedupAux (acc.fi.localRefs.map Prod.fst) (defSyms true os) ∧
      (runLoop defsStep acc os).fi.document = acc.fi.document ∧
      (runLoop defsStep acc os).fi.symbols = acc.fi.symbols ∧
      (runLoop defsStep acc os).fi.docID = acc.fi.docID ∧
      (runLoop defsStep acc os).fi.useRangeIDs = acc.fi.useRangeIDs := by
  induction os with
  | nil =>
    intro acc
    exact ⟨rfl, rfl, rfl, rfl, rfl, rfl, rfl, rfl⟩
  | cons o rest ih =>
    intro acc
    obtain ⟨a1, a2, a3, a4, a5, a6, a7, a8⟩ := defsStep_keys acc o
    obtain ⟨b1, b2, b3, b4, b5, b6, b7, b8⟩ := ih (defsStep acc o)
    rw [runLoop]
    simp only [defSyms_cons, dedupAux_append]
    exact ⟨b1.trans (by rw [a1]), b2.trans (by rw [a2]), b3.trans (by rw [a3]),
      b4.trans (by rw [a4]), b5.trans a5, b6.trans a6, b7.trans a7, b8.trans a8⟩

theorem indexDbDefs_keys (fi : fileInfo) (defs : List (String × defInfo))
    (refs : List (String × refResultInfo)) (em : Emitter) :
    (indexDbDefs fi defs refs em).2.1.map Prod.fst
        = dedupAux (defs.map Prod.fst) (defSyms false fi.document.occurrences) ∧
    (indexDbDefs fi defs refs em).2.2.1.map Prod.fst
        = dedupAux (refs.map Prod.fst) (defSyms false fi.document.occurrences) ∧
    (indexDbDefs fi defs refs em).1.localDefs.map Prod.fst
        = dedupAux (fi.localDefs.map Prod.fst) (defSyms true fi.document.occurrences) ∧
    (indexDbDefs fi defs refs em).1.localRefs.map Prod.fst
        = dedupAux (fi.localRefs.map Prod.fst) (defSyms true fi.document.occurrences) ∧
    (indexDbDefs fi defs refs em).1.document = fi.document ∧
    (indexDbDefs fi defs refs em).1.symbols = fi.symbols ∧
    (indexDbDefs fi defs refs em).1.docID = fi.docID ∧
    (indexDbDefs fi defs refs em).1.useRangeIDs = fi.useRangeIDs := by
  unfold indexDbDefs
  have h := runLoop_defs_keys fi.document.occurrences ⟨fi, defs, refs, em, []⟩
  simpa using h

theorem defsPassFiles_keys (files : List (String × fileInfo)) :
    ∀ (defs : List (String × defInfo)) (refs : List (String × refResultInfo)) (em : Emitter),
      (defsPassFiles files defs refs em).defs.map Prod.fst
          = dedupAux (defs.map Prod.fst) (globalDefSymsF files) ∧
      (defsPassFiles files defs refs em).refs.map Prod.fst
          = dedupAux (refs.map Prod.fst) (globalDefSymsF files) ∧
      (defsPassFiles files defs refs em).files.length = files.length ∧
      sumLocalDefs (defsPassFiles files defs refs em).files
          = (files.map fun p =>
              (dedupAux (p.2.localDefs.map Prod.fst)
                (defSyms true p.2.document.occurrences)).length).sum ∧
      sumLocalRefs (defsPassFiles files defs refs em).files
          = (files.map fun p =>
              (dedupAux (p.2.localRefs.map Prod.fst)
                (defSyms true p.2.document.occurrences)).length).sum ∧
      (defsPassFiles files defs refs em).files.map (fun p => (p.1, p.2.document))
          = files.map (fun p => (p.1, p.2.document)) := by
  induction files with
  | nil =>
    intro defs refs em
    exact ⟨rfl, rfl, rfl, rfl, rfl, rfl⟩
  | cons p rest ih =>
    intro defs refs em
    rcases p with ⟨uri, fi⟩
    obtain ⟨a1, a2, a3, a4, a5, a6, a7, a8⟩ := indexDbDefs_keys fi defs refs em
    obtain ⟨b1, b2, b3, b4, b5, b6⟩ := ih (indexDbDefs fi defs refs em).2.1
      (indexDbDefs fi defs refs em).2.2.1 (indexDbDefs fi defs refs em).2.2.2
    rw [defsPassFiles]
    have hglott : globalDefSymsF ((uri, fi) :: rest)
        = defSyms false fi.document.occurrences ++ globalDefSymsF rest := by
      simp [globalDefSymsF]
    refine ⟨?_, ?_, ?_, ?_, ?_, ?_⟩
    · rw [hglott, dedupAux_append]
      exact b1.trans (by rw [a1])
    · rw [hglott, dedupAux_append]
      exact b2.trans (by rw [a2])
    · simp [b3]
    · simp only [sumLocalDefs, List.map_cons, List.sum_cons]
      simp only [sumLocalDefs] at b4
      have hlen : (indexDbDefs fi defs refs em).1.localDefs.length
          = (dedupAux (fi.localDefs.map Prod.fst) (defSyms true fi.document.occurrences)).length := by
        rw [← a3, List.length_map]
      omega
    · simp only [sumLocalRefs, List.map_cons, List.sum_cons]
      simp only [sumLocalRefs] at b5
      have hlen : (indexDbDefs fi defs refs em).1.localRefs.length
          = (dedupAux (fi.localRefs.map Prod.fst) (defSyms true fi.document.occurrences)).length := by
        rw [← a4, List.length_map]
      omega
    · simp only [List.map_cons]
      rw [b6, a5]

/-! ### Invariants established by loading -/

theorem mem_aset {α β : Type} [DecidableEq α] (m : List (α × β)) (k : α) (v : β) :
    ∀ p, p ∈ aset m k v → p = (k, v) ∨ p ∈ m := by
  induction m with
  | nil => intro p hp; simp [aset] at hp; exact Or.inl hp
  | cons q rest ih =>
    intro p hp
    by_cases h : q.1 = k
    · rw [aset, if_pos h] at hp
      rcases List.mem_cons.mp hp with rfl | hp
      · exact Or.inl (by rw [h])
      · exact Or.inr (List.mem_cons_of_mem _ hp)
    · rw [aset, if_neg h] at hp
      rcases List.mem_cons.mp hp with rfl | hp
      · exact Or.inr (List.mem_cons_self _ _)
      · rcases ih p hp with h1 | h1
        · exact Or.inl h1
        · exact Or.inr (List.mem_cons_of_mem _ h1)

theorem nodup_keys_aset {α β : Type} [DecidableEq α] (m : List (α × β)) (k : α) (v : β)
    (h : (m.map Prod.fst).Nodup) : ((aset m k v).map Prod.fst).Nodup := by
  rw [keys_aset]
  by_cases hm : k ∈ m.map Prod.fst
  · rw [if_pos hm]
    exact h
  · rw [if_neg hm]
    rw [List.nodup_append]
    refine ⟨h, List.nodup_singleton k, ?_⟩
    intro a ha hb
    rcases List.mem_singleton.mp hb with rfl
    exact hm ha

/-- The invariant of a freshly loaded registry: distinct URIs and empty
correlation state in every entry. -/
def loadInv (files : List (String × fileInfo)) : Prop :=
  (files.map Prod.fst).Nodup ∧
  ∀ p ∈ files, p.2.localDefs = [] ∧ p.2.localRefs = [] ∧
    p.2.defRangeIDs = [] ∧ p.2.useRangeIDs = []

theorem loadDocuments_inv (docs : List TextDocument) :
    ∀ files files', loadInv files → loadDocuments files docs = Except.ok files' →
      loadInv files' := by
  induction docs with
  | nil =>
    intro files files' hinv hok
    rw [loadDocuments] at hok
    cases hok
    exact hinv
  | cons doc rest ih =>
    intro files files' hinv hok
    rw [loadDocuments] at hok
    rcases hb : buildSymbols [] doc.symbols with e | syms
    · rw [hb] at hok
      cases hok
    · rw [hb] at hok
      refine ih _ _ ?_ hok
      constructor
      · exact nodup_keys_aset _ _ _ hinv.1
      · intro p hp
        rcases mem_aset _ _ _ p hp with rfl | hp
        · exact ⟨rfl, rfl, rfl, rfl⟩
        · exact hinv.2 p hp

theorem loadDatabases_inv (batches : List (String × List TextDocument)) :
    ∀ files files', loadInv files → loadDatabases batches files = Except.ok files' →
      loadInv files' := by
  induction batches with
  | nil =>
    intro files files' hinv hok
    rw [loadDatabases] at hok
    cases hok
    exact hinv
  | cons b rest ih =>
    intro files files' hinv hok
    rcases b with ⟨path, batch⟩
    rw [loadDatabases] at hok
    rcases hl : loadDatabase files batch with e | files1
    · rw [hl] at hok
      cases hok
    · rw [hl] at hok
      exact ih _ _ (loadDocuments_inv batch files files1 hinv hl) hok

theorem loadInv_empty : loadInv [] := ⟨List.nodup_nil, by intro p hp; cases hp⟩

/-- `index` on a fresh emitter, decomposed into its passes. -/
theorem index_run (pr ti : String) (files : List (String × fileInfo)) (cwd : String) :
    index ⟨pr, ti, files, [], [], Emitter.init⟩ cwd =
      (let docs := indexDbDocs files 2 cwd
          ⟨3, [(1, Element.metaData ("file://" ++ filepathAbs cwd ".") ti),
               (2, Element.project LanguageScala)]⟩
       let g2 := defsPassFiles docs.1 [] [] docs.2
       let g3 := usesPassFiles g2.files g2.defs g2.refs g2.em
       let em := linkPass g3.files g3.refs g3.em
       (⟨g3.files.length, g3.defs.length + sumLocalDefs g3.files, numElements em⟩, em)) := rfl

theorem globalDefSymsF_congr (files files' : List (String × fileInfo))
    (h : files.map (fun p => (p.1, p.2.document, p.2.localDefs, p.2.localRefs))
       = files'.map (fun p => (p.1, p.2.document, p.2.localDefs, p.2.localRefs))) :
    globalDefSymsF files = globalDefSymsF files' := by
  unfold globalDefSymsF
  have h2 := congrArg
    (List.map fun q : String × TextDocument × List (String × defInfo) × List (String × refResultInfo) =>
      defSyms false q.2.1.occurrences) h
  simpa [List.map_map, Function.comp] using congrArg List.flatten h2

theorem sumDedupLocal_congr (files files' : List (String × fileInfo))
    (h : files.map (fun p => (p.1, p.2.document, p.2.localDefs, p.2.localRefs))
       = files'.map (fun p => (p.1, p.2.document, p.2.localDefs, p.2.localRefs))) :
    (files.map fun p =>
        (dedupAux (p.2.localDefs.map Prod.fst) (defSyms true p.2.document.occurrences)).length).sum
      = (files'.map fun p =>
        (dedupAux (p.2.localDefs.map Prod.fst) (defSyms true p.2.document.occurrences)).length).sum := by
  have h2 := congrArg
    (List.map fun q : String × TextDocument × List (String × defInfo) × List (String × refResultInfo) =>
      (dedupAux (q.2.2.1.map Prod.fst) (defSyms true q.2.1.occurrences)).length) h
  simpa [List.map_map, Function.comp] using congrArg List.sum h2

/-- C9.  On a successful run from a loaded registry: `NumFiles` is the
number of registered documents (whose URIs are pairwise distinct),
`NumDefs` is the number of distinct global symbols with a defining
occurrence plus, per document, its number of distinct local symbols with
a defining occurrence, and `NumElements` is the emitter's element count
at flush time. -/
theorem C9_statistics (pr ti cwd : String)
    (batches : List (String × List TextDocument)) (files : List (String × fileInfo))
    (hload : loadDatabases batches [] = Except.ok files) :
    (index ⟨pr, ti, files, [], [], Emitter.init⟩ cwd).1.numFiles = files.length ∧
    (files.map Prod.fst).Nodup ∧
    (index ⟨pr, ti, files, [], [], Emitter.init⟩ cwd).1.numDefs
      = (dedup (globalDefSymsF files)).length
        + (files.map fun p => (dedup (defSyms true p.2.document.occurrences)).length).sum ∧
    (index ⟨pr, ti, files, [], [], Emitter.init⟩ cwd).1.numElements
      = numElements (index ⟨pr, ti, files, [], [], Emitter.init⟩ cwd).2 := by
  have hinv := loadDatabases_inv batches [] files loadInv_empty hload
  rw [index_run]
  simp only []
  set em0 : Emitter :=
    ⟨3, [(1, Element.metaData ("file://" ++ filepathAbs cwd ".") ti),
         (2, Element.project LanguageScala)]⟩ with hem0
  obtain ⟨d1, d2, d3, d4, d5, d6⟩ := indexDbDocs_shape files 2 cwd em0
  obtain ⟨k1, k2, k3, k4, k5, k6⟩ := defsPassFiles_keys (indexDbDocs files 2 cwd em0).1
    [] [] (indexDbDocs files 2 cwd em0).2
  obtain ⟨u1, u2, u3, u4, u5, u6, u7, u8⟩ := usesPassFiles_preserves
    (defsPassFiles (indexDbDocs files 2 cwd em0).1 [] [] (indexDbDocs files 2 cwd em0).2).files
    (defsPassFiles (indexDbDocs files 2 cwd em0).1 [] [] (indexDbDocs files 2 cwd em0).2).defs
    (defsPassFiles (indexDbDocs files 2 cwd em0).1 [] [] (indexDbDocs files 2 cwd em0).2).refs
    (defsPassFiles (indexDbDocs files 2 cwd em0).1 [] [] (indexDbDocs files 2 cwd em0).2).em
  refine ⟨?_, hinv.1, ?_, trivial⟩
  · rw [u6, k3, d3]
  · have hdefs_len : (usesPassFiles
        (defsPassFiles (indexDbDocs files 2 cwd em0).1 [] [] (indexDbDocs files 2 cwd em0).2).files
        (defsPassFiles (indexDbDocs files 2 cwd em0).1 [] [] (indexDbDocs files 2 cwd em0).2).defs
        (defsPassFiles (indexDbDocs files 2 cwd em0).1 [] [] (indexDbDocs files 2 cwd em0).2).refs
        (defsPassFiles (indexDbDocs files 2 cwd em0).1 [] [] (indexDbDocs files 2 cwd em0).2).em).defs.length
        = (dedup (globalDefSymsF files)).length := by
      rw [u4]
      have hlen : (defsPassFiles (indexDbDocs files 2 cwd em0).1 [] []
          (indexDbDocs files 2 cwd em0).2).defs.length
          = ((defsPassFiles (indexDbDocs files 2 cwd em0).1 [] []
            (indexDbDocs files 2 cwd em0).2).defs.map Prod.fst).length := by
        rw [List.length_map]
      rw [hlen, k1]
      have hcongr := globalDefSymsF_congr (indexDbDocs files 2 cwd em0).1 files d6
      rw [show dedupAux (([] : List (String × defInfo)).map Prod.fst)
          (globalDefSymsF (indexDbDocs files 2 cwd em0).1)
        = dedup (globalDefSymsF (indexDbDocs files 2 cwd em0).1) from rfl, hcongr]
    · have hsum : sumLocalDefs (usesPassFiles
          (defsPassFiles (indexDbDocs files 2 cwd em0).1 [] [] (indexDbDocs files 2 cwd em0).2).files
          (defsPassFiles (indexDbDocs files 2 cwd em0).1 [] [] (indexDbDocs files 2 cwd em0).2).defs
          (defsPassFiles (indexDbDocs files 2 cwd em0).1 [] [] (indexDbDocs files 2 cwd em0).2).refs
          (defsPassFiles (indexDbDocs files 2 cwd em0).1 [] [] (indexDbDocs files 2 cwd em0).2).em).files
          = (files.map fun p => (dedup (defSyms true p.2.document.occurrences)).length).sum := by
        rw [u5, k4]
        rw [sumDedupLocal_congr (indexDbDocs files 2 cwd em0).1 files d6]
        have hpt : ∀ p ∈ files,
            (dedupAux (p.2.localDefs.map Prod.fst) (defSyms true p.2.document.occurrences)).length
              = (dedup (defSyms true p.2.document.occurrences)).length := by
          intro p hp
          rw [(hinv.2 p hp).1]
          rfl
        rw [List.map_congr_left hpt]
      rw [hdefs_len, hsum]

theorem sumDedupLocalRefs_congr (files files' : List (String × fileInfo))
    (h : files.map (fun p => (p.1, p.2.document, p.2.localDefs, p.2.localRefs))
       = files'.map (fun p => (p.1, p.2.document, p.2.localDefs, p.2.localRefs))) :
    (files.map fun p =>
        (dedupAux (p.2.localRefs.map Prod.fst) (defSyms true p.2.document.occurrences)).length).sum
      = (files'.map fun p =>
        (dedupAux (p.2.localRefs.map Prod.fst) (defSyms true p.2.document.occurrences)).length).sum := by
  have h2 := congrArg
    (List.map fun q : String × TextDocument × List (String × defInfo) × List (String × refResultInfo) =>
      (dedupAux (q.2.2.2.map Prod.fst) (defSyms true q.2.1.occurrences)).length) h
  simpa [List.map_map, Function.comp] using congrArg List.sum h2

/-- C3.  Per (scope, symbol) there is exactly one result set: a defining
occurrence whose symbol already has an entry in its scope's reference
table emits no `resultSet` and reuses the stored `resultSetID` (both in
the updated table entry and in the recorded `defInfo`); a first-seen
symbol emits one fresh `resultSet` and stores its ID; and over a whole
run from a loaded registry the number of `resultSet` records equals the
number of distinct global defined symbols plus, per document, its number
of distinct local defined symbols. -/
theorem C3_result_set_uniqueness :
    (∀ (acc : PassAcc) (occ : SymbolOccurrence) (rr : refResultInfo),
      occ.role = Role.definition → occ.symbol.startsWith "local" = false →
      alookup acc.refs occ.symbol = some rr →
      countLabel Label.resultSetL (defsStep acc occ).em.elements
          = countLabel Label.resultSetL acc.em.elements ∧
      alookup (defsStep acc occ).refs occ.symbol
          = some ⟨rr.resultSetID, mapAppend rr.defRangeIDs acc.fi.docID acc.em.nextID, rr.refRangeIDs⟩ ∧
      alookup (defsStep acc occ).defs occ.symbol
          = some ⟨acc.fi.docID, acc.em.nextID, rr.resultSetID, acc.em.nextID + 2⟩) ∧
    (∀ (acc : PassAcc) (occ : SymbolOccurrence) (rr : refResultInfo),
      occ.role = Role.definition → occ.symbol.startsWith "local" = true →
      alookup acc.fi.localRefs occ.symbol = some rr →
      countLabel Label.resultSetL (defsStep acc occ).em.elements
          = countLabel Label.resultSetL acc.em.elements ∧
      alookup (defsStep acc occ).fi.localRefs occ.symbol
          = some ⟨rr.resultSetID, mapAppend rr.defRangeIDs acc.fi.docID acc.em.nextID, rr.refRangeIDs⟩ ∧
      alookup (defsStep acc occ).fi.localDefs occ.symbol
          = some ⟨acc.fi.docID, acc.em.nextID, rr.resultSetID, acc.em.nextID + 2⟩) ∧
    (∀ (acc : PassAcc) (occ : SymbolOccurrence),
      occ.role = Role.definition → occ.symbol.startsWith "local" = false →
      alookup acc.refs occ.symbol = none →
      countLabel Label.resultSetL (defsStep acc occ).em.elements
          = countLabel Label.resultSetL acc.em.elements + 1 ∧
      alookup (defsStep acc occ).refs occ.symbol
          = some ⟨acc.em.nextID + 1, [(acc.fi.docID, [acc.em.nextID])], []⟩ ∧
      alookup (defsStep acc occ).defs occ.symbol
          = some ⟨acc.fi.docID, acc.em.nextID, acc.em.nextID + 1, acc.em.nextID + 3⟩) ∧
    (∀ (acc : PassAcc) (occ : SymbolOccurrence),
      occ.role = Role.definition → occ.symbol.startsWith "local" = true →
      alookup acc.fi.localRefs occ.symbol = none →
      countLabel Label.resultSetL (defsStep acc occ).em.elements
          = countLabel Label.resultSetL acc.em.elements + 1 ∧
      alookup (defsStep acc occ).fi.localRefs occ.symbol
          = some ⟨acc.em.nextID + 1, [(acc.fi.docID, [acc.em.nextID])], []⟩ ∧
      alookup (defsStep acc occ).fi.localDefs occ.symbol
          = some ⟨acc.fi.docID, acc.em.nextID, acc.em.nextID + 1, acc.em.nextID + 3⟩) ∧
    (∀ (pr ti cwd : String) (batches : List (String × List TextDocument))
        (files : List (String × fileInfo)),
      loadDatabases batches [] = Except.ok files →
      countLabel Label.resultSetL (index ⟨pr, ti, files, [], [], Emitter.init⟩ cwd).2.elements
        = (dedup (globalDefSymsF files)).length
          + (files.map fun p => (dedup (defSyms true p.2.document.occurrences)).length).sum) := by
  refine ⟨?_, ?_, ?_, ?_, ?_⟩
  · intro acc occ rr hrole hloc hl
    rw [defsStep_global_stale acc occ rr hrole hloc hl]
    refine ⟨?_, ?_, ?_⟩
    · show countLabel Label.resultSetL (acc.em.elements ++ _) = _
      rw [countLabel_append]
      simp [countLabel_cons, countLabel_nil, Element.label]
    · exact alookup_aset_self _ _ _
    · exact alookup_aset_self _ _ _
  · intro acc occ rr hrole hloc hl
    rw [defsStep_local_stale acc occ rr hrole hloc hl]
    refine ⟨?_, ?_, ?_⟩
    · show countLabel Label.resultSetL (acc.em.elements ++ _) = _
      rw [countLabel_append]
      simp [countLabel_cons, countLabel_nil, Element.label]
    · exact alookup_aset_self _ _ _
    · exact alookup_aset_self _ _ _
  · intro acc occ hrole hloc hl
    rw [defsStep_global_fresh acc occ hrole hloc hl]
    refine ⟨?_, ?_, ?_⟩
    · show countLabel Label.resultSetL (acc.em.elements ++ _) = _
      rw [countLabel_append]
      simp [countLabel_cons, countLabel_nil, Element.label]
    · exact alookup_aset_self _ _ _
    · exact alookup_aset_self _ _ _
  · intro acc occ hrole hloc hl
    rw [defsStep_local_fresh acc occ hrole hloc hl]
    refine ⟨?_, ?_, ?_⟩
    · show countLabel Label.resultSetL (acc.em.elements ++ _) = _
      rw [countLabel_append]
      simp [countLabel_cons, countLabel_nil, Element.label]
    · exact alookup_aset_self _ _ _
    · exact alookup_aset_self _ _ _
  · intro pr ti cwd batches files hload
    have hinv := loadDatabases_inv batches [] files loadInv_empty hload
    rw [index_run]
    simp only []
    set em0 : Emitter :=
      ⟨3, [(1, Element.metaData ("file://" ++ filepathAbs cwd ".") ti),
           (2, Element.project LanguageScala)]⟩ with hem0
    obtain ⟨d1, d2, d3, d4, d5, d6⟩ := indexDbDocs_shape files 2 cwd em0
    obtain ⟨k1, k2, k3, k4, k5, k6⟩ := defsPassFiles_keys (indexDbDocs files 2 cwd em0).1
      [] [] (indexDbDocs files 2 cwd em0).2
    have hbal := defsPassFiles_balance (indexDbDocs files 2 cwd em0).1
      [] [] (indexDbDocs files 2 cwd em0).2
    obtain ⟨u1, u2, u3, u4, u5, u6, u7, u8⟩ := usesPassFiles_preserves
      (defsPassFiles (indexDbDocs files 2 cwd em0).1 [] [] (indexDbDocs files 2 cwd em0).2).files
      (defsPassFiles (indexDbDocs files 2 cwd em0).1 [] [] (indexDbDocs files 2 cwd em0).2).defs
      (defsPassFiles (indexDbDocs files 2 cwd em0).1 [] [] (indexDbDocs files 2 cwd em0).2).refs
      (defsPassFiles (indexDbDocs files 2 cwd em0).1 [] [] (indexDbDocs files 2 cwd em0).2).em
    obtain ⟨l1, l2⟩ := linkPass_preserves
      (usesPassFiles
        (defsPassFiles (indexDbDocs files 2 cwd em0).1 [] [] (indexDbDocs files 2 cwd em0).2).files
        (defsPassFiles (indexDbDocs files 2 cwd em0).1 [] [] (indexDbDocs files 2 cwd em0).2).defs
        (defsPassFiles (indexDbDocs files 2 cwd em0).1 [] [] (indexDbDocs files 2 cwd em0).2).refs
        (defsPassFiles (indexDbDocs files 2 cwd em0).1 [] [] (indexDbDocs files 2 cwd em0).2).em).files
      (usesPassFiles
        (defsPassFiles (indexDbDocs files 2 cwd em0).1 [] [] (indexDbDocs files 2 cwd em0).2).files
        (defsPassFiles (indexDbDocs files 2 cwd em0).1 [] [] (indexDbDocs files 2 cwd em0).2).defs
        (defsPassFiles (indexDbDocs files 2 cwd em0).1 [] [] (indexDbDocs files 2 cwd em0).2).refs
        (defsPassFiles (indexDbDocs files 2 cwd em0).1 [] [] (indexDbDocs files 2 cwd em0).2).em).refs
      (usesPassFiles
        (defsPassFiles (indexDbDocs files 2 cwd em0).1 [] [] (indexDbDocs files 2 cwd em0).2).files
        (defsPassFiles (indexDbDocs files 2 cwd em0).1 [] [] (indexDbDocs files 2 cwd em0).2).defs
        (defsPassFiles (indexDbDocs files 2 cwd em0).1 [] [] (indexDbDocs files 2 cwd em0).2).refs
        (defsPassFiles (indexDbDocs files 2 cwd em0).1 [] [] (indexDbDocs files 2 cwd em0).2).em).em
    rw [l1, u1]
    have hc0 : countLabel Label.resultSetL em0.elements = 0 := rfl
    have hsum0 : sumLocalRefs files = 0 := by
      unfold sumLocalRefs
      have hz : ∀ p ∈ files, p.2.localRefs.length = 0 := by
        intro p hp
        rw [(hinv.2 p hp).2.1]
        rfl
      rw [List.map_congr_left hz]
      simp
    have hd4' : sumLocalRefs (indexDbDocs files 2 cwd em0).1 = 0 := by rw [d4, hsum0]
    have hrefslen : (defsPassFiles (indexDbDocs files 2 cwd em0).1 [] []
        (indexDbDocs files 2 cwd em0).2).refs.length
        = (dedup (globalDefSymsF files)).length := by
      have hlen : (defsPassFiles (indexDbDocs files 2 cwd em0).1 [] []
          (indexDbDocs files 2 cwd em0).2).refs.length
          = ((defsPassFiles (indexDbDocs files 2 cwd em0).1 [] []
            (indexDbDocs files 2 cwd em0).2).refs.map Prod.fst).length := by
        rw [List.length_map]
      rw [hlen, k2, globalDefSymsF_congr (indexDbDocs files 2 cwd em0).1 files d6]
      rfl
    have hlocrefs : sumLocalRefs (defsPassFiles (indexDbDocs files 2 cwd em0).1 [] []
        (indexDbDocs files 2 cwd em0).2).files
        = (files.map fun p => (dedup (defSyms true p.2.document.occurrences)).length).sum := by
      rw [k5, sumDedupLocalRefs_congr (indexDbDocs files 2 cwd em0).1 files d6]
      have hpt : ∀ p ∈ files,
          (dedupAux (p.2.localRefs.map Prod.fst) (defSyms true p.2.document.occurrences)).length
            = (dedup (defSyms true p.2.document.occurrences)).length := by
        intro p hp
        rw [(hinv.2 p hp).2.1]
        rfl
      rw [List.map_congr_left hpt]
    rw [d1, hc0] at hbal
    rw [hd4'] at hbal
    rw [hrefslen, hlocrefs] at hbal
    simp only [List.length_nil] at hbal
    omega

theorem C3_result_set_uniqueness_witness :
    countLabel Label.resultSetL (defsStep accB occD).em.elements
        = countLabel Label.resultSetL accB.em.elements ∧
    alookup (defsStep accB occD).refs occD.symbol
        = some ⟨6, mapAppend [(3, [5])] accB.fi.docID accB.em.nextID, []⟩ ∧
    alookup (defsStep accB occD).defs occD.symbol
        = some ⟨accB.fi.docID, accB.em.nextID, 6, accB.em.nextID + 2⟩ :=
  C3_result_set_uniqueness.1 accB occD ⟨6, [(3, [5])], []⟩ rfl rfl (by decide)

/-- A document with one global and one local definition, used to witness
the whole-run statistics. -/
def exDocW : TextDocument :=
  ⟨"a.scala", [⟨"g.X#", "X"⟩, ⟨"local1", "x"⟩],
    [⟨"g.X#", Role.definition, ⟨0, 0, 0, 1⟩⟩,
     ⟨"local1", Role.definition, ⟨1, 0, 1, 1⟩⟩,
     ⟨"local1", Role.reference, ⟨2, 0, 2, 1⟩⟩]⟩

/-- The registry produced by loading `exDocW`. -/
def exFilesW : List (String × fileInfo) :=
  [("a.scala", ⟨exDocW, [("g.X#", ⟨"g.X#", "X"⟩), ("local1", ⟨"local1", "x"⟩)], 0, [], [], [], []⟩)]

theorem C9_statistics_witness :
    (index ⟨"/proj", "tool", exFilesW, [], [], Emitter.init⟩ "/cwd").1.numFiles
        = exFilesW.length ∧
    (exFilesW.map Prod.fst).Nodup ∧
    (index ⟨"/proj", "tool", exFilesW, [], [], Emitter.init⟩ "/cwd").1.numDefs
        = (dedup (globalDefSymsF exFilesW)).length
          + (exFilesW.map fun p => (dedup (defSyms true p.2.document.occurrences)).length).sum ∧
    (index ⟨"/proj", "tool", exFilesW, [], [], Emitter.init⟩ "/cwd").1.numElements
        = numElements (index ⟨"/proj", "tool", exFilesW, [], [], Emitter.init⟩ "/cwd").2 :=
  C9_statistics "/proj" "tool" "/cwd" [("p.semanticdb", [exDocW])] exFilesW rfl

/-! ### C8: duplicate symbol keys abort the load -/

theorem buildSymbols_ok (syms : List SymbolInformation) :
    ∀ acc : List (String × SymbolInformation),
      ((acc.map Prod.fst) ++ syms.map (fun s => s.symbol)).Nodup →
      ∃ r, buildSymbols acc syms = Except.ok r := by
  induction syms with
  | nil => intro acc h; exact ⟨acc, rfl⟩
  | cons s rest ih =>
    intro acc h
    have hkeys : (acc ++ [(s.symbol, s)]).map Prod.fst = acc.map Prod.fst ++ [s.symbol] := by
      simp
    have heq : (acc.map Prod.fst) ++ (s :: rest).map (fun x => x.symbol)
        = ((acc ++ [(s.symbol, s)]).map Prod.fst) ++ rest.map (fun x => x.symbol) := by
      rw [hkeys]
      simp
    have hnotin : s.symbol ∉ acc.map Prod.fst := by
      intro hmem
      rcases List.nodup_append.mp h with ⟨_, _, hdisj⟩
      exact hdisj hmem (by simp)
    have hlook : alookup acc s.symbol = none := (alookup_eq_none_iff _ _).mpr hnotin
    rw [buildSymbols, hlook]
    simp only [Option.isSome_none, Bool.false_eq_true, if_false]
    exact ih (acc ++ [(s.symbol, s)]) (heq ▸ h)

theorem buildSymbols_err (syms : List SymbolInformation) :
    ∀ acc : List (String × SymbolInformation),
      (acc.map Prod.fst).Nodup →
      ¬((acc.map Prod.fst) ++ syms.map (fun s => s.symbol)).Nodup →
      ∃ k, buildSymbols acc syms = Except.error ("duplicate symbol: " ++ k) ∧
        2 ≤ ((acc.map Prod.fst) ++ syms.map (fun s => s.symbol)).count k := by
  induction syms with
  | nil =>
    intro acc hn hnd
    exact absurd (by simpa using hn) hnd
  | cons s rest ih =>
    intro acc hn hnd
    rcases hl : alookup acc s.symbol with _ | v
    · have hnotin : s.symbol ∉ acc.map Prod.fst := (alookup_eq_none_iff _ _).mp hl
      have hkeys : (acc ++ [(s.symbol, s)]).map Prod.fst = acc.map Prod.fst ++ [s.symbol] := by
        simp
      have heq : (acc.map Prod.fst) ++ (s :: rest).map (fun x => x.symbol)
          = ((acc ++ [(s.symbol, s)]).map Prod.fst) ++ rest.map (fun x => x.symbol) := by
        rw [hkeys]
        simp
      have hn' : ((acc ++ [(s.symbol, s)]).map Prod.fst).Nodup := by
        rw [hkeys, List.nodup_append]
        refine ⟨hn, List.nodup_singleton _, ?_⟩
        intro a ha hb
        rcases List.mem_singleton.mp hb with rfl
        exact hnotin ha
      have hnd' : ¬(((acc ++ [(s.symbol, s)]).map Prod.fst) ++ rest.map (fun x => x.symbol)).Nodup := by
        rw [← heq]
        exact hnd
      obtain ⟨k, hk1, hk2⟩ := ih (acc ++ [(s.symbol, s)]) hn' hnd'
      refine ⟨k, ?_, ?_⟩
      · rw [buildSymbols, hl]
        simpa using hk1
      · rw [heq]
        exact hk2
    · refine ⟨s.symbol, ?_, ?_⟩
      · rw [buildSymbols, hl]
        simp
      · have hmem : s.symbol ∈ acc.map Prod.fst := by
          rw [← alookup_isSome_iff_mem, hl]
          rfl
        have h1 : 1 ≤ (acc.map Prod.fst).count s.symbol := List.one_le_count_iff.mpr hmem
        have h2 : 1 ≤ ((s :: rest).map (fun x => x.symbol)).count s.symbol := by
          apply List.one_le_count_iff.mpr
          simp
        rw [List.count_append]
        omega

theorem loadDocuments_ok (docs : List TextDocument) :
    ∀ files, (∀ doc ∈ docs, (doc.symbols.map (fun s => s.symbol)).Nodup) →
      ∃ r, loadDocuments files docs = Except.ok r := by
  induction docs with
  | nil => intro files h; exact ⟨files, rfl⟩
  | cons doc rest ih =>
    intro files h
    obtain ⟨syms, hs⟩ := buildSymbols_ok doc.symbols [] (by simpa using h doc (by simp))
    rw [loadDocuments, hs]
    exact ih _ fun d hd => h d (List.mem_cons_of_mem _ hd)

theorem loadDocuments_err (docs : List TextDocument) :
    ∀ files, (∃ doc ∈ docs, ¬(doc.symbols.map (fun s => s.symbol)).Nodup) →
      ∃ doc k, doc ∈ docs ∧ 2 ≤ ((doc.symbols.map (fun s => s.symbol)).count k) ∧
        loadDocuments files docs = Except.error ("duplicate symbol: " ++ k) := by
  induction docs with
  | nil =>
    intro files h
    obtain ⟨doc, hd, _⟩ := h
    cases hd
  | cons doc rest ih =>
    intro files h
    by_cases hdoc : (doc.symbols.map (fun s => s.symbol)).Nodup
    · obtain ⟨syms, hs⟩ := buildSymbols_ok doc.symbols [] (by simpa using hdoc)
      have hrest : ∃ d ∈ rest, ¬(d.symbols.map (fun s => s.symbol)).Nodup := by
        obtain ⟨d, hd, hnd⟩ := h
        rcases List.mem_cons.mp hd with rfl | hd
        · exact absurd hdoc hnd
        · exact ⟨d, hd, hnd⟩
      obtain ⟨d, k, hd, hcnt, herr⟩ := ih (aset files doc.uri (newFileInfo doc syms)) hrest
      refine ⟨d, k, List.mem_cons_of_mem _ hd, hcnt, ?_⟩
      rw [loadDocuments, hs]
      exact herr
    · obtain ⟨k, hk1, hk2⟩ := buildSymbols_err doc.symbols [] List.nodup_nil
        (by simpa using hdoc)
      refine ⟨doc, k, List.mem_cons_self _ _, by simpa using hk2, ?_⟩
      rw [loadDocuments, hk1]

theorem loadDatabases_err (batches : List (String × List TextDocument)) :
    ∀ files, (∃ b ∈ batches, ∃ doc ∈ b.2, ¬(doc.symbols.map (fun s => s.symbol)).Nodup) →
      ∃ path docs doc k, (path, docs) ∈ batches ∧ doc ∈ docs ∧
        2 ≤ ((doc.symbols.map (fun s => s.symbol)).count k) ∧
        loadDatabases batches files = Except.error
          ("load databases: " ++ ("load database " ++ path ++ ": " ++ ("duplicate symbol: " ++ k))) := by
  induction batches with
  | nil =>
    intro files h
    obtain ⟨b, hb, _⟩ := h
    cases hb
  | cons b rest ih =>
    intro files h
    rcases b with ⟨path, docs⟩
    by_cases hbatch : ∃ doc ∈ docs, ¬(doc.symbols.map (fun s => s.symbol)).Nodup
    · obtain ⟨doc, k, hd, hcnt, herr⟩ := loadDocuments_err docs files hbatch
      refine ⟨path, docs, doc, k, List.mem_cons_self _ _, hd, hcnt, ?_⟩
      rw [loadDatabases]
      rw [show loadDatabase files docs = Except.error ("duplicate symbol: " ++ k) from herr]
    · have hok : ∀ doc ∈ docs, (doc.symbols.map (fun s => s.symbol)).Nodup := by
        intro d hd
        by_contra hc
        exact hbatch ⟨d, hd, hc⟩
      obtain ⟨files1, hs⟩ := loadDocuments_ok docs files hok
      have hrest : ∃ b ∈ rest, ∃ doc ∈ b.2, ¬(doc.symbols.map (fun s => s.symbol)).Nodup := by
        obtain ⟨b, hb, hbd⟩ := h
        rcases List.mem_cons.mp hb with rfl | hb
        · exact absurd hbd hbatch
        · exact ⟨b, hb, hbd⟩
      obtain ⟨p, ds, d, k, hmem, hd, hcnt, herr⟩ := ih files1 hrest
      refine ⟨p, ds, d, k, List.mem_cons_of_mem _ hmem, hd, hcnt, ?_⟩
      rw [loadDatabases]
      rw [show loadDatabase files docs = Except.ok files1 from hs]
      exact herr

/-- C8.  If any document in the batch declares two symbol records with
the same key, the whole run fails at load time with an error naming a
duplicated key (wrapped in the load-database error chain), the error is
returned by `Index`, and no LSIF record is emitted (the emitter is still
in its initial, empty state). -/
theorem C8_duplicate_symbol (pr ti cwd : String)
    (batches : List (String × List TextDocument))
    (hdup : ∃ b ∈ batches, ∃ doc ∈ b.2, ¬(doc.symbols.map (fun s => s.symbol)).Nodup) :
    ∃ path docs doc k, (path, docs) ∈ batches ∧ doc ∈ docs ∧
      2 ≤ ((doc.symbols.map (fun s => s.symbol)).count k) ∧
      Index pr ti batches cwd =
        (Except.error
          ("load databases: " ++ ("load database " ++ path ++ ": " ++ ("duplicate symbol: " ++ k))),
         Emitter.init) ∧
      (Index pr ti batches cwd).2.elements = [] := by
  obtain ⟨path, docs, doc, k, hmem, hd, hcnt, herr⟩ := loadDatabases_err batches [] hdup
  refine ⟨path, docs, doc, k, hmem, hd, hcnt, ?_, ?_⟩
  · unfold Index
    rw [herr]
  · unfold Index
    rw [herr]
    rfl

/-- A document declaring the symbol key `s` twice. -/
def exDocDup : TextDocument := ⟨"a.scala", [⟨"s", "x"⟩, ⟨"s", "y"⟩], []⟩

theorem C8_duplicate_symbol_witness :
    ∃ path docs doc k, (path, docs) ∈ [("f.semanticdb", [exDocDup])] ∧ doc ∈ docs ∧
      2 ≤ ((doc.symbols.map (fun s => s.symbol)).count k) ∧
      Index "/proj" "tool" [("f.semanticdb", [exDocDup])] "/cwd" =
        (Except.error
          ("load databases: " ++ ("load database " ++ path ++ ": " ++ ("duplicate symbol: " ++ k))),
         Emitter.init) ∧
      (Index "/proj" "tool" [("f.semanticdb", [exDocDup])] "/cwd").2.elements = [] :=
  C8_duplicate_symbol "/proj" "tool" "/cwd" [("f.semanticdb", [exDocDup])]
    ⟨("f.semanticdb", [exDocDup]), by simp, exDocDup, by simp, by decide⟩

/-! ### C10: URIs come from the working directory -/

theorem defsStep_extends (acc : PassAcc) (occ : SymbolOccurrence) :
    ∃ t, (defsStep acc occ).em.elements = acc.em.elements ++ t := by
  by_cases hrole : occ.role = Role.definition
  · cases hloc : occ.symbol.startsWith "local"
    · rcases hl : alookup acc.refs occ.symbol with _ | rr
      · rw [defsStep_global_fresh acc occ hrole hloc hl]
        exact ⟨_, rfl⟩
      · rw [defsStep_global_stale acc occ rr hrole hloc hl]
        exact ⟨_, rfl⟩
    · rcases hl : alookup acc.fi.localRefs occ.symbol with _ | rr
      · rw [defsStep_local_fresh acc occ hrole hloc hl]
        exact ⟨_, rfl⟩
      · rw [defsStep_local_stale acc occ rr hrole hloc hl]
        exact ⟨_, rfl⟩
  · rw [defsStep_skip acc occ hrole]
    exact ⟨[], (List.append_nil _).symm⟩

theorem usesStep_extends (acc : PassAcc) (occ : SymbolOccurrence) :
    ∃ t, (usesStep acc occ).em.elements = acc.em.elements ++ t := by
  by_cases hrole : occ.role = Role.reference
  · rcases hres : resolveRef acc.fi acc.defs occ.symbol with _ | ⟨d, b, k⟩
    · rw [usesStep_unresolved acc occ hrole hres]
      exact ⟨_, rfl⟩
    · cases b
      · rcases hrr : alookup acc.refs k with _ | rr
        · rw [usesStep_global_miss acc occ d k hrole hres hrr]
          exact ⟨_, rfl⟩
        · rw [usesStep_global_hit acc occ d k rr hrole hres hrr]
          exact ⟨_, rfl⟩
      · rcases hrr : alookup acc.fi.localRefs k with _ | rr
        · rw [usesStep_local_miss acc occ d k hrole hres hrr]
          exact ⟨_, rfl⟩
        · rw [usesStep_local_hit acc occ d k rr hrole hres hrr]
          exact ⟨_, rfl⟩
  · rw [usesStep_skip acc occ hrole]
    exact ⟨[], (List.append_nil _).symm⟩

theorem linkStep_extends (fi : fileInfo) (refs : List (String × refResultInfo))
    (em : Emitter) (occ : SymbolOccurrence) :
    ∃ t, (linkStep fi refs em occ).elements = em.elements ++ t := by
  by_cases hrole : occ.role = Role.definition
  · cases hloc : occ.symbol.startsWith "local"
    · rcases hrr : alookup refs occ.symbol with _ | rr
      · rw [linkStep_global_miss fi refs em occ hrole hloc hrr]
        exact ⟨[], (List.append_nil _).symm⟩
      · rw [linkStep_global_hit fi refs em occ rr hrole hloc hrr]
        exact ⟨_, rfl⟩
    · rcases hrr : alookup fi.localRefs occ.symbol with _ | rr
      · rw [linkStep_local_miss fi refs em occ hrole hloc hrr]
        exact ⟨[], (List.append_nil _).symm⟩
      · rw [linkStep_local_hit fi refs em occ rr hrole hloc hrr]
        exact ⟨_, rfl⟩
  · rw [linkStep_skip fi refs em occ hrole]
    exact ⟨[], (List.append_nil _).symm⟩

theorem runLoop_extends (step : PassAcc → SymbolOccurrence → PassAcc)
    (hstep : ∀ acc occ, ∃ t, (step acc occ).em.elements = acc.em.elements ++ t)
    (os : List SymbolOccurrence) :
    ∀ acc, ∃ t, (runLoop step acc os).em.elements = acc.em.elements ++ t := by
  induction os with
  | nil => intro acc; exact ⟨[], (List.append_nil _).symm⟩
  | cons o rest ih =>
    intro acc
    obtain ⟨t1, h1⟩ := hstep acc o
    obtain ⟨t2, h2⟩ := ih (step acc o)
    rw [runLoop]
    exact ⟨t1 ++ t2, by rw [h2, h1, List.append_assoc]⟩

theorem indexDbDefs_extends (fi : fileInfo) (defs : List (String × defInfo))
    (refs : List (String × refResultInfo)) (em : Emitter) :
    ∃ t, (indexDbDefs fi defs refs em).2.2.2.elements = em.elements ++ t := by
  unfold indexDbDefs
  have h := runLoop_extends defsStep defsStep_extends fi.document.occurrences
    ⟨fi, defs, refs, em, []⟩
  simpa using h

theorem indexDbUses_extends (fi : fileInfo) (defs : List (String × defInfo))
    (refs : List (String × refResultInfo)) (em : Emitter) :
    ∃ t, (indexDbUses fi defs refs em).2.2.2.elements = em.elements ++ t := by
  unfold indexDbUses
  have h := runLoop_extends usesStep usesStep_extends fi.document.occurrences
    ⟨fi, defs, refs, em, []⟩
  simpa using h

theorem defsPassFiles_extends (files : List (String × fileInfo)) :
    ∀ (defs : List (String × defInfo)) (refs : List (String × refResultInfo)) (em : Emitter),
      ∃ t, (defsPassFiles files defs refs em).em.elements = em.elements ++ t := by
  induction files with
  | nil => intro defs refs em; exact ⟨[], (List.append_nil _).symm⟩
  | cons p rest ih =>
    intro defs refs em
    rcases p with ⟨uri, fi⟩
    obtain ⟨t1, h1⟩ := indexDbDefs_extends fi defs refs em
    obtain ⟨t2, h2⟩ := ih (indexDbDefs fi defs refs em).2.1
      (indexDbDefs fi defs refs em).2.2.1 (indexDbDefs fi defs refs em).2.2.2
    rw [defsPassFiles]
    exact ⟨t1 ++ t2, by rw [h2, h1, List.append_assoc]⟩

theorem usesPassFiles_extends (files : List (String × fileInfo)) :
    ∀ (defs : List (String × defInfo)) (refs : List (String × refResultInfo)) (em : Emitter),
      ∃ t, (usesPassFiles files defs refs em).em.elements = em.elements ++ t := by
  induction files with
  | nil => intro defs refs em; exact ⟨[], (List.append_nil _).symm⟩
  | cons p rest ih =>
    intro defs refs em
    rcases p with ⟨uri, fi⟩
    obtain ⟨t1, h1⟩ := indexDbUses_extends fi defs refs em
    obtain ⟨t2, h2⟩ := ih (indexDbUses fi defs refs em).2.1
      (indexDbUses fi defs refs em).2.2.1 (indexDbUses fi defs refs em).2.2.2
    rw [usesPassFiles]
    exact ⟨t1 ++ t2, by rw [h2, h1, List.append_assoc]⟩

theorem linkFileLoop_extends (fi : fileInfo) (refs : List (String × refResultInfo))
    (os : List SymbolOccurrence) :
    ∀ em, ∃ t, (linkFileLoop fi refs os em).elements = em.elements ++ t := by
  induction os with
  | nil => intro em; exact ⟨[], (List.append_nil _).symm⟩
  | cons o rest ih =>
    intro em
    obtain ⟨t1, h1⟩ := linkStep_extends fi refs em o
    obtain ⟨t2, h2⟩ := ih (linkStep fi refs em o)
    rw [linkFileLoop]
    exact ⟨t1 ++ t2, by rw [h2, h1, List.append_assoc]⟩

theorem linkFileContains_extends (fi : fileInfo) (em : Emitter) :
    ∃ t, (linkFileContains fi em).elements = em.elements ++ t := by
  unfold linkFileContains
  by_cases h : fi.defRangeIDs.length > 0 ∨ fi.useRangeIDs.length > 0
  · rw [if_pos h]
    exact ⟨_, rfl⟩
  · rw [if_neg h]
    exact ⟨[], (List.append_nil _).symm⟩

theorem linkPass_extends (files : List (String × fileInfo))
    (refs : List (String × refResultInfo)) :
    ∀ em, ∃ t, (linkPass files refs em).elements = em.elements ++ t := by
  induction files with
  | nil => intro em; exact ⟨[], (List.append_nil _).symm⟩
  | cons p rest ih =>
    intro em
    rcases p with ⟨uri, fi⟩
    obtain ⟨t1, h1⟩ := linkFileLoop_extends fi refs fi.document.occurrences em
    obtain ⟨t2, h2⟩ := linkFileContains_extends fi (linkFileLoop fi refs fi.document.occurrences em)
    obtain ⟨t3, h3⟩ := ih (linkFileContains fi (linkFileLoop fi refs fi.document.occurrences em))
    rw [linkPass]
    exact ⟨(t1 ++ t2) ++ t3, by rw [h3, h2, h1]; simp [List.append_assoc]⟩

theorem indexDbDocs_extends (files : List (String × fileInfo)) (proID : Nat) (cwd : String) :
    ∀ em, ∃ t, (indexDbDocs files proID cwd em).2.elements = em.elements ++ t := by
  induction files with
  | nil => intro em; exact ⟨[], (List.append_nil _).symm⟩
  | cons p rest ih =>
    intro em
    rcases p with ⟨uri, fi⟩
    obtain ⟨t2, h2⟩ := ih
      ⟨em.nextID + 1 + 1,
        (em.elements ++ [(em.nextID, Element.document LanguageScala (filepathAbs cwd uri))]) ++
          [(em.nextID + 1, Element.contains proID [em.nextID])]⟩
    refine ⟨([(em.nextID, Element.document LanguageScala (filepathAbs cwd uri))] ++
      [(em.nextID + 1, Element.contains proID [em.nextID])]) ++ t2, ?_⟩
    simp only [indexDbDocs, emit]
    rw [h2]
    simp [List.append_assoc]

theorem index_elements_head (pr ti : String) (files : List (String × fileInfo)) (cwd : String) :
    ∃ t, (index ⟨pr, ti, files, [], [], Emitter.init⟩ cwd).2.elements
      = (1, Element.metaData ("file://" ++ filepathAbs cwd ".") ti) ::
        (2, Element.project LanguageScala) :: t := by
  rw [index_run]
  simp only []
  set em0 : Emitter :=
    ⟨3, [(1, Element.metaData ("file://" ++ filepathAbs cwd ".") ti),
         (2, Element.project LanguageScala)]⟩ with hem0
  obtain ⟨t0, h0⟩ := indexDbDocs_extends files 2 cwd em0
  obtain ⟨t1, h1⟩ := defsPassFiles_extends (indexDbDocs files 2 cwd em0).1
    [] [] (indexDbDocs files 2 cwd em0).2
  obtain ⟨t2, h2⟩ := usesPassFiles_extends
    (defsPassFiles (indexDbDocs files 2 cwd em0).1 [] [] (indexDbDocs files 2 cwd em0).2).files
    (defsPassFiles (indexDbDocs files 2 cwd em0).1 [] [] (indexDbDocs files 2 cwd em0).2).defs
    (defsPassFiles (indexDbDocs files 2 cwd em0).1 [] [] (indexDbDocs files 2 cwd em0).2).refs
    (defsPassFiles (indexDbDocs files 2 cwd em0).1 [] [] (indexDbDocs files 2 cwd em0).2).em
  obtain ⟨t3, h3⟩ := linkPass_extends
    (usesPassFiles
      (defsPassFiles (indexDbDocs files 2 cwd em0).1 [] [] (indexDbDocs files 2 cwd em0).2).files
      (defsPassFiles (indexDbDocs files 2 cwd em0).1 [] [] (indexDbDocs files 2 cwd em0).2).defs
      (defsPassFiles (indexDbDocs files 2 cwd em0).1 [] [] (indexDbDocs files 2 cwd em0).2).refs
      (defsPassFiles (indexDbDocs files 2 cwd em0).1 [] [] (indexDbDocs files 2 cwd em0).2).em).files
    (usesPassFiles
      (defsPassFiles (indexDbDocs files 2 cwd em0).1 [] [] (indexDbDocs files 2 cwd em0).2).files
      (defsPassFiles (indexDbDocs files 2 cwd em0).1 [] [] (indexDbDocs files 2 cwd em0).2).defs
      (defsPassFiles (indexDbDocs files 2 cwd em0).1 [] [] (indexDbDocs files 2 cwd em0).2).refs
      (defsPassFiles (indexDbDocs files 2 cwd em0).1 [] [] (indexDbDocs files 2 cwd em0).2).em).refs
    (usesPassFiles
      (defsPassFiles (indexDbDocs files 2 cwd em0).1 [] [] (indexDbDocs files 2 cwd em0).2).files
      (defsPassFiles (indexDbDocs files 2 cwd em0).1 [] [] (indexDbDocs files 2 cwd em0).2).defs
      (defsPassFiles (indexDbDocs files 2 cwd em0).1 [] [] (indexDbDocs files 2 cwd em0).2).refs
      (defsPassFiles (indexDbDocs files 2 cwd em0).1 [] [] (indexDbDocs files 2 cwd em0).2).em).em
  refine ⟨t0 ++ t1 ++ t2 ++ t3, ?_⟩
  rw [h3, h2, h1, h0]
  show em0.elements ++ t0 ++ t1 ++ t2 ++ t3 = _
  rw [hem0]
  simp [List.append_assoc]

theorem splitSlash_ne_nil : ∀ l : List Char, splitSlash l ≠ []
  | [] => by simp [splitSlash]
  | c :: cs => by
    rw [splitSlash]
    by_cases h : c = '/'
    · simp [h]
    · rcases hs : splitSlash cs with _ | ⟨s, ss⟩
      · simp [h, hs]
      · simp [h, hs]

theorem splitSlash_append_slash : ∀ a b : List Char,
    splitSlash (a ++ '/' :: b) = splitSlash a ++ splitSlash b := by
  intro a
  induction a with
  | nil => intro b; simp [splitSlash]
  | cons c cs ih =>
    intro b
    by_cases h : c = '/'
    · subst h
      show splitSlash ('/' :: (cs ++ '/' :: b)) = splitSlash ('/' :: cs) ++ splitSlash b
      rw [splitSlash, if_pos rfl, ih, splitSlash, if_pos rfl]
      rfl
    · show splitSlash (c :: (cs ++ '/' :: b)) = splitSlash (c :: cs) ++ splitSlash b
      rw [splitSlash, if_neg h, ih b, splitSlash, if_neg h]
      rcases hs : splitSlash cs with _ | ⟨s, ss⟩
      · exact absurd hs (splitSlash_ne_nil cs)
      · simp

theorem pathClean_rooted_congr (s t : String) (hs : s.data.head? = some '/')
    (ht : t.data.head? = some '/')
    (hc : (splitSlash s.data).filter (fun c => ¬(c = [] ∨ c = ['.']))
        = (splitSlash t.data).filter (fun c => ¬(c = [] ∨ c = ['.']))) :
    pathClean s = pathClean t := by
  unfold pathClean
  rw [hs, ht, hc]

theorem filepathAbs_dot (cwd : String) (h : cwd.data.head? = some '/') :
    filepathAbs cwd "." = pathClean cwd := by
  unfold filepathAbs
  rw [if_neg (by decide)]
  apply pathClean_rooted_congr
  · show (cwd.data ++ '/' :: ".".data).head? = some '/'
    rcases hcd : cwd.data with _ | ⟨c, tl⟩
    · rw [hcd] at h
      cases h
    · rw [hcd] at h
      simp at h
      simp [h]
  · exact h
  · show (splitSlash (cwd.data ++ '/' :: ".".data)).filter _
        = (splitSlash cwd.data).filter _
    rw [show ".".data = ['.'] from rfl, splitSlash_append_slash, List.filter_append]
    simp [splitSlash]

theorem string_append_left_cancel {s a b : String} (h : s ++ a = s ++ b) : a = b := by
  have hd := congrArg String.data h
  simp only [String.data_append] at hd
  have hd2 := List.append_cancel_left hd
  cases a
  cases b
  exact congrArg String.mk hd2

/-- C10.  The metadata project root is `file://` plus the cleaned
process working directory, every document vertex URI is the SemanticDB
URI resolved against the working directory, the output is independent of
the `projectRoot` configuration field, and two runs over the same input
from different (clean, absolute) working directories emit different
metadata URIs. -/
theorem C10_uris_from_working_directory :
    (∀ (pr1 pr2 ti : String) (files : List (String × fileInfo))
        (defs : List (String × defInfo)) (refs : List (String × refResultInfo))
        (em : Emitter) (cwd : String),
      index ⟨pr1, ti, files, defs, refs, em⟩ cwd = index ⟨pr2, ti, files, defs, refs, em⟩ cwd) ∧
    (∀ (pr ti : String) (files : List (String × fileInfo)) (cwd : String),
      cwd.data.head? = some '/' →
      (index ⟨pr, ti, files, [], [], Emitter.init⟩ cwd).2.elements.head?
        = some (1, Element.metaData ("file://" ++ pathClean cwd) ti)) ∧
    (∀ (pr ti : String) (files : List (String × fileInfo)) (cwd : String),
      docUris (index ⟨pr, ti, files, [], [], Emitter.init⟩ cwd).2.elements
        = files.map fun p => filepathAbs cwd p.1) ∧
    (∀ (pr ti : String) (files : List (String × fileInfo)) (cwd1 cwd2 : String),
      cwd1.data.head? = some '/' → cwd2.data.head? = some '/' →
      pathClean cwd1 = cwd1 → pathClean cwd2 = cwd2 → cwd1 ≠ cwd2 →
      (index ⟨pr, ti, files, [], [], Emitter.init⟩ cwd1).2.elements.head?
        ≠ (index ⟨pr, ti, files, [], [], Emitter.init⟩ cwd2).2.elements.head?) := by
  have hhead : ∀ (pr ti : String) (files : List (String × fileInfo)) (cwd : String),
      cwd.data.head? = some '/' →
      (index ⟨pr, ti, files, [], [], Emitter.init⟩ cwd).2.elements.head?
        = some (1, Element.metaData ("file://" ++ pathClean cwd) ti) := by
    intro pr ti files cwd habs
    obtain ⟨t, ht⟩ := index_elements_head pr ti files cwd
    rw [ht, filepathAbs_dot cwd habs]
    rfl
  refine ⟨?_, hhead, ?_, ?_⟩
  · intro pr1 pr2 ti files defs refs em cwd
    rfl
  · intro pr ti files cwd
    rw [index_run]
    simp only []
    set em0 : Emitter :=
      ⟨3, [(1, Element.metaData ("file://" ++ filepathAbs cwd ".") ti),
           (2, Element.project LanguageScala)]⟩ with hem0
    obtain ⟨d1, d2, d3, d4, d5, d6⟩ := indexDbDocs_shape files 2 cwd em0
    obtain ⟨u1, u2, u3, u4, u5, u6, u7, u8⟩ := usesPassFiles_preserves
      (defsPassFiles (indexDbDocs files 2 cwd em0).1 [] [] (indexDbDocs files 2 cwd em0).2).files
      (defsPassFiles (indexDbDocs files 2 cwd em0).1 [] [] (indexDbDocs files 2 cwd em0).2).defs
      (defsPassFiles (indexDbDocs files 2 cwd em0).1 [] [] (indexDbDocs files 2 cwd em0).2).refs
      (defsPassFiles (indexDbDocs files 2 cwd em0).1 [] [] (indexDbDocs files 2 cwd em0).2).em
    obtain ⟨l1, l2⟩ := linkPass_preserves
      (usesPassFiles
        (defsPassFiles (indexDbDocs files 2 cwd em0).1 [] [] (indexDbDocs files 2 cwd em0).2).files
        (defsPassFiles (indexDbDocs files 2 cwd em0).1 [] [] (indexDbDocs files 2 cwd em0).2).defs
        (defsPassFiles (indexDbDocs files 2 cwd em0).1 [] [] (indexDbDocs files 2 cwd em0).2).refs
        (defsPassFiles (indexDbDocs files 2 cwd em0).1 [] [] (indexDbDocs files 2 cwd em0).2).em).files
      (usesPassFiles
        (defsPassFiles (indexDbDocs files 2 cwd em0).1 [] [] (indexDbDocs files 2 cwd em0).2).files
        (defsPassFiles (indexDbDocs files 2 cwd em0).1 [] [] (indexDbDocs files 2 cwd em0).2).defs
        (defsPassFiles (indexDbDocs files 2 cwd em0).1 [] [] (indexDbDocs files 2 cwd em0).2).refs
        (defsPassFiles (indexDbDocs files 2 cwd em0).1 [] [] (indexDbDocs files 2 cwd em0).2).em).refs
      (usesPassFiles
        (defsPassFiles (indexDbDocs files 2 cwd em0).1 [] [] (indexDbDocs files 2 cwd em0).2).files
        (defsPassFiles (indexDbDocs files 2 cwd em0).1 [] [] (indexDbDocs files 2 cwd em0).2).defs
        (defsPassFiles (indexDbDocs files 2 cwd em0).1 [] [] (indexDbDocs files 2 cwd em0).2).refs
        (defsPassFiles (indexDbDocs files 2 cwd em0).1 [] [] (indexDbDocs files 2 cwd em0).2).em).em
    have hdefs := defsPassFiles_no_document (indexDbDocs files 2 cwd em0).1
      [] [] (indexDbDocs files 2 cwd em0).2
    rw [l2, u7, hdefs, d2]
    rfl
  · intro pr ti files cwd1 cwd2 h1 h2 hc1 hc2 hne heq
    rw [hhead pr ti files cwd1 h1, hhead pr ti files cwd2 h2] at heq
    simp only [Option.some.injEq, Prod.mk.injEq, Element.metaData.injEq] at heq
    have huri : "file://" ++ pathClean cwd1 = "file://" ++ pathClean cwd2 := heq.2.1
    rw [hc1, hc2] at huri
    exact hne (string_append_left_cancel huri)

theorem C10_uris_from_working_directory_witness :
    (index ⟨"/proj", "tool", exFilesW, [], [], Emitter.init⟩ "/a").2.elements.head?
      ≠ (index ⟨"/proj", "tool", exFilesW, [], [], Emitter.init⟩ "/b").2.elements.head? :=
  C10_uris_from_working_directory.2.2.2 "/proj" "tool" exFilesW "/a" "/b"
    (by decide) (by decide) (by decide) (by decide) (by decide)

/-! ### C4: pass L per global symbol -/

/-- All range IDs in a per-document range table. -/
def joinVals (m : List (Nat × List Nat)) : List Nat := (m.map Prod.snd).flatten

/-- Number of defining ranges accumulated for a symbol in a reference
table. -/
def mDef (refs : List (String × refResultInfo)) (s : String) : Nat :=
  match alookup refs s with
  | none => 0
  | some rr => (joinVals rr.defRangeIDs).length

/-- Number of referencing ranges accumulated for a symbol in a reference
table. -/
def mRef (refs : List (String × refResultInfo)) (s : String) : Nat :=
  match alookup refs s with
  | none => 0
  | some rr => (joinVals rr.refRangeIDs).length

/-- The global key a reference resolves to through the cascade, if any. -/
def resolveRefGlobalKey (fi : fileInfo) (defs : List (String × defInfo)) (sym : String) :
    Option String :=
  match resolveRef fi defs sym with
  | some (_, false, k) => some k
  | _ => none

/-- Number of defining occurrences of symbol `s` in an occurrence list. -/
def defCount (s : String) (os : List SymbolOccurrence) : Nat :=
  os.countP fun o => decide (o.role = Role.definition) && decide (o.symbol = s)

/-- Number of defining occurrences of `s` over all documents. -/
def defCountFiles (s : String) (files : List (String × fileInfo)) : Nat :=
  (files.map fun p => defCount s p.2.document.occurrences).sum

/-- Number of referencing occurrences of one document that resolve to the
global key `s`. -/
def refHitCount (fi : fileInfo) (defs : List (String × defInfo)) (s : String)
    (os : List SymbolOccurrence) : Nat :=
  os.countP fun o => decide (o.role = Role.reference) &&
    decide (resolveRefGlobalKey fi defs o.symbol = some s)

/-- Number of referencing occurrences over all documents that resolve to
the global key `s`. -/
def refHitCountFiles (defs : List (String × defInfo)) (s : String)
    (files : List (String × fileInfo)) : Nat :=
  (files.map fun p => refHitCount p.2 defs s p.2.document.occurrences).sum

/-- `inVs` of all `item-of-definitions` edges in an emitted stream. -/
def itemOfDefInVs (es : List (Nat × Element)) : List Nat :=
  (es.map fun p =>
    match p.2 with
    | Element.itemOfDefinitions _ inVs _ => inVs
    | _ => []).flatten

/-- `inVs` of all `item-of-references` edges in an emitted stream. -/
def itemOfRefInVs (es : List (Nat × Element)) : List Nat :=
  (es.map fun p =>
    match p.2 with
    | Element.itemOfReferences _ inVs _ => inVs
    | _ => []).flatten

theorem mapAppend_cons_ne (a : Nat) (l : List Nat) (rest : List (Nat × List Nat))
    (k v : Nat) (h : ¬a = k) :
    mapAppend ((a, l) :: rest) k v = (a, l) :: mapAppend rest k v := by
  unfold mapAppend
  rw [show alookup ((a, l) :: rest) k = alookup rest k from by simp [alookup, h]]
  rcases hr : alookup rest k with _ | l'
  · simp [aset, h]
  · simp [aset, h]

theorem joinVals_mapAppend (m : List (Nat × List Nat)) (k v : Nat) :
    (joinVals (mapAppend m k v)).length = (joinVals m).length + 1 := by
  induction m with
  | nil => rfl
  | cons p rest ih =>
    rcases p with ⟨a, l⟩
    by_cases h : a = k
    · subst h
      have h1 : mapAppend ((a, l) :: rest) a v = (a, l ++ [v]) :: rest := by
        simp [mapAppend, alookup, aset]
      rw [h1]
      simp [joinVals]
      omega
    · rw [mapAppend_cons_ne a l rest k v h]
      simp only [joinVals, List.map_cons, List.flatten_cons, List.length_append] at ih ⊢
      omega

theorem resolveRef_global_defs_hit (fi : fileInfo) (defs : List (String × defInfo))
    (sym : String) (d : defInfo) (k : String)
    (h : resolveRef fi defs sym = some (d, false, k)) : alookup defs k = some d := by
  unfold resolveRef at h
  rcases hl : alookup fi.localDefs sym with _ | d0
  · rw [hl] at h
    simp only [] at h
    revert h
    generalize [sym, sym.replace "." "#", (sym.replace "_=" "").replace "`" ""] = ks
    induction ks with
    | nil => intro h; simp [resolveRef.firstHitKey] at h
    | cons k0 rest ih =>
      intro h
      rcases h0 : alookup defs k0 with _ | d0
      · rw [resolveRef.firstHitKey, h0] at h
        exact ih h
      · rw [resolveRef.firstHitKey, h0] at h
        simp at h
        rw [← h.2, ← h.1]
        exact h0
  · rw [hl] at h
    simp at h

theorem resolveRef_localDefs_congr (fi1 fi2 : fileInfo) (defs : List (String × defInfo))
    (sym : String) (h : fi1.localDefs = fi2.localDefs) :
    resolveRef fi1 defs sym = resolveRef fi2 defs sym := by
  unfold resolveRef
  rw [h]

theorem defsStep_mDef (acc : PassAcc) (occ : SymbolOccurrence) (s : String)
    (hs : s.startsWith "local" = false) :
    mDef (defsStep acc occ).refs s =
      mDef acc.refs s +
        (if occ.role = Role.definition ∧ occ.symbol = s then 1 else 0) := by
  by_cases hrole : occ.role = Role.definition
  · cases hloc : occ.symbol.startsWith "local"
    · by_cases hsym : occ.symbol = s
      · subst hsym
        rcases hl : alookup acc.refs occ.symbol with _ | rr
        · rw [defsStep_global_fresh acc occ hrole hloc hl]
          simp only [mDef, alookup_aset_self, hl, hrole, and_self, if_pos]
          simp [joinVals]
        · rw [defsStep_global_stale acc occ rr hrole hloc hl]
          simp only [mDef, alookup_aset_self, hl, hrole, and_self, if_pos]
          exact joinVals_mapAppend rr.defRangeIDs acc.fi.docID acc.em.nextID
      · have hne : s ≠ occ.symbol := Ne.symm hsym
        rcases hl : alookup acc.refs occ.symbol with _ | rr
        · rw [defsStep_global_fresh acc occ hrole hloc hl]
          simp only [mDef, alookup_aset_ne _ _ _ _ hne]
          simp [hsym]
        · rw [defsStep_global_stale acc occ rr hrole hloc hl]
          simp only [mDef, alookup_aset_ne _ _ _ _ hne]
          simp [hsym]
    · have hsym : ¬occ.symbol = s := by
        intro he
        rw [he, hs] at hloc
        exact Bool.false_ne_true hloc
      rcases hl : alookup acc.fi.localRefs occ.symbol with _ | rr
      · rw [defsStep_local_fresh acc occ hrole hloc hl]
        simp [hsym]
      · rw [defsStep_local_stale acc occ rr hrole hloc hl]
        simp [hsym]
  · rw [defsStep_skip acc occ hrole]
    simp [hrole]

theorem defsStep_mRef (acc : PassAcc) (occ : SymbolOccurrence) (s : String) :
    mRef (defsStep acc occ).refs s = mRef acc.refs s := by
  by_cases hrole : occ.role = Role.definition
  · cases hloc : occ.symbol.startsWith "local"
    · by_cases hsym : occ.symbol = s
      · subst hsym
        rcases hl : alookup acc.refs occ.symbol with _ | rr
        · rw [defsStep_global_fresh acc occ hrole hloc hl]
          simp only [mRef, alookup_aset_self, hl]
          simp [joinVals]
        · rw [defsStep_global_stale acc occ rr hrole hloc hl]
          simp only [mRef, alookup_aset_self, hl]
      · have hne : s ≠ occ.symbol := Ne.symm hsym
        rcases hl : alookup acc.refs occ.symbol with _ | rr
        · rw [defsStep_global_fresh acc occ hrole hloc hl]
          simp only [mRef, alookup_aset_ne _ _ _ _ hne]
        · rw [defsStep_global_stale acc occ rr hrole hloc hl]
          simp only [mRef, alookup_aset_ne _ _ _ _ hne]
    · rcases hl : alookup acc.fi.localRefs occ.symbol with _ | rr
      · rw [defsStep_local_fresh acc occ hrole hloc hl]
      · rw [defsStep_local_stale acc occ rr hrole hloc hl]
  · rw [defsStep_skip acc occ hrole]

theorem usesStep_mDef (acc : PassAcc) (occ : SymbolOccurrence) (s : String) :
    mDef (usesStep acc occ).refs s = mDef acc.refs s := by
  by_cases hrole : occ.role = Role.reference
  · rcases hres : resolveRef acc.fi acc.defs occ.symbol with _ | ⟨d, b, k⟩
    · rw [usesStep_unresolved acc occ hrole hres]
    · cases b
      · rcases hrr : alookup acc.refs k with _ | rr
        · rw [usesStep_global_miss acc occ d k hrole hres hrr]
        · rw [usesStep_global_hit acc occ d k rr hrole hres hrr]
          by_cases hk : k = s
          · subst hk
            simp only [mDef, alookup_aset_self, hrr]
          · have hne : s ≠ k := Ne.symm hk
            simp only [mDef, alookup_aset_ne _ _ _ _ hne]
      · rcases hrr : alookup acc.fi.localRefs k with _ | rr
        · rw [usesStep_local_miss acc occ d k hrole hres hrr]
        · rw [usesStep_local_hit acc occ d k rr hrole hres hrr]
  · rw [usesStep_skip acc occ hrole]

theorem usesStep_refs_keys (acc : PassAcc) (occ : SymbolOccurrence) :
    (usesStep acc occ).refs.map Prod.fst = acc.refs.map Prod.fst := by
  by_cases hrole : occ.role = Role.reference
  · rcases hres : resolveRef acc.fi acc.defs occ.symbol with _ | ⟨d, b, k⟩
    · rw [usesStep_unresolved acc occ hrole hres]
    · cases b
      · rcases hrr : alookup acc.refs k with _ | rr
        · rw [usesStep_global_miss acc occ d k hrole hres hrr]
        · rw [usesStep_global_hit acc occ d k rr hrole hres hrr]
          have hmem : k ∈ acc.refs.map Prod.fst := by
            rw [← alookup_isSome_iff_mem, hrr]
            rfl
          simp [keys_aset, hmem]
      · rcases hrr : alookup acc.fi.localRefs k with _ | rr
        · rw [usesStep_local_miss acc occ d k hrole hres hrr]
        · rw [usesStep_local_hit acc occ d k rr hrole hres hrr]
  · rw [usesStep_skip acc occ hrole]

theorem usesStep_mRef (acc : PassAcc) (occ : SymbolOccurrence) (s : String)
    (hkeys : ∀ k', (alookup acc.defs k').isSome → (alookup acc.refs k').isSome) :
    mRef (usesStep acc occ).refs s =
      mRef acc.refs s +
        (if occ.role = Role.reference ∧
            resolveRefGlobalKey acc.fi acc.defs occ.symbol = some s then 1 else 0) := by
  by_cases hrole : occ.role = Role.reference
  · rcases hres : resolveRef acc.fi acc.defs occ.symbol with _ | ⟨d, b, k⟩
    · rw [usesStep_unresolved acc occ hrole hres]
      simp [resolveRefGlobalKey, hres]
    · cases b
      · rcases hrr : alookup acc.refs k with _ | rr
        · exfalso
          have hd : alookup acc.defs k = some d :=
            resolveRef_global_defs_hit acc.fi acc.defs occ.symbol d k hres
          have := hkeys k (by rw [hd]; rfl)
          rw [hrr] at this
          exact Bool.false_ne_true this
        · rw [usesStep_global_hit acc occ d k rr hrole hres hrr]
          by_cases hk : k = s
          · subst hk
            simp only [mRef, alookup_aset_self, hrr, resolveRefGlobalKey, hres, hrole,
              and_self, if_pos]
            exact joinVals_mapAppend rr.refRangeIDs acc.fi.docID acc.em.nextID
          · have hne : s ≠ k := Ne.symm hk
            simp only [mRef, alookup_aset_ne _ _ _ _ hne, resolveRefGlobalKey, hres]
            simp [hk]
      · rcases hrr : alookup acc.fi.localRefs k with _ | rr
        · rw [usesStep_local_miss acc occ d k hrole hres hrr]
          simp [resolveRefGlobalKey, hres]
        · rw [usesStep_local_hit acc occ d k rr hrole hres hrr]
          simp [resolveRefGlobalKey, hres]
  · rw [usesStep_skip acc occ hrole]
    simp [hrole]

theorem defCount_cons (s : String) (o : SymbolOccurrence) (os : List SymbolOccurrence) :
    defCount s (o :: os) =
      defCount s os + (if o.role = Role.definition ∧ o.symbol = s then 1 else 0) := by
  unfold defCount
  rw [List.countP_cons]
  by_cases h1 : o.role = Role.definition <;> by_cases h2 : o.symbol = s <;> simp [h1, h2]

theorem runLoop_defs_mDef (os : List SymbolOccurrence) :
    ∀ (acc : PassAcc) (s : String), s.startsWith "local" = false →
      mDef (runLoop defsStep acc os).refs s = mDef acc.refs s + defCount s os := by
  induction os with
  | nil =>
    intro acc s _
    simp [runLoop, defCount]
  | cons o rest ih =>
    intro acc s hs
    rw [runLoop, ih (defsStep acc o) s hs, defsStep_mDef acc o s hs, defCount_cons]
    omega

theorem runLoop_defs_mRef (os : List SymbolOccurrence) :
    ∀ (acc : PassAcc) (s : String),
      mRef (runLoop defsStep acc os).refs s = mRef acc.refs s := by
  induction os with
  | nil => intro acc s; rfl
  | cons o rest ih =>
    intro acc s
    rw [runLoop, ih (defsStep acc o) s, defsStep_mRef acc o s]

theorem indexDbDefs_mDef (fi : fileInfo) (defs : List (String × defInfo))
    (refs : List (String × refResultInfo)) (em : Emitter) (s : String)
    (hs : s.startsWith "local" = false) :
    mDef (indexDbDefs fi defs refs em).2.2.1 s
      = mDef refs s + defCount s fi.document.occurrences := by
  unfold indexDbDefs
  have h := runLoop_defs_mDef fi.document.occurrences ⟨fi, defs, refs, em, []⟩ s hs
  simpa using h

theorem indexDbDefs_mRef (fi : fileInfo) (defs : List (String × defInfo))
    (refs : List (String × refResultInfo)) (em : Emitter) (s : String) :
    mRef (indexDbDefs fi defs refs em).2.2.1 s = mRef refs s := by
  unfold indexDbDefs
  have h := runLoop_defs_mRef fi.document.occurrences ⟨fi, defs, refs, em, []⟩ s
  simpa using h

theorem defsPassFiles_mDef (files : List (String × fileInfo)) :
    ∀ (defs : List (String × defInfo)) (refs : List (String × refResultInfo)) (em : Emitter)
      (s : String), s.startsWith "local" = false →
      mDef (defsPassFiles files defs refs em).refs s = mDef refs s + defCountFiles s files := by
  induction files with
  | nil =>
    intro defs refs em s _
    simp [defsPassFiles, defCountFiles]
  | cons p rest ih =>
    intro defs refs em s hs
    rcases p with ⟨uri, fi⟩
    rw [defsPassFiles]
    have b := ih (indexDbDefs fi defs refs em).2.1
      (indexDbDefs fi defs refs em).2.2.1 (indexDbDefs fi defs refs em).2.2.2 s hs
    have a := indexDbDefs_mDef fi defs refs em s hs
    have hc : defCountFiles s ((uri, fi) :: rest)
        = defCount s fi.document.occurrences + defCountFiles s rest := by
      simp [defCountFiles]
    rw [hc]
    show mDef (defsPassFiles rest _ _ _).refs s = _
    omega

theorem defsPassFiles_mRef (files : List (String × fileInfo)) :
    ∀ (defs : List (String × defInfo)) (refs : List (String × refResultInfo)) (em : Emitter)
      (s : String),
      mRef (defsPassFiles files defs refs em).refs s = mRef refs s := by
  induction files with
  | nil => intro defs refs em s; rfl
  | cons p rest ih =>
    intro defs refs em s
    rcases p with ⟨uri, fi⟩
    rw [defsPassFiles]
    have b := ih (indexDbDefs fi defs refs em).2.1
      (indexDbDefs fi defs refs em).2.2.1 (indexDbDefs fi defs refs em).2.2.2 s
    have a := indexDbDefs_mRef fi defs refs em s
    show mRef (defsPassFiles rest _ _ _).refs s = _
    omega

theorem runLoop_uses_mDef (os : List SymbolOccurrence) :
    ∀ (acc : PassAcc) (s : String),
      mDef (runLoop usesStep acc os).refs s = mDef acc.refs s := by
  induction os with
  | nil => intro acc s; rfl
  | cons o rest ih =>
    intro acc s
    rw [runLoop, ih (usesStep acc o) s, usesStep_mDef acc o s]

theorem runLoop_uses_refs_keys (os : List SymbolOccurrence) :
    ∀ acc : PassAcc,
      (runLoop usesStep acc os).refs.map Prod.fst = acc.refs.map Prod.fst := by
  induction os with
  | nil => intro acc; rfl
  | cons o rest ih =>
    intro acc
    rw [runLoop, ih (usesStep acc o), usesStep_refs_keys acc o]

theorem refHitCount_cons (fi : fileInfo) (defs : List (String × defInfo)) (s : String)
    (o : SymbolOccurrence) (os : List SymbolOccurrence) :
    refHitCount fi defs s (o :: os) =
      refHitCount fi defs s os +
        (if o.role = Role.reference ∧
            resolveRefGlobalKey fi defs o.symbol = some s then 1 else 0) := by
  unfold refHitCount
  rw [List.countP_cons]
  by_cases h1 : o.role = Role.reference <;>
    by_cases h2 : resolveRefGlobalKey fi defs o.symbol = some s <;> simp [h1, h2]

theorem runLoop_uses_mRef (os : List SymbolOccurrence) :
    ∀ acc : PassAcc,
      (∀ k', (alookup acc.defs k').isSome → (alookup acc.refs k').isSome) →
      ∀ s : String,
      mRef (runLoop usesStep acc os).refs s =
        mRef acc.refs s + refHitCount acc.fi acc.defs s os := by
  induction os with
  | nil =>
    intro acc _ s
    simp [runLoop, refHitCount]
  | cons o rest ih =>
    intro acc hkeys s
    have hpre := usesStep_preserves acc o
    have hk1 := usesStep_refs_keys acc o
    have hkeys1 : ∀ k', (alookup (usesStep acc o).defs k').isSome →
        (alookup (usesStep acc o).refs k').isSome := by
      intro k' h
      rw [hpre.2.2.2.1] at h
      rw [alookup_isSome_iff_mem, hk1, ← alookup_isSome_iff_mem]
      exact hkeys k' h
    have hfun : ∀ sym, resolveRefGlobalKey (usesStep acc o).fi (usesStep acc o).defs sym
        = resolveRefGlobalKey acc.fi acc.defs sym := by
      intro sym
      unfold resolveRefGlobalKey
      rw [hpre.2.2.2.1,
        resolveRef_localDefs_congr (usesStep acc o).fi acc.fi acc.defs sym hpre.2.2.2.2.2.1]
    have hcongr : refHitCount (usesStep acc o).fi (usesStep acc o).defs s rest
        = refHitCount acc.fi acc.defs s rest := by
      unfold refHitCount
      apply List.countP_congr
      intro a _
      rw [hfun a.symbol]
    rw [runLoop, ih (usesStep acc o) hkeys1 s, usesStep_mRef acc o s hkeys, hcongr,
      refHitCount_cons]
    omega

theorem indexDbUses_mDef (fi : fileInfo) (defs : List (String × defInfo))
    (refs : List (String × refResultInfo)) (em : Emitter) (s : String) :
    mDef (indexDbUses fi defs refs em).2.2.1 s = mDef refs s := by
  unfold indexDbUses
  have h := runLoop_uses_mDef fi.document.occurrences ⟨fi, defs, refs, em, []⟩ s
  simpa using h

theorem indexDbUses_refs_keys (fi : fileInfo) (defs : List (String × defInfo))
    (refs : List (String × refResultInfo)) (em : Emitter) :
    (indexDbUses fi defs refs em).2.2.1.map Prod.fst = refs.map Prod.fst := by
  unfold indexDbUses
  have h := runLoop_uses_refs_keys fi.document.occurrences ⟨fi, defs, refs, em, []⟩
  simpa using h

theorem indexDbUses_mRef (fi : fileInfo) (defs : List (String × defInfo))
    (refs : List (String × refResultInfo)) (em : Emitter) (s : String)
    (hkeys : ∀ k', (alookup defs k').isSome → (alookup refs k').isSome) :
    mRef (indexDbUses fi defs refs em).2.2.1 s
      = mRef refs s + refHitCount fi defs s fi.document.occurrences := by
  unfold indexDbUses
  have h := runLoop_uses_mRef fi.document.occurrences ⟨fi, defs, refs, em, []⟩ hkeys s
  simpa using h

theorem usesPassFiles_mDef (files : List (String × fileInfo)) :
    ∀ (defs : List (String × defInfo)) (refs : List (String × refResultInfo)) (em : Emitter)
      (s : String),
      mDef (usesPassFiles files defs refs em).refs s = mDef refs s := by
  induction files with
  | nil => intro defs refs em s; rfl
  | cons p rest ih =>
    intro defs refs em s
    rcases p with ⟨uri, fi⟩
    rw [usesPassFiles]
    have b := ih (indexDbUses fi defs refs em).2.1
      (indexDbUses fi defs refs em).2.2.1 (indexDbUses fi defs refs em).2.2.2 s
    have a := indexDbUses_mDef fi defs refs em s
    show mDef (usesPassFiles rest _ _ _).refs s = _
    omega

theorem usesPassFiles_refs_keys (files : List (String × fileInfo)) :
    ∀ (defs : List (String × defInfo)) (refs : List (String × refResultInfo)) (em : Emitter),
      (usesPassFiles files defs refs em).refs.map Prod.fst = refs.map Prod.fst := by
  induction files with
  | nil => intro defs refs em; rfl
  | cons p rest ih =>
    intro defs refs em
    rcases p with ⟨uri, fi⟩
    rw [usesPassFiles]
    have b := ih (indexDbUses fi defs refs em).2.1
      (indexDbUses fi defs refs em).2.2.1 (indexDbUses fi defs refs em).2.2.2
    have a := indexDbUses_refs_keys fi defs refs em
    show (usesPassFiles rest _ _ _).refs.map Prod.fst = _
    rw [b, a]

theorem usesPassFiles_mRef (files : List (String × fileInfo)) :
    ∀ (defs : List (String × defInfo)) (refs : List (String × refResultInfo)) (em : Emitter)
      (s : String),
      (∀ k', (alookup defs k').isSome → (alookup refs k').isSome) →
      mRef (usesPassFiles files defs refs em).refs s
        = mRef refs s + refHitCountFiles defs s files := by
  induction files with
  | nil =>
    intro defs refs em s _
    simp [usesPassFiles, refHitCountFiles]
  | cons p rest ih =>
    intro defs refs em s hkeys
    rcases p with ⟨uri, fi⟩
    rw [usesPassFiles]
    have hkeys1 : ∀ k', (alookup (indexDbUses fi defs refs em).2.1 k').isSome →
        (alookup (indexDbUses fi defs refs em).2.2.1 k').isSome := by
      intro k' h
      rw [(indexDbUses_preserves fi defs refs em).2.2.2.1] at h
      rw [alookup_isSome_iff_mem, indexDbUses_refs_keys, ← alookup_isSome_iff_mem]
      exact hkeys k' h
    have b := ih (indexDbUses fi defs refs em).2.1
      (indexDbUses fi defs refs em).2.2.1 (indexDbUses fi defs refs em).2.2.2 s hkeys1
    have a := indexDbUses_mRef fi defs refs em s hkeys
    have hd : (indexDbUses fi defs refs em).2.1 = defs :=
      (indexDbUses_preserves fi defs refs em).2.2.2.1
    have hc : refHitCountFiles defs s ((uri, fi) :: rest)
        = refHitCount fi defs s fi.document.occurrences + refHitCountFiles defs s rest := by
      simp [refHitCountFiles]
    rw [hc]
    show mRef (usesPassFiles rest _ _ _).refs s = _
    rw [hd] at b ⊢
    omega

theorem natSum_pos_iff (l : List Nat) : 0 < l.sum ↔ ∃ x ∈ l, 0 < x := by
  induction l with
  | nil => simp
  | cons x xs ih =>
    simp only [List.sum_cons, List.mem_cons]
    constructor
    · intro h
      by_cases hx : 0 < x
      · exact ⟨x, Or.inl rfl, hx⟩
      · have hxs : 0 < xs.sum := by omega
        rcases ih.mp hxs with ⟨y, hy, hy2⟩
        exact ⟨y, Or.inr hy, hy2⟩
    · rintro ⟨y, (rfl | hy), h2⟩
      · omega
      · have := ih.mpr ⟨y, hy, h2⟩
        omega

theorem mem_defSyms_iff (s : String) (hs : s.startsWith "local" = false)
    (os : List SymbolOccurrence) : s ∈ defSyms false os ↔ 0 < defCount s os := by
  unfold defSyms defCount
  rw [List.mem_filterMap, List.countP_pos_iff]
  constructor
  · rintro ⟨o, ho, hsym⟩
    refine ⟨o, ho, ?_⟩
    unfold symOfDefOcc at hsym
    split_ifs at hsym with h1 h2
    simp only [Option.some.injEq] at hsym
    simp [h1, hsym]
  · rintro ⟨o, ho, hp⟩
    simp only [Bool.and_eq_true, decide_eq_true_eq] at hp
    exact ⟨o, ho, by simp [symOfDefOcc, hp.1, hp.2, hs]⟩

theorem mem_globalDefSymsF_iff (s : String) (hs : s.startsWith "local" = false)
    (files : List (String × fileInfo)) :
    s ∈ globalDefSymsF files ↔ 0 < defCountFiles s files := by
  unfold globalDefSymsF defCountFiles
  rw [List.mem_flatten, natSum_pos_iff]
  constructor
  · rintro ⟨l, hl, hsl⟩
    rcases List.mem_map.mp hl with ⟨p, hp, rfl⟩
    refine ⟨defCount s p.2.document.occurrences, List.mem_map.mpr ⟨p, hp, rfl⟩, ?_⟩
    exact (mem_defSyms_iff s hs _).mp hsl
  · rintro ⟨x, hx, hpos⟩
    rcases List.mem_map.mp hx with ⟨p, hp, rfl⟩
    refine ⟨defSyms false p.2.document.occurrences, List.mem_map.mpr ⟨p, hp, rfl⟩, ?_⟩
    exact (mem_defSyms_iff s hs _).mpr hpos

theorem length_itemsOfDefsList (rid : Nat) (entries : List (Nat × List Nat)) :
    ∀ i, (itemsOfDefsList rid i entries).length = entries.length := by
  induction entries with
  | nil => intro i; rfl
  | cons p rest ih =>
    intro i
    rcases p with ⟨a, b⟩
    rw [itemsOfDefsList]
    simp [ih]

theorem length_itemsOfRefsList (rid : Nat) (entries : List (Nat × List Nat)) :
    ∀ i, (itemsOfRefsList rid i entries).length = entries.length := by
  induction entries with
  | nil => intro i; rfl
  | cons p rest ih =>
    intro i
    rcases p with ⟨a, b⟩
    rw [itemsOfRefsList]
    simp [ih]

theorem itemOfDefInVs_append (a b : List (Nat × Element)) :
    itemOfDefInVs (a ++ b) = itemOfDefInVs a ++ itemOfDefInVs b := by
  simp [itemOfDefInVs]

theorem itemOfRefInVs_append (a b : List (Nat × Element)) :
    itemOfRefInVs (a ++ b) = itemOfRefInVs a ++ itemOfRefInVs b := by
  simp [itemOfRefInVs]

theorem itemOfDefInVs_itemsOfDefsList (rid : Nat) (entries : List (Nat × List Nat)) :
    ∀ i, itemOfDefInVs (itemsOfDefsList rid i entries) = joinVals entries := by
  induction entries with
  | nil => intro i; rfl
  | cons p rest ih =>
    intro i
    rcases p with ⟨a, b⟩
    rw [itemsOfDefsList]
    simp only [itemOfDefInVs, joinVals, List.map_cons, List.flatten_cons] at ih ⊢
    rw [ih]

theorem itemOfDefInVs_itemsOfRefsList (rid : Nat) (entries : List (Nat × List Nat)) :
    ∀ i, itemOfDefInVs (itemsOfRefsList rid i entries) = [] := by
  induction entries with
  | nil => intro i; rfl
  | cons p rest ih =>
    intro i
    rcases p with ⟨a, b⟩
    rw [itemsOfRefsList]
    simp only [itemOfDefInVs, List.map_cons, List.flatten_cons] at ih ⊢
    rw [ih]
    simp

theorem itemOfRefInVs_itemsOfRefsList (rid : Nat) (entries : List (Nat × List Nat)) :
    ∀ i, itemOfRefInVs (itemsOfRefsList rid i entries) = joinVals entries := by
  induction entries with
  | nil => intro i; rfl
  | cons p rest ih =>
    intro i
    rcases p with ⟨a, b⟩
    rw [itemsOfRefsList]
    simp only [itemOfRefInVs, joinVals, List.map_cons, List.flatten_cons] at ih ⊢
    rw [ih]

theorem itemOfRefInVs_itemsOfDefsList (rid : Nat) (entries : List (Nat × List Nat)) :
    ∀ i, itemOfRefInVs (itemsOfDefsList rid i entries) = [] := by
  induction entries with
  | nil => intro i; rfl
  | cons p rest ih =>
    intro i
    rcases p with ⟨a, b⟩
    rw [itemsOfDefsList]
    simp only [itemOfRefInVs, List.map_cons, List.flatten_cons] at ih ⊢
    rw [ih]
    simp

theorem itemOfDefInVs_cons (p : Nat × Element) (es : List (Nat × Element)) :
    itemOfDefInVs (p :: es) =
      (match p.2 with
        | Element.itemOfDefinitions _ inVs _ => inVs
        | _ => []) ++ itemOfDefInVs es := by
  simp [itemOfDefInVs]

theorem itemOfRefInVs_cons (p : Nat × Element) (es : List (Nat × Element)) :
    itemOfRefInVs (p :: es) =
      (match p.2 with
        | Element.itemOfReferences _ inVs _ => inVs
        | _ => []) ++ itemOfRefInVs es := by
  simp [itemOfRefInVs]

/-- C4: for a global symbol `s`, (1) every pass-L step at a defining
occurrence of `s` whose table lookup yields `rr` emits exactly one
`referenceResult` vertex and one `textDocument/references` edge out of
`s`'s result set, plus one item edge per document entry, and the
`item-of-definitions` (resp. `item-of-references`) edges' `inVs` lists
concatenate to exactly the recorded defining (resp. referencing) ranges
of `rr` — nothing else is emitted; (2) after pass D and pass U over a
freshly loaded registry, the reference table reaching pass L records,
for `s`, exactly one defining range per defining occurrence of `s`
(`D = defCountFiles`) and exactly one referencing range per referencing
occurrence that the cascade resolves to `s` (`R = refHitCountFiles`),
and the pass-L lookup for `s` succeeds iff `D > 0`; hence pass L emits
exactly `D` reference results for `s`, each covering all `D` defining
and all `R` resolved referencing ranges. -/
theorem C4_reference_results :
    (∀ (fi : fileInfo) (refs : List (String × refResultInfo)) (em : Emitter)
        (occ : SymbolOccurrence) (s : String) (rr : refResultInfo),
        occ.role = Role.definition → occ.symbol = s →
        s.startsWith "local" = false → alookup refs s = some rr →
        ∃ t, linkStep fi refs em occ =
            ⟨em.nextID + 2 + rr.defRangeIDs.length + rr.refRangeIDs.length,
              em.elements ++ t⟩ ∧
          t.length = 2 + rr.defRangeIDs.length + rr.refRangeIDs.length ∧
          countLabel Label.referenceResultL t = 1 ∧
          countLabel Label.textDocumentReferencesL t = 1 ∧
          (em.nextID + 1, Element.textDocumentReferences rr.resultSetID em.nextID) ∈ t ∧
          itemOfDefInVs t = joinVals rr.defRangeIDs ∧
          itemOfRefInVs t = joinVals rr.refRangeIDs) ∧
    (∀ (em1 : Emitter) (files : List (String × fileInfo)) (s : String),
        s.startsWith "local" = false →
        mDef (usesPassFiles (defsPassFiles files [] [] em1).files
            (defsPassFiles files [] [] em1).defs (defsPassFiles files [] [] em1).refs
            (defsPassFiles files [] [] em1).em).refs s
          = defCountFiles s files ∧
        mRef (usesPassFiles (defsPassFiles files [] [] em1).files
            (defsPassFiles files [] [] em1).defs (defsPassFiles files [] [] em1).refs
            (defsPassFiles files [] [] em1).em).refs s
          = refHitCountFiles (defsPassFiles files [] [] em1).defs s
              (defsPassFiles files [] [] em1).files ∧
        ((alookup (usesPassFiles (defsPassFiles files [] [] em1).files
            (defsPassFiles files [] [] em1).defs (defsPassFiles files [] [] em1).refs
            (defsPassFiles files [] [] em1).em).refs s).isSome ↔
          0 < defCountFiles s files)) := by
  constructor
  · intro fi refs em occ s rr hrole hsym hs hrr
    subst hsym
    rw [linkStep_global_hit fi refs em occ rr hrole hs hrr]
    refine ⟨(em.nextID, Element.referenceResult) ::
        (em.nextID + 1, Element.textDocumentReferences rr.resultSetID em.nextID) ::
        (itemsOfDefsList em.nextID (em.nextID + 2) rr.defRangeIDs ++
         itemsOfRefsList em.nextID (em.nextID + 2 + rr.defRangeIDs.length) rr.refRangeIDs),
      rfl, ?_, ?_, ?_, ?_, ?_, ?_⟩
    · simp [length_itemsOfDefsList, length_itemsOfRefsList]
      omega
    · rw [countLabel_cons, countLabel_cons, countLabel_append,
        countLabel_itemsOfDefsList _ _ _ (by decide),
        countLabel_itemsOfRefsList _ _ _ (by decide)]
      simp [Element.label]
    · rw [countLabel_cons, countLabel_cons, countLabel_append,
        countLabel_itemsOfDefsList _ _ _ (by decide),
        countLabel_itemsOfRefsList _ _ _ (by decide)]
      simp [Element.label]
    · simp
    · rw [itemOfDefInVs_cons, itemOfDefInVs_cons, itemOfDefInVs_append,
        itemOfDefInVs_itemsOfDefsList, itemOfDefInVs_itemsOfRefsList]
      simp
    · rw [itemOfRefInVs_cons, itemOfRefInVs_cons, itemOfRefInVs_append,
        itemOfRefInVs_itemsOfDefsList, itemOfRefInVs_itemsOfRefsList]
      simp
  · intro em1 files s hs
    have hkeysEq : (defsPassFiles files [] [] em1).defs.map Prod.fst
        = (defsPassFiles files [] [] em1).refs.map Prod.fst := by
      have h := defsPassFiles_keys files [] [] em1
      rw [h.1, h.2.1]
      simp
    have hkeys : ∀ k', (alookup (defsPassFiles files [] [] em1).defs k').isSome →
        (alookup (defsPassFiles files [] [] em1).refs k').isSome := by
      intro k' h
      rw [alookup_isSome_iff_mem] at h ⊢
      rw [← hkeysEq]
      exact h
    refine ⟨?_, ?_, ?_⟩
    · rw [usesPassFiles_mDef, defsPassFiles_mDef files [] [] em1 s hs]
      simp [mDef, alookup]
    · rw [usesPassFiles_mRef _ _ _ _ s hkeys, defsPassFiles_mRef files [] [] em1 s]
      simp [mRef, alookup]
    · rw [alookup_isSome_iff_mem, usesPassFiles_refs_keys,
        (defsPassFiles_keys files [] [] em1).2.1, mem_dedupAux]
      simp only [List.map_nil, List.not_mem_nil, false_or]
      exact mem_globalDefSymsF_iff s hs files

/-- The reference-result record stored for `g.X#` in `exRefsG`. -/
def rrW : refResultInfo := ⟨6, [(3, [5])], []⟩

theorem C4_reference_results_witness :
    (∃ t, linkStep emptyFi exRefsG em0 occD =
        ⟨em0.nextID + 2 + rrW.defRangeIDs.length + rrW.refRangeIDs.length,
          em0.elements ++ t⟩ ∧
      t.length = 2 + rrW.defRangeIDs.length + rrW.refRangeIDs.length ∧
      countLabel Label.referenceResultL t = 1 ∧
      countLabel Label.textDocumentReferencesL t = 1 ∧
      (em0.nextID + 1, Element.textDocumentReferences rrW.resultSetID em0.nextID) ∈ t ∧
      itemOfDefInVs t = joinVals rrW.defRangeIDs ∧
      itemOfRefInVs t = joinVals rrW.refRangeIDs) ∧
    (mDef (usesPassFiles (defsPassFiles exFilesW [] [] Emitter.init).files
        (defsPassFiles exFilesW [] [] Emitter.init).defs
        (defsPassFiles exFilesW [] [] Emitter.init).refs
        (defsPassFiles exFilesW [] [] Emitter.init).em).refs "g.X#"
      = defCountFiles "g.X#" exFilesW ∧
     mRef (usesPassFiles (defsPassFiles exFilesW [] [] Emitter.init).files
        (defsPassFiles exFilesW [] [] Emitter.init).defs
        (defsPassFiles exFilesW [] [] Emitter.init).refs
        (defsPassFiles exFilesW [] [] Emitter.init).em).refs "g.X#"
      = refHitCountFiles (defsPassFiles exFilesW [] [] Emitter.init).defs "g.X#"
          (defsPassFiles exFilesW [] [] Emitter.init).files ∧
     ((alookup (usesPassFiles (defsPassFiles exFilesW [] [] Emitter.init).files
        (defsPassFiles exFilesW [] [] Emitter.init).defs
        (defsPassFiles exFilesW [] [] Emitter.init).refs
        (defsPassFiles exFilesW [] [] Emitter.init).em).refs "g.X#").isSome ↔
      0 < defCountFiles "g.X#" exFilesW)) :=
  ⟨C4_reference_results.1 emptyFi exRefsG em0 occD "g.X#" rrW rfl rfl (by decide) (by decide),
   C4_reference_results.2 Emitter.init exFilesW "g.X#" (by decide)⟩
